import Mathlib

/-!
# AnalogKeyMatrix

A shallow embedding of `AnalogKeyMatrix.h`: the constructor that calibrates the
key table (copy, exchange sort, halfway limits, release boundary) and the
`resetStates` / `read` state machine with its circular log.

Conventions of the embedding.

* Arrays are lists of cells; `rd a i` reads `a[i]` and `setAt a i x` is the
  write `a[i] = x`.  `keys` is indexed by row, `_log` by slot.
* `uint16_t` cells are natural numbers; where the C arithmetic can leave the
  range (`kmin - 1`, the release break point) the conversion `% 65536` is
  explicit.  `uint8_t nthKey` is reduced `% 256`, `int8_t nAgoIdx` is wrapped
  by `wrapInt8`.
* The pointers `now`, `prev`, `log[n]` and the pointer returned by `read` are
  slot indices into `_log`.  `prev` and `log[n]` are integers, because the
  `int8_t` index of the shuffle can be negative when `AKM_LogSize` exceeds 127:
  `&_log[-1]` is a pointer before the array.
* `analogRead` and `millis` are inputs: every function that calls them takes
  the value they return as an argument.
* `double` is IEEE 754 binary64.  `double releaseTol` is the `double` nearest to
  the fraction `tolNum / tolDen` the caller wrote; its product with an integer
  is rounded to the nearest `double` (ties to even) and then truncated, as the
  cast to `uint16_t` does.
* `AKM_LogSize` is the argument `K`; the optional macro `AKM_ERROR` is an
  `Option Int` (`none` when it is not defined, as in the source as shipped).
* `int val` is compared with the `uint16_t` limits as integers, and
  `unsigned long` has 32 bits, so that `ms = -1` is `4294967295`.
* A `for` loop is a function recursive in the number of iterations left
  (`fuel`), called with the number of iterations of the source loop.
-/

namespace AKM

/-! ## Definitions: the embedding of the source, and the predicates of the statements -/

/-- One row `keys[x]` of `uint16_t keys[AKM_MaxNumOfKeys][4]`, with the columns
of `enum keyIndexes`. -/
structure KeyRow where
  knum : Nat
  kval : Nat
  kmin : Nat
  kmax : Nat
deriving DecidableEq

instance : Inhabited KeyRow := ⟨⟨0, 0, 0, 0⟩⟩

/-- The record `struct AKM_State`. -/
structure AKM_State where
  val : Int
  event : Int
  key : Int
  ms : Nat
deriving DecidableEq

/-- The data members of `class AnalogKeyMatrix` (the pin is left out). -/
structure AnalogKeyMatrix where
  numOfKeys : Nat
  nthKey : Nat
  keys : List KeyRow
  _log : List AKM_State
  now_i : Nat
  prev_i : Nat
  log : List Int
  now : Nat
  prev : Int

/-- Line 43: the number of rows of `keys`. -/
def AKM_MaxNumOfKeys : Nat := 48

/-- Line 61: no key pressed, and none before. -/
def AKM_IDLE : Int := 0

/-- Line 62: no key pressed, a key was pressed before. -/
def AKM_RELEASE : Int := 1

/-- Line 63: a key is pressed. -/
def AKM_PRESS : Int := 2

/-- Arduino `LOW`. -/
def LOW : Int := 0

/-- Arduino `HIGH`. -/
def HIGH : Int := 1

instance : Inhabited AKM_State := ⟨⟨0, 0, 0, 0⟩⟩

/-- Array read `a[i]`. -/
def rd {α : Type} [Inhabited α] (a : List α) (i : Nat) : α := a.getD i default

/-- Array write `a[i] = x`. -/
def setAt {α : Type} (a : List α) (i : Nat) (x : α) : List α := a.set i x

/-- Lines 130-134: `keys[i][knum] = i; keys[i][kval] = keyVals[i]` from index
`i` on, with `fuel` iterations left. -/
def copyLoop (keyVals : List Nat) : Nat → Nat → List KeyRow → List KeyRow
  | 0, _, keys => keys
  | fuel + 1, i, keys =>
    copyLoop keyVals fuel (i + 1)
      (setAt keys i { rd keys i with knum := i, kval := keyVals.getD i 0 })

/-- Lines 141-149: the body of the inner sort loop, four cell writes that
exchange number and value of rows `i` and `j` when `keys[i][kval] > keys[j][kval]`. -/
def swapStep (i j : Nat) (keys : List KeyRow) : List KeyRow :=
  if (rd keys i).kval > (rd keys j).kval then
    let n := (rd keys i).knum
    let v := (rd keys i).kval
    let k1 := setAt keys i { rd keys i with knum := (rd keys j).knum }
    let k2 := setAt k1 j { rd k1 j with knum := n }
    let k3 := setAt k2 i { rd k2 i with kval := (rd k2 j).kval }
    setAt k3 j { rd k3 j with kval := v }
  else keys

/-- Line 140: `for (j = ..; j < numOfKeys; ++j)`, with `fuel` iterations left. -/
def sortInner (i : Nat) : Nat → Nat → List KeyRow → List KeyRow
  | 0, _, keys => keys
  | fuel + 1, j, keys => sortInner i fuel (j + 1) (swapStep i j keys)

/-- Line 139: `for (i = ..; i < numOfKeys; ++i)`, with `fuel` iterations left. -/
def sortOuter (numOfKeys : Nat) : Nat → Nat → List KeyRow → List KeyRow
  | 0, _, keys => keys
  | fuel + 1, i, keys =>
    sortOuter numOfKeys fuel (i + 1) (sortInner i (numOfKeys - (i + 1)) (i + 1) keys)

/-- Lines 139-151, the whole sort. -/
def sortKeys (numOfKeys : Nat) (keys : List KeyRow) : List KeyRow :=
  sortOuter numOfKeys numOfKeys 0 keys

/-- Lines 155-158: resolution of `releaseState`. -/
def resolveRelease (releaseState : Int) (keys : List KeyRow) : Int :=
  if releaseState = -1 then (if (rd keys 0).kval = 0 then HIGH else LOW)
  else if releaseState > 0 then HIGH
  else LOW

/-- The value `c - (c - p) / 2.0` converted to `uint16_t` (lines 172, 186): the
double is the exact half-integer `(2c - (c - p)) / 2`, the conversion truncates. -/
def halfway (c p : Nat) : Nat :=
  (Int.toNat ((2 * (c : Int) - ((c : Int) - (p : Int))) / 2)) % 65536

/-- The value `x - 1` stored in a `uint16_t` (lines 177, 191). -/
def pred16 (x : Nat) : Nat := (x + 65535) % 65536

/-- Lines 167-194: the body of the limits loop at index `i`. -/
def limitsBody (nthKey i : Nat) (keys : List KeyRow) : List KeyRow :=
  let currVal := (rd keys i).kval
  let prevVal := (rd keys (i - 1)).kval
  let temp := halfway currVal prevVal
  let temp := if temp ≤ prevVal ∨ temp > currVal then currVal else temp
  let keys := setAt keys i { rd keys i with kmin := temp }
  let temp := pred16 (rd keys i).kmin
  let temp := if temp < prevVal ∨ temp ≥ currVal then prevVal else temp
  let keys := setAt keys (i - 1) { rd keys (i - 1) with kmax := temp }
  if i = nthKey - 1 then
    let nextVal := (rd keys nthKey).kval
    let temp := halfway nextVal currVal
    let temp := if temp ≤ currVal ∨ temp > nextVal then nextVal else temp
    let keys := setAt keys nthKey { rd keys nthKey with kmin := temp }
    let temp := pred16 (rd keys nthKey).kmin
    let temp := if temp ≤ currVal ∨ temp ≥ nextVal then currVal else temp
    setAt keys i { rd keys i with kmax := temp }
  else keys

/-- Line 165: `for (i = ..; i < nthKey; ++i)`, with `fuel` iterations left. -/
def limitsLoop (nthKey : Nat) : Nat → Nat → List KeyRow → List KeyRow
  | 0, _, keys => keys
  | fuel + 1, i, keys => limitsLoop nthKey fuel (i + 1) (limitsBody nthKey i keys)

/-- Rounding of the rational `a / b` to the nearest integer, ties to even: the
rounding of IEEE 754 arithmetic. -/
def roundHalfEven (a b : Nat) : Nat :=
  if 2 * (a % b) < b then a / b
  else if b < 2 * (a % b) then a / b + 1
  else a / b + (a / b) % 2

/-- The number of fraction bits of the binary64 `double` nearest to `a / b`: the
least `s` from `s` on with `2 ^ 52 ≤ (a / b) * 2 ^ s`, so that the significand
has 53 bits, and at most `fuel` more (1074 bits for a subnormal). -/
def fracBits (a b : Nat) : Nat → Nat → Nat
  | 0, s => s
  | fuel + 1, s => if 2 ^ 52 * b ≤ a * 2 ^ s then s else fracBits a b fuel (s + 1)

/-- The binary64 `double` nearest to the rational `a / b`, as the pair `(m, s)`
of the value `m / 2 ^ s`, for `a / b` below `2 ^ 53`. -/
def toDouble (a b : Nat) : Nat × Nat :=
  if a = 0 then (0, 0)
  else (roundHalfEven (a * 2 ^ fracBits a b 1074 0) b, fracBits a b 1074 0)

/-- The `double` product `x * releaseTol` (lines 201, 206) of an integer `x`,
which converts exactly, and the parameter `double releaseTol`, which is the
`double` nearest to the tolerance `tolNum / tolDen` the caller wrote: the exact
product is rounded to the nearest `double`. -/
def mulDouble (x tolNum tolDen : Nat) : Nat × Nat :=
  toDouble (x * (toDouble tolNum tolDen).1) (2 ^ (toDouble tolNum tolDen).2)

/-- The cast `(uint16_t)(x * releaseTol)` for an integer `x` and the tolerance
`tolNum / tolDen`: the `double` product, truncated toward zero, then reduced to
16 bits. -/
def truncMul16 (x : Int) (tolNum tolDen : Nat) : Nat :=
  if 0 ≤ x then
    ((mulDouble x.toNat tolNum tolDen).1 / 2 ^ (mulDouble x.toNat tolNum tolDen).2) % 65536
  else
    (65536 - ((mulDouble (-x).toNat tolNum tolDen).1 /
      2 ^ (mulDouble (-x).toNat tolNum tolDen).2) % 65536) % 65536

/-- Lines 199-208: the release boundary. -/
def setRelease (releaseState : Int) (tolNum tolDen nthKey : Nat)
    (keys : List KeyRow) : List KeyRow :=
  if releaseState = HIGH then
    let keys := setAt keys 0 { rd keys 0 with kmin := 0 }
    let releaseBP :=
      Int.toNat ((1023 - (truncMul16 (1023 - ((rd keys nthKey).kmin : Int)) tolNum tolDen : Int))
        % 65536)
    let releaseBP := if releaseBP ≥ 1023 then 1023 - 1 else releaseBP
    setAt keys nthKey { rd keys nthKey with kmax := releaseBP }
  else
    let keys := setAt keys nthKey { rd keys nthKey with kmax := 1023 }
    let releaseBP := truncMul16 ((rd keys 0).kval : Int) tolNum tolDen
    setAt keys 0 { rd keys 0 with kmin := releaseBP }

/-- Lines 128-209: the key table the constructor builds in `this->keys`, whose
prior contents are `keys0`. -/
def buildKeys (numOfKeys : Nat) (keyVals : List Nat) (releaseState : Int)
    (tolNum tolDen : Nat) (keys0 : List KeyRow) : List KeyRow :=
  let keys := copyLoop keyVals numOfKeys 0 keys0
  let keys := sortKeys numOfKeys keys
  let nthKey := (numOfKeys + 255) % 256
  let releaseState := resolveRelease releaseState keys
  let keys := limitsLoop nthKey (nthKey - 1) 1 keys
  setRelease releaseState tolNum tolDen nthKey keys

/-- Lines 223-231: `for (i = ..; i < AKM_LogSize; i++)`, with `fuel` iterations
left: every slot gets the seed record and `log[i]` points at slot `i`. -/
def resetLoop (val : Int) (ms : Nat) : Nat → Nat → AnalogKeyMatrix → AnalogKeyMatrix
  | 0, _, s => s
  | fuel + 1, i, s =>
    resetLoop val ms fuel (i + 1)
      { s with _log := setAt s._log i ⟨val, AKM_IDLE, -1, ms⟩, log := setAt s.log i (i : Int) }

/-- Conversion of an `int` to `int8_t`. -/
def wrapInt8 (x : Int) : Int := (x + 128) % 256 - 128

/-- Lines 347-348: `nAgoIdx = (nAgoIdx = now_i - n) >= 0 ? nAgoIdx : (AKM_LogSize + nAgoIdx)`. -/
def nAgoIdx (K now_i n : Nat) : Int :=
  let a := wrapInt8 ((now_i : Int) - (n : Int))
  if a ≥ 0 then a else wrapInt8 ((K : Int) + a)

/-- Lines 343-352: `for (n = ..; n < AKM_LogSize; n++)`, with `fuel` iterations
left: `log[n]` is pointed at slot `nAgoIdx`, and so is `prev` when `n == 1`. -/
def shuffleLoop (K : Nat) : Nat → Nat → AnalogKeyMatrix → AnalogKeyMatrix
  | 0, _, s => s
  | fuel + 1, n, s =>
    let idx := nAgoIdx K s.now_i n
    let s := { s with log := setAt s.log n idx }
    let s := if n = 1 then { s with prev := idx } else s
    shuffleLoop K fuel (n + 1) s

/-- Lines 332-361: the pointer shuffle when `this_i` moved, the write of the
record at `this_i`, and `return this->now`. -/
def readTail (K : Nat) (s : AnalogKeyMatrix) (this_i : Nat) (val event key : Int)
    (ms : Nat) : AnalogKeyMatrix × Nat :=
  let s :=
    if this_i ≠ s.now_i then
      let s := { s with prev := (s.now_i : Int) }
      let s := { s with now := this_i }
      let s := { s with now_i := this_i % 256 }
      let s := { s with log := setAt s.log 0 (s.now_i : Int) }
      shuffleLoop K (K - 1) 1 s
    else s
  let s := { s with _log := setAt s._log this_i ⟨val, event, key, ms⟩ }
  (s, s.now)

/-- Lines 304-329: the search for the first row with `val <= keys[key_i][kmax]`,
with `fuel` iterations left; the index found, if any. -/
def keyLoop (keys : List KeyRow) (val : Int) : Nat → Nat → Option Nat
  | 0, _ => none
  | fuel + 1, key_i =>
    if val ≤ ((rd keys key_i).kmax : Int) then some key_i
    else keyLoop keys val fuel (key_i + 1)

/-- Lines 248-362: `read()`.  `val` is what `analogRead` returns and `millis`
what `millis()` returns if it is called.  The result is the new object and the
slot the returned pointer designates.  The last branch is the fall through of
the key loop without a match, with the initial values `event = -1`, `key = -1`,
`ms = -1` of the locals. -/
def read (K : Nat) (AKM_ERROR : Option Int) (s : AnalogKeyMatrix) (val : Int)
    (millis : Nat) : AnalogKeyMatrix × Nat :=
  let this_i := s.now_i
  let last_call := rd s._log this_i
  if val < ((rd s.keys 0).kmin : Int) ∨ val > ((rd s.keys s.nthKey).kmax : Int) then
    if AKM_ERROR.isSome ∧ (val < 0 ∨ val > 1023) then
      ({ s with _log := setAt s._log this_i ⟨val, AKM_ERROR.getD 0, -1, millis⟩ }, this_i)
    else if last_call.event = AKM_IDLE then
      ({ s with _log := setAt s._log this_i { last_call with val := val } }, this_i)
    else
      let this_i := (this_i + 1) % K
      if last_call.event ≥ AKM_PRESS then
        readTail K s this_i val AKM_RELEASE last_call.key millis
      else
        readTail K s this_i val AKM_IDLE (-1) millis
  else
    match keyLoop s.keys val s.numOfKeys 0 with
    | some key_i =>
      let key : Int := ((rd s.keys key_i).knum : Int)
      if last_call.event = AKM_PRESS ∧ last_call.key = key then (s, this_i)
      else readTail K s ((this_i + 1) % K) val AKM_PRESS key millis
    | none => readTail K s this_i val (-1) (-1) 4294967295

/-- Lines 219-236 of `resetStates()`: the sample and clock value taken, every
slot seeded, and the cursors and pointers at their starting positions. -/
def resetCore (K : Nat) (s : AnalogKeyMatrix) (val : Int) (ms : Nat) : AnalogKeyMatrix :=
  let s := resetLoop val ms K 0 s
  let s := { s with now_i := 0 }
  let s := { s with now := s.now_i }
  let s := { s with prev_i := (K - 1) % 256 }
  { s with prev := (s.prev_i : Int) }

/-- Lines 217-245: `resetStates()`.  `val`, `ms` are its own sample and clock
value; `val2`, `ms2` are those of the `read()` it calls when `val` is in the
key range. -/
def resetStates (K : Nat) (AKM_ERROR : Option Int) (s : AnalogKeyMatrix) (val : Int)
    (ms : Nat) (val2 : Int) (ms2 : Nat) : AnalogKeyMatrix × Nat :=
  let s := resetCore K s val ms
  if val ≥ ((rd s.keys 0).kmin : Int) ∧ val ≤ ((rd s.keys s.nthKey).kmax : Int) then
    read K AKM_ERROR s val2 ms2
  else (s, s.now)

/-- Lines 124-212: the object when the constructor has built the table and is
about to call `resetStates()`.  `mem` is the storage of the object before
construction. -/
def calibrated (numOfKeys : Nat) (keyVals : List Nat) (releaseState : Int)
    (tolNum tolDen : Nat) (mem : AnalogKeyMatrix) : AnalogKeyMatrix :=
  { mem with
    keys := buildKeys numOfKeys keyVals releaseState tolNum tolDen mem.keys,
    numOfKeys := numOfKeys,
    nthKey := (numOfKeys + 255) % 256 }

/-- Lines 117-215: the constructor.  `val`, `ms`, `val2`, `ms2` are passed to
`resetStates`. -/
def construct (K : Nat) (AKM_ERROR : Option Int) (numOfKeys : Nat) (keyVals : List Nat)
    (releaseState : Int) (tolNum tolDen : Nat) (mem : AnalogKeyMatrix)
    (val : Int) (ms : Nat) (val2 : Int) (ms2 : Nat) : AnalogKeyMatrix :=
  (resetStates K AKM_ERROR (calibrated numOfKeys keyVals releaseState tolNum tolDen mem)
    val ms val2 ms2).1

/-- A sequence of `read()` calls, one per pair of sample and clock value. -/
def runReads (K : Nat) (AKM_ERROR : Option Int) (s : AnalogKeyMatrix) :
    List (Int × Nat) → AnalogKeyMatrix
  | [] => s
  | (val, ms) :: rest => runReads K AKM_ERROR (read K AKM_ERROR s val ms).1 rest

/-- The record the pointer `now` designates. -/
def nowRec (s : AnalogKeyMatrix) : AKM_State := rd s._log s.now

/-- The record a pointer `&_log[p]` designates; for a pointer before the array,
which designates no record of the log, the default record. -/
def rdAt (a : List AKM_State) (p : Int) : AKM_State :=
  if p < 0 then default else rd a p.toNat

/-- The record the pointer `prev` designates. -/
def prevRec (s : AnalogKeyMatrix) : AKM_State := rdAt s._log s.prev

/-- The record the pointer `log[n]` designates. -/
def logRec (s : AnalogKeyMatrix) (n : Nat) : AKM_State := rdAt s._log (rd s.log n)

/-- Object storage before construction with every cell zero: `rows` table rows
and `K` log slots. -/
def zeroMem (rows K : Nat) : AnalogKeyMatrix :=
  { numOfKeys := 0, nthKey := 0, keys := List.replicate rows default,
    _log := List.replicate K default, now_i := 0, prev_i := 0,
    log := List.replicate K 0, now := 0, prev := 0 }

/-- The states of an object with storage `mem` (table already built) that
`resetStates()` and any number of `read()` calls can produce. -/
inductive Reachable (K : Nat) (AKM_ERROR : Option Int) (mem : AnalogKeyMatrix) :
    AnalogKeyMatrix → Prop
  | reset (val : Int) (ms : Nat) (val2 : Int) (ms2 : Nat) :
      Reachable K AKM_ERROR mem (resetStates K AKM_ERROR mem val ms val2 ms2).1
  | read (s : AnalogKeyMatrix) (val : Int) (ms : Nat) :
      Reachable K AKM_ERROR mem s → Reachable K AKM_ERROR mem (read K AKM_ERROR s val ms).1
  | again (s : AnalogKeyMatrix) (val : Int) (ms : Nat) (val2 : Int) (ms2 : Nat) :
      Reachable K AKM_ERROR mem s →
      Reachable K AKM_ERROR mem (resetStates K AKM_ERROR s val ms val2 ms2).1

/-- Rows `0 .. n-1` hold a rearrangement of the input pairs `(i, kv i)`:
every row carries a key number below `n` with that key's own value, and no key
number occurs in two rows. -/
def PairsInv (n : Nat) (kv : Nat → Nat) (keys : List KeyRow) : Prop :=
  (∀ r, r < n → (rd keys r).knum < n ∧ (rd keys r).kval = kv (rd keys r).knum) ∧
  (∀ r s, r < n → s < n → (rd keys r).knum = (rd keys s).knum → r = s)

/-- Every row before `i` is at most every later row below `n`. -/
def PrefixLe (n i : Nat) (keys : List KeyRow) : Prop :=
  ∀ a b, a < i → a < b → b < n → (rd keys a).kval ≤ (rd keys b).kval

/-- The pairs `(knum, kval)` of the first `n` rows. -/
def pairsOf (n : Nat) (keys : List KeyRow) : List (Nat × Nat) :=
  (keys.take n).map (fun r => (r.knum, r.kval))

/-- Lines 172-173 and 186-187: the lower limit of a key of value `c` whose lower
neighbour has value `p`. -/
def minOf (p c : Nat) : Nat :=
  if halfway c p ≤ p ∨ halfway c p > c then c else halfway c p

/-- Lines 177-178: the upper limit of the neighbour, from the lower limit `m`. -/
def maxOf (p c m : Nat) : Nat :=
  if pred16 m < p ∨ pred16 m ≥ c then p else pred16 m

/-- Lines 191-192: the same for the last pair, where the test is `<=`. -/
def maxOfLast (p c m : Nat) : Nat :=
  if pred16 m ≤ p ∨ pred16 m ≥ c then p else pred16 m

/-- State of the table when the limits loop is about to run index `i`: numbers
and values are those of `keys0`, and every pair of neighbours already handled
has its limits. -/
def LimitsInv (nthKey i : Nat) (keys0 keys : List KeyRow) : Prop :=
  keys.length = keys0.length ∧
  ∀ r, (rd keys r).knum = (rd keys0 r).knum ∧ (rd keys r).kval = (rd keys0 r).kval ∧
    (1 ≤ r → (r < i ∨ (i = nthKey ∧ r = nthKey)) →
      (rd keys r).kmin = minOf (rd keys0 (r - 1)).kval (rd keys0 r).kval ∧
      (rd keys (r - 1)).kmax =
        maxOf (rd keys0 (r - 1)).kval (rd keys0 r).kval
          (minOf (rd keys0 (r - 1)).kval (rd keys0 r).kval))

/-- Two tables of the same size whose rows agree on number and value. -/
def SameKV (a b : List KeyRow) : Prop :=
  a.length = b.length ∧
  ∀ r, (rd a r).knum = (rd b r).knum ∧ (rd a r).kval = (rd b r).kval

/-- Rows of equal value among the first `n` stand in the order of their key
numbers, the input order. -/
def StableOn (n : Nat) (keys : List KeyRow) : Prop :=
  ∀ a, a < n → ∀ b, b < n → a < b → (rd keys a).kval = (rd keys b).kval →
    (rd keys a).knum < (rd keys b).knum

instance (n : Nat) (keys : List KeyRow) : Decidable (StableOn n keys) := by
  unfold StableOn
  infer_instance

/-- The table after the copy loop and the sort (lines 128-151). -/
def sortedKeys (keyVals : List Nat) (keys0 : List KeyRow) : List KeyRow :=
  sortKeys keyVals.length (copyLoop keyVals keyVals.length 0 keys0)

/-- The default key values `AKM_defaultKeyVals` of the source. -/
def AKM_defaultKeyVals : List Nat :=
  [510, 1023, 930, 850, 790, 730, 680, 640, 600, 570, 540, 490]

/-- Table storage of `AKM_MaxNumOfKeys` rows with every cell zero. -/
def zeroKeys : List KeyRow := List.replicate 48 default

/-- Lines 201-202: the break point stored as the last key's `kmax` when the
release state is `HIGH`, from that key's `kmin`. -/
def highBP (kminLast tolNum tolDen : Nat) : Nat :=
  if Int.toNat ((1023 - (truncMul16 (1023 - (kminLast : Int)) tolNum tolDen : Int)) % 65536) ≥ 1023
  then 1023 - 1
  else Int.toNat ((1023 - (truncMul16 (1023 - (kminLast : Int)) tolNum tolDen : Int)) % 65536)

/-- A valid calibration with at least three keys: `3 ≤ n ≤ 48` pairwise distinct
values in `[0, 1023]`, a tolerance `tolNum / tolDen` in `[0, 1]`, and table
storage of `AKM_MaxNumOfKeys` rows. -/
structure ValidCalib (keyVals : List Nat) (tolNum tolDen : Nat) (keys0 : List KeyRow) :
    Prop where
  three : 3 ≤ keyVals.length
  atMost : keyVals.length ≤ AKM_MaxNumOfKeys
  nodup : keyVals.Nodup
  range : ∀ v ∈ keyVals, v ≤ 1023
  tol : tolNum ≤ tolDen
  den : 0 < tolDen
  mem : keys0.length = AKM_MaxNumOfKeys

/-- The windows of the first `n` rows are adjacent and ordered: each window ends
just below the next one, no window but the last can be empty, the last ends at
most one below its start, and nothing exceeds 1023. -/
structure TableOK (n : Nat) (keys : List KeyRow) : Prop where
  adj : ∀ r, r + 1 < n → (rd keys r).kmax + 1 = (rd keys (r + 1)).kmin
  nonempty : ∀ r, r + 1 < n → (rd keys r).kmin ≤ (rd keys r).kmax
  last : (rd keys (n - 1)).kmin ≤ (rd keys (n - 1)).kmax + 1
  top : (rd keys (n - 1)).kmax ≤ 1023

/-- Lines 266-267: the test of the OFF state, `val < keys[0][kmin] || val >
keys[nthKey][kmax]`: the release region. -/
def inRelease (keys : List KeyRow) (nthKey : Nat) (val : Int) : Prop :=
  val < ((rd keys 0).kmin : Int) ∨ val > ((rd keys nthKey).kmax : Int)

instance (keys : List KeyRow) (nthKey : Nat) (val : Int) :
    Decidable (inRelease keys nthKey val) := by
  unfold inRelease
  infer_instance

/-- The window `[kmin, kmax]` of row `i`. -/
def inWindow (keys : List KeyRow) (i : Nat) (val : Int) : Prop :=
  ((rd keys i).kmin : Int) ≤ val ∧ val ≤ ((rd keys i).kmax : Int)

instance (keys : List KeyRow) (i : Nat) (val : Int) : Decidable (inWindow keys i val) := by
  unfold inWindow
  infer_instance

/-- Line 270: the test of the `AKM_ERR` block, present only when `AKM_ERROR` is
defined. -/
def errFires (AKM_ERROR : Option Int) (val : Int) : Prop :=
  AKM_ERROR.isSome ∧ (val < 0 ∨ val > 1023)

instance (AKM_ERROR : Option Int) (val : Int) : Decidable (errFires AKM_ERROR val) := by
  unfold errFires
  infer_instance

/-- The slot `n` steps behind slot `now` in a ring of `K` slots. -/
def back (K now n : Nat) : Nat := if n ≤ now then now - n else now + K - n

/-- The log of an object is in order for `K` slots: both arrays have `K` cells,
the cursor is a slot, and `now` points at the cursor's slot. -/
structure LogOK (K : Nat) (s : AnalogKeyMatrix) : Prop where
  slots : s._log.length = K
  ptrs : s.log.length = K
  cur : s.now_i < K
  nowp : s.now = s.now_i

/-- What every reachable state keeps of the object `mem` it started from: the
table, and a log that is in order. -/
structure Ready (K : Nat) (mem s : AnalogKeyMatrix) : Prop where
  logOK : LogOK K s
  keys : s.keys = mem.keys
  numOfKeys : s.numOfKeys = mem.numOfKeys
  nthKey : s.nthKey = mem.nthKey

/-- A valid deployment: a valid calibration with at least three keys, a log
size `K = AKM_LogSize` with `2 ≤ K ≤ 127` (the range in which `int8_t nAgoIdx`
holds every slot index), and object storage with `K` log slots. -/
structure ValidSetup (K : Nat) (keyVals : List Nat) (tolNum tolDen : Nat)
    (mem : AnalogKeyMatrix) : Prop where
  calib : ValidCalib keyVals tolNum tolDen mem.keys
  sizeLo : 2 ≤ K
  sizeHi : K ≤ 127
  slots : mem._log.length = K
  ptrs : mem.log.length = K

/-- The table facts a state needs for the lemmas below: its own table is well
formed for `n` rows and `nthKey` is the last of them. -/
structure Tabled (K n : Nat) (s : AnalogKeyMatrix) : Prop where
  logOK : LogOK K s
  table : TableOK n s.keys
  numOfKeys : s.numOfKeys = n
  nthKey : s.nthKey = n - 1

/-- The two continuations: the current record is a press and the reading is in
the window of a row with the pressed key, or the current record is idle and the
reading is in the release region (and not an error reading). -/
def Continues (n : Nat) (AKM_ERROR : Option Int) (keys : List KeyRow) (cur : AKM_State)
    (val : Int) : Prop :=
  (cur.event = AKM_PRESS ∧ ∃ i, i < n ∧ ((rd keys i).knum : Int) = cur.key ∧
    inWindow keys i val) ∨
  (cur.event = AKM_IDLE ∧ inRelease keys (n - 1) val ∧ ¬ errFires AKM_ERROR val)

/-- The key values of the round-trip scenario. -/
def demoKeyVals : List Nat := [200, 500, 900]

/-- The object of the scenario when its table is built: tolerance 1/10,
automatic polarity, six log slots, zeroed storage. -/
def demoObj : AnalogKeyMatrix := calibrated 3 demoKeyVals (-1) 1 10 (zeroMem 48 6)

/-- The constructed object of the scenario: seed reading 0 at clock value 7. -/
def demoState : AnalogKeyMatrix := construct 6 none 3 demoKeyVals (-1) 1 10 (zeroMem 48 6) 0 7 0 8

/-- The scenario after a first poll of the reading 0 at clock value 10. -/
def demoPolled : AnalogKeyMatrix := (read 6 none demoState 0 10).1

/-- The scenario while the key of value 500 is pressed. -/
def demoPressed : AnalogKeyMatrix := (read 6 none demoPolled 500 11).1

/-- The history after one `read`, most recent state first, from the history `h`
before it: when the cursor moved the new current record is put in front, and
otherwise the record in front, the current one, is replaced by its new
contents. -/
def histStep (s s' : AnalogKeyMatrix) (h : List AKM_State) : List AKM_State :=
  if s'.now_i ≠ s.now_i then nowRec s' :: h else nowRec s' :: h.tail

/-- The states of an object with storage `mem`, each with the history of the
records that were current since the last reset (most recent first, each with
the contents it had when it stopped being current) and the seed record of that
reset.  The `read()` that `resetStates()` may call counts as a read. -/
inductive Traced (K : Nat) (AKM_ERROR : Option Int) (mem : AnalogKeyMatrix) :
    AnalogKeyMatrix → List AKM_State → AKM_State → Prop
  | seed (val : Int) (ms : Nat) :
      Traced K AKM_ERROR mem (resetCore K mem val ms)
        [⟨val, AKM_IDLE, -1, ms⟩] ⟨val, AKM_IDLE, -1, ms⟩
  | read (s : AnalogKeyMatrix) (h : List AKM_State) (sd : AKM_State) (val : Int) (ms : Nat) :
      Traced K AKM_ERROR mem s h sd →
      Traced K AKM_ERROR mem (read K AKM_ERROR s val ms).1
        (histStep s (read K AKM_ERROR s val ms).1 h) sd
  | reseed (s : AnalogKeyMatrix) (h : List AKM_State) (sd : AKM_State) (val : Int) (ms : Nat) :
      Traced K AKM_ERROR mem s h sd →
      Traced K AKM_ERROR mem (resetCore K s val ms)
        [⟨val, AKM_IDLE, -1, ms⟩] ⟨val, AKM_IDLE, -1, ms⟩

/-- What holds of a traced state: the slot `n` steps behind the cursor holds the
`n`-th record of the history, or the seed when the history is shorter; and
`log[n]` is that slot, or no advance happened since the reset and `log[n]` is
slot `n`. -/
structure HistInv (K : Nat) (s : AnalogKeyMatrix) (h : List AKM_State) (sd : AKM_State) :
    Prop where
  logOK : LogOK K s
  nonempty : h ≠ []
  slots : ∀ n, n < K → rd s._log (back K s.now_i n) = h.getD n sd
  ptrs : (∀ n, n < K → rd s.log n = back K s.now_i n) ∨
    (h.length = 1 ∧ s.now_i = 0 ∧ ∀ n, n < K → rd s.log n = n)

/-- The scenario right after the seeding part of `resetStates()`. -/
def demoSeeded : AnalogKeyMatrix := resetCore 6 demoObj 0 7

/-- The history of the scenario after the polls 500 and 0 that follow the
seeding. -/
def demoHist : List AKM_State :=
  histStep (read 6 none demoSeeded 500 11).1
    (read 6 none (read 6 none demoSeeded 500 11).1 0 13).1
    (histStep demoSeeded (read 6 none demoSeeded 500 11).1 [⟨0, AKM_IDLE, -1, 7⟩])

/-- The zero-tolerance scenario: key values 200, 500, 900, tolerance 0, automatic
polarity, `K = 6`, zeroed storage, seed reading 0 at clock value 7 and, for the
`read()` inside `resetStates()`, reading 0 at clock value 8. -/
def zeroTolState : AnalogKeyMatrix :=
  construct 6 none 3 demoKeyVals (-1) 0 1 (zeroMem 48 6) 0 7 0 8

/-- The object of the high-end scenario when its table is built: key values 0,
1022, 1023, tolerance 1/10, automatic polarity (high-end release, the lowest
value being 0), six log slots, zeroed storage. -/
def highObj : AnalogKeyMatrix := calibrated 3 [0, 1022, 1023] (-1) 1 10 (zeroMem 48 6)

/-- The high-end scenario after `resetStates()` with the seed reading 1023 at
clock value 7. -/
def highState : AnalogKeyMatrix :=
  construct 6 none 3 [0, 1022, 1023] (-1) 1 10 (zeroMem 48 6) 1023 7 1023 8

/-- The scenario built with error detection enabled (`AKM_ERROR` defined as
`-1`), after `resetStates()` with the seed reading 0. -/
def errState : AnalogKeyMatrix :=
  construct 6 (some (-1)) 3 demoKeyVals (-1) 1 10 (zeroMem 48 6) 0 7 0 8

/-- Forty-nine key values, one more than the table has rows: 10, 20, ..., 490. -/
def fortyNineVals : List Nat := (List.range 49).map (fun i => 10 * i + 10)

/-- Zeroed storage of the 48 table rows and of one more row behind them. -/
def fortyNineRows : List KeyRow := List.replicate 49 default

/-- A well-formed record for `n` keys: idle without key, or a release or press
with a key number below `n`. -/
def RecOK (n : Nat) (r : AKM_State) : Prop :=
  (r.event = AKM_IDLE ∧ r.key = -1) ∨
  ((r.event = AKM_RELEASE ∨ r.event = AKM_PRESS) ∧ 0 ≤ r.key ∧ r.key < (n : Int))

/-- The relation of a logged record `N` to the record `P` logged just before
it: a release follows the press of the same key, an idle follows a release, and
a press does not follow a press of the same key. -/
def Adjacent (N P : AKM_State) : Prop :=
  (N.event = AKM_RELEASE → P.event = AKM_PRESS ∧ P.key = N.key) ∧
  (N.event = AKM_IDLE → P.event = AKM_RELEASE) ∧
  (N.event = AKM_PRESS → ¬ (P.event = AKM_PRESS ∧ P.key = N.key))

/-- What the classification needs of an object with `n ≥ 1` keys, whatever the
limits in its table: a log in order, `nthKey` the last row, key numbers below
`n` in the rows, and well-formed records in all `K` slots. -/
structure KeyedOK (K n : Nat) (s : AnalogKeyMatrix) : Prop where
  logOK : LogOK K s
  one : 1 ≤ n
  numOfKeys : s.numOfKeys = n
  nthKey : s.nthKey = n - 1
  knum : ∀ r, r < n → (rd s.keys r).knum < n
  recs : ∀ j, j < K → RecOK n (rd s._log j)

/-- Every record of the history `h` but the oldest is adjacent to the one
logged before it. -/
def HistAdj (sd : AKM_State) (h : List AKM_State) : Prop :=
  ∀ j, j + 1 < h.length → Adjacent (h.getD j sd) (h.getD (j + 1) sd)

/-- The object calibrated from the two key values 200 and 500, tolerance 1/10,
automatic polarity, on zeroed storage with 6 log slots. -/
def twoKeyObj : AnalogKeyMatrix := calibrated 2 [200, 500] (-1) 1 10 (zeroMem 48 6)

/-- The two-key object after its `resetStates()` with the seed reading 0. -/
def twoKeyState : AnalogKeyMatrix := (resetStates 6 none twoKeyObj 0 7 0 8).1

/-- The two-key object after `resetStates()` and a poll of the reading 500. -/
def twoKeyPressed : AnalogKeyMatrix := (read 6 none twoKeyState 500 9).1
/-- Keys `a` and `b` of equal value `v` stand in rows `pa < pb` below `n`, and no
row after `pa` below `n` has a value below `v`. -/
def TiedInv (n a b v : Nat) (keys : List KeyRow) : Prop :=
  ∃ pa pb, pa < pb ∧ pb < n ∧
    (rd keys pa).knum = a ∧ (rd keys pa).kval = v ∧
    (rd keys pb).knum = b ∧ (rd keys pb).kval = v ∧
    ∀ r, pa < r → r < n → v ≤ (rd keys r).kval
/-- What holds of the pointers of a traced state with history `h`.  Before the
first advance since the reset (`h` has one record) the cursor is at slot 0,
`log[n]` is slot `n` and `prev` is slot `K - 1`; from the first advance on
`log[n]` is the slot `n` steps behind the cursor and `prev` is the slot one step
behind it. -/
structure ViewInv (K : Nat) (s : AnalogKeyMatrix) (h : List AKM_State) : Prop where
  fresh : h.length = 1 →
    s.now_i = 0 ∧ (∀ n, n < K → rd s.log n = (n : Int)) ∧ s.prev = ((K - 1 : Nat) : Int)
  moved : 2 ≤ h.length →
    (∀ n, n < K → rd s.log n = ((back K s.now_i n : Nat) : Int)) ∧
    s.prev = ((back K s.now_i 1 : Nat) : Int)

/-- The object calibrated from the key values 200, 500, 900 with 130 log slots
(`AKM_LogSize` defined as 130). -/
def longObj : AnalogKeyMatrix := calibrated 3 demoKeyVals (-1) 1 10 (zeroMem 48 130)

/-- The key pressed at poll `j` of the long scenario: keys 1, 2, 0, and then
keys 1 and 2 in turn. -/
def longKey (j : Nat) : Nat :=
  if j = 0 then 1 else if j = 1 then 2 else if j = 2 then 0 else if j % 2 = 1 then 1 else 2

/-- The reading and the clock value of poll `j` of the long scenario: the value
of the key `longKey j` at the clock value `10 + j`. -/
def longSample (j : Nat) : Int × Nat := ((demoKeyVals.getD (longKey j) 0 : Nat), 10 + j)

/-- The long scenario after `resetStates()` with the seed reading 0 at clock
value 7 and the first `j` polls. -/
def longState (j : Nat) : AnalogKeyMatrix :=
  runReads 130 none (resetCore 130 longObj 0 7) ((List.range j).map longSample)

/-- The history of the long scenario after `j` polls. -/
def longHist : Nat → List AKM_State
  | 0 => [⟨0, AKM_IDLE, -1, 7⟩]
  | j + 1 => histStep (longState j) (longState (j + 1)) (longHist j)

/-! ## Theorems -/

theorem length_setAt {α : Type} (a : List α) (i : Nat) (x : α) :
    (setAt a i x).length = a.length := by
  simp [setAt]

theorem rd_setAt {α : Type} [Inhabited α] (a : List α) (i k : Nat) (x : α) :
    rd (setAt a i x) k = if k = i ∧ i < a.length then x else rd a k := by
  unfold rd setAt
  by_cases h : k = i
  · subst h
    by_cases hl : k < a.length
    · simp [hl, List.getD_eq_getElem?_getD]
    · have : a.length ≤ k := by omega
      have h1 : (a.set k x)[k]? = none := List.getElem?_eq_none (by simpa using this)
      have h2 : a[k]? = none := List.getElem?_eq_none this
      simp [hl, List.getD_eq_getElem?_getD, h1, h2]
  · have h2 : ¬ (i = k) := fun e => h e.symm
    simp [h, List.getD_eq_getElem?_getD, List.getElem?_set_ne h2]

theorem rd_setAt_eq {α : Type} [Inhabited α] (a : List α) (i : Nat) (x : α)
    (h : i < a.length) : rd (setAt a i x) i = x := by
  simp [rd_setAt, h]

theorem rd_setAt_ne {α : Type} [Inhabited α] (a : List α) (i k : Nat) (x : α)
    (h : k ≠ i) : rd (setAt a i x) k = rd a k := by
  simp [rd_setAt, h]

theorem length_swapStep (i j : Nat) (keys : List KeyRow) :
    (swapStep i j keys).length = keys.length := by
  unfold swapStep
  split <;> simp [length_setAt]

theorem rd_swapStep (i j r : Nat) (keys : List KeyRow) (hij : i ≠ j)
    (hi : i < keys.length) (hj : j < keys.length) :
    rd (swapStep i j keys) r =
      if (rd keys i).kval > (rd keys j).kval then
        (if r = i then { rd keys i with knum := (rd keys j).knum, kval := (rd keys j).kval }
         else if r = j then { rd keys j with knum := (rd keys i).knum, kval := (rd keys i).kval }
         else rd keys r)
      else rd keys r := by
  unfold swapStep
  by_cases hc : (rd keys i).kval > (rd keys j).kval
  · simp only [hc, if_true]
    have hji : j ≠ i := fun e => hij e.symm
    by_cases h1 : r = i
    · subst h1
      simp [rd_setAt, length_setAt, hi, hj, hij, hji]
    · by_cases h2 : r = j
      · subst h2
        simp [rd_setAt, length_setAt, hi, hj, hij, hji]
      · simp [rd_setAt, length_setAt, hi, hj, hij, hji, h1, h2]
  · simp [hc]

theorem rd_copyLoop (keyVals : List Nat) (fuel : Nat) :
    ∀ (i : Nat) (keys : List KeyRow), i + fuel ≤ keys.length →
      (copyLoop keyVals fuel i keys).length = keys.length ∧
      ∀ r, rd (copyLoop keyVals fuel i keys) r =
        if i ≤ r ∧ r < i + fuel then
          ⟨r, keyVals.getD r 0, (rd keys r).kmin, (rd keys r).kmax⟩
        else rd keys r := by
  induction fuel with
  | zero =>
    intro i keys _
    refine ⟨rfl, fun r => ?_⟩
    have : ¬ (i ≤ r ∧ r < i + 0) := by omega
    rw [if_neg this]; rfl
  | succ f ih =>
    intro i keys hlen
    have hl := length_setAt keys i ⟨i, keyVals.getD i 0, (rd keys i).kmin, (rd keys i).kmax⟩
    obtain ⟨h1, h2⟩ := ih (i + 1)
      (setAt keys i ⟨i, keyVals.getD i 0, (rd keys i).kmin, (rd keys i).kmax⟩) (by omega)
    refine ⟨by simp only [copyLoop]; omega, fun r => ?_⟩
    simp only [copyLoop]
    rw [h2 r, rd_setAt]
    by_cases hr : r = i
    · subst hr
      have h0 : r = r ∧ r < keys.length := ⟨rfl, by omega⟩
      have h3 : ¬ (r + 1 ≤ r ∧ r < r + 1 + f) := by omega
      have h4 : r ≤ r ∧ r < r + (f + 1) := by omega
      rw [if_neg h3, if_pos h0, if_pos h4]
    · have h0 : ¬ (r = i ∧ i < keys.length) := fun h => hr h.1
      rw [if_neg h0]
      by_cases hc : i + 1 ≤ r ∧ r < i + 1 + f
      · have h4 : i ≤ r ∧ r < i + (f + 1) := by omega
        rw [if_pos hc, if_pos h4]
      · have h4 : ¬ (i ≤ r ∧ r < i + (f + 1)) := by omega
        rw [if_neg hc, if_neg h4]

theorem pairsInv_copyLoop (keyVals : List Nat) (n : Nat) (keys : List KeyRow)
    (hlen : n ≤ keys.length) :
    PairsInv n (fun i => keyVals.getD i 0) (copyLoop keyVals n 0 keys) := by
  obtain ⟨_, h2⟩ := rd_copyLoop keyVals n 0 keys (by omega)
  have h3 : ∀ r, r < n → rd (copyLoop keyVals n 0 keys) r =
      ⟨r, keyVals.getD r 0, (rd keys r).kmin, (rd keys r).kmax⟩ := by
    intro r hr
    rw [h2 r, if_pos (by omega)]
  constructor
  · intro r hr
    rw [h3 r hr]
    exact ⟨hr, rfl⟩
  · intro r s hr hs
    rw [h3 r hr, h3 s hs]
    exact fun h => h

theorem rd_swapStep_pos (i j r : Nat) (keys : List KeyRow) (hij : i ≠ j)
    (hi : i < keys.length) (hj : j < keys.length)
    (hc : (rd keys i).kval > (rd keys j).kval) :
    rd (swapStep i j keys) r =
      if r = i then ⟨(rd keys j).knum, (rd keys j).kval, (rd keys i).kmin, (rd keys i).kmax⟩
      else if r = j then ⟨(rd keys i).knum, (rd keys i).kval, (rd keys j).kmin, (rd keys j).kmax⟩
      else rd keys r := by
  rw [rd_swapStep i j r keys hij hi hj, if_pos hc]

theorem swapStep_neg (i j : Nat) (keys : List KeyRow)
    (hc : ¬ (rd keys i).kval > (rd keys j).kval) : swapStep i j keys = keys := by
  unfold swapStep
  rw [if_neg hc]

theorem pairsInv_swapStep (n i j : Nat) (kv : Nat → Nat) (keys : List KeyRow)
    (hij : i < j) (hj : j < n) (hlen : n ≤ keys.length)
    (h : PairsInv n kv keys) : PairsInv n kv (swapStep i j keys) := by
  obtain ⟨h1, h2⟩ := h
  by_cases hc : (rd keys i).kval > (rd keys j).kval
  · have hrd2 := fun r => rd_swapStep_pos i j r keys (by omega) (by omega) (by omega) hc
    have hi : i < n := by omega
    have hji : ¬ (j = i) := by omega
    constructor
    · intro r hr
      rw [hrd2 r]
      by_cases e1 : r = i
      · rw [if_pos e1]; exact h1 j hj
      · rw [if_neg e1]
        by_cases e2 : r = j
        · rw [if_pos e2]; exact h1 i hi
        · rw [if_neg e2]; exact h1 r hr
    · intro r s hr hs
      rw [hrd2 r, hrd2 s]
      by_cases e1 : r = i
      · rw [if_pos e1]
        by_cases e3 : s = i
        · intro _; omega
        · rw [if_neg e3]
          by_cases e4 : s = j
          · rw [if_pos e4]; intro hk; have := h2 _ _ hj hi hk; omega
          · rw [if_neg e4]; intro hk; have := h2 _ _ hj hs hk; omega
      · rw [if_neg e1]
        by_cases e2 : r = j
        · rw [if_pos e2]
          by_cases e3 : s = i
          · rw [if_pos e3]; intro hk; have := h2 _ _ hi hj hk; omega
          · rw [if_neg e3]
            by_cases e4 : s = j
            · intro _; omega
            · rw [if_neg e4]; intro hk; have := h2 _ _ hi hs hk; omega
        · rw [if_neg e2]
          by_cases e3 : s = i
          · rw [if_pos e3]; intro hk; have := h2 _ _ hr hj hk; omega
          · rw [if_neg e3]
            by_cases e4 : s = j
            · rw [if_pos e4]; intro hk; have := h2 _ _ hr hi hk; omega
            · rw [if_neg e4]; intro hk; exact h2 _ _ hr hs hk
  · rw [swapStep_neg i j keys hc]; exact ⟨h1, h2⟩

theorem prefixLe_swapStep (n i j : Nat) (keys : List KeyRow)
    (hij : i < j) (hj : j < n) (hlen : n ≤ keys.length)
    (h : PrefixLe n i keys) : PrefixLe n i (swapStep i j keys) := by
  by_cases hc : (rd keys i).kval > (rd keys j).kval
  · have hrd := fun r => rd_swapStep_pos i j r keys (by omega) (by omega) (by omega) hc
    intro a b ha hab hb
    rw [hrd a, hrd b, if_neg (by omega), if_neg (by omega)]
    by_cases e1 : b = i
    · rw [if_pos e1]; exact h a j ha (by omega) hj
    · rw [if_neg e1]
      by_cases e2 : b = j
      · rw [if_pos e2]; exact h a i ha (by omega) (by omega)
      · rw [if_neg e2]; exact h a b ha hab hb
  · rw [swapStep_neg i j keys hc]; exact h

/-- The inner sort loop from `j` to `n - 1`: it keeps the pairs, keeps what the
rows before `i` satisfy, and leaves in row `i` a value at most every later one. -/
theorem sortInner_spec (n i : Nat) (kv : Nat → Nat) (fuel : Nat) :
    ∀ (j : Nat) (keys : List KeyRow), i < j → j + fuel = n → n ≤ keys.length →
      PairsInv n kv keys → PrefixLe n i keys →
      (∀ b, i < b → b < j → (rd keys i).kval ≤ (rd keys b).kval) →
      (sortInner i fuel j keys).length = keys.length ∧
      PairsInv n kv (sortInner i fuel j keys) ∧
      PrefixLe n i (sortInner i fuel j keys) ∧
      (∀ b, i < b → b < n →
        (rd (sortInner i fuel j keys) i).kval ≤ (rd (sortInner i fuel j keys) b).kval) := by
  induction fuel with
  | zero =>
    intro j keys _ hjn _ hp hq hr
    refine ⟨rfl, hp, hq, fun b hb1 hb2 => hr b hb1 (by omega)⟩
  | succ f ih =>
    intro j keys hij hjn hlen hp hq hr
    have hl := length_swapStep i j keys
    have hj : j < n := by omega
    have hstep : ∀ b, i < b → b < j + 1 →
        (rd (swapStep i j keys) i).kval ≤ (rd (swapStep i j keys) b).kval := by
      intro b hb1 hb2
      by_cases hc : (rd keys i).kval > (rd keys j).kval
      · have hrd := fun r => rd_swapStep_pos i j r keys (by omega) (by omega) (by omega) hc
        rw [hrd i, hrd b, if_pos rfl, if_neg (by omega)]
        by_cases e2 : b = j
        · rw [if_pos e2]; exact Nat.le_of_lt hc
        · rw [if_neg e2]
          have := hr b hb1 (by omega)
          exact Nat.le_trans (Nat.le_of_lt hc) this
      · rw [swapStep_neg i j keys hc]
        by_cases e2 : b = j
        · subst e2; exact Nat.le_of_not_gt hc
        · exact hr b hb1 (by omega)
    obtain ⟨r1, r2, r3, r4⟩ := ih (j + 1) (swapStep i j keys) (by omega) (by omega) (by omega)
      (pairsInv_swapStep n i j kv keys hij hj hlen hp)
      (prefixLe_swapStep n i j keys hij hj hlen hq) hstep
    simp only [sortInner]
    exact ⟨by omega, r2, r3, r4⟩

/-- The outer sort loop from `i` to `n - 1`. -/
theorem sortOuter_spec (n : Nat) (kv : Nat → Nat) (fuel : Nat) :
    ∀ (i : Nat) (keys : List KeyRow), i + fuel = n → n ≤ keys.length →
      PairsInv n kv keys → PrefixLe n i keys →
      (sortOuter n fuel i keys).length = keys.length ∧
      PairsInv n kv (sortOuter n fuel i keys) ∧
      PrefixLe n n (sortOuter n fuel i keys) := by
  induction fuel with
  | zero =>
    intro i keys hin _ hp hq
    have : i = n := by omega
    subst this
    exact ⟨rfl, hp, hq⟩
  | succ f ih =>
    intro i keys hin hlen hp hq
    obtain ⟨r1, r2, r3, r4⟩ := sortInner_spec n i kv (n - (i + 1)) (i + 1) keys (by omega)
      (by omega) hlen hp hq (fun b h1 h2 => by omega)
    have hq2 : PrefixLe n (i + 1) (sortInner i (n - (i + 1)) (i + 1) keys) := by
      intro a b ha hab hb
      by_cases e : a = i
      · subst e; exact r4 b hab hb
      · exact r3 a b (by omega) hab hb
    obtain ⟨t1, t2, t3⟩ := ih (i + 1) _ (by omega) (by omega) r2 hq2
    simp only [sortOuter]
    exact ⟨by omega, t2, t3⟩

/-- The sort keeps the pairs and leaves the values in non-decreasing order. -/
theorem sortKeys_spec (n : Nat) (kv : Nat → Nat) (keys : List KeyRow)
    (hlen : n ≤ keys.length) (hp : PairsInv n kv keys) :
    (sortKeys n keys).length = keys.length ∧ PairsInv n kv (sortKeys n keys) ∧
      ∀ a b, a < b → b < n → (rd (sortKeys n keys) a).kval ≤ (rd (sortKeys n keys) b).kval := by
  obtain ⟨h1, h2, h3⟩ := sortOuter_spec n kv n 0 keys (by omega) hlen hp
    (fun a b ha _ _ => by omega)
  exact ⟨h1, h2, fun a b hab hb => h3 a b (by omega) hab hb⟩

theorem rd_eq_getElem {α : Type} [Inhabited α] (a : List α) (i : Nat) (h : i < a.length) :
    rd a i = a[i] := by
  unfold rd
  simp [List.getD_eq_getElem?_getD, h]

theorem pairsOf_getElem (n : Nat) (keys : List KeyRow) (hlen : n ≤ keys.length) (i : Nat)
    (h : i < (pairsOf n keys).length) :
    (pairsOf n keys)[i] = ((rd keys i).knum, (rd keys i).kval) := by
  have hl : (pairsOf n keys).length = n := by simp [pairsOf, hlen]
  have hi : i < keys.length := by omega
  simp [pairsOf, rd_eq_getElem keys i hi]

theorem pairsOf_perm (n : Nat) (keyVals : List Nat) (keys : List KeyRow)
    (hn : n = keyVals.length) (hlen : n ≤ keys.length)
    (h : PairsInv n (fun i => keyVals.getD i 0) keys) :
    List.Perm (pairsOf n keys) keyVals.enum := by
  have hl : (pairsOf n keys).length = n := by simp [pairsOf, hlen]
  obtain ⟨h1, h2⟩ := h
  have hnd : (pairsOf n keys).Nodup := by
    rw [List.nodup_iff_injective_getElem]
    intro a b hab
    have ha := pairsOf_getElem n keys hlen a.1 a.2
    have hb := pairsOf_getElem n keys hlen b.1 b.2
    simp only [Fin.getElem_fin] at hab
    rw [ha, hb] at hab
    have := h2 a.1 b.1 (by have := a.2; omega) (by have := b.2; omega) (congrArg Prod.fst hab)
    exact Fin.ext this
  have hsub : pairsOf n keys ⊆ keyVals.enum := by
    intro x hx
    obtain ⟨i, hi, hxi⟩ := List.getElem_of_mem hx
    rw [pairsOf_getElem n keys hlen i hi] at hxi
    obtain ⟨g1, g2⟩ := h1 i (by omega)
    rw [← hxi, List.mk_mem_enum_iff_getElem?, g2]
    have : (rd keys i).knum < keyVals.length := by omega
    simp [List.getD_eq_getElem?_getD, this]
  exact (List.subperm_of_subset hnd hsub).perm_of_length_le (by rw [hl, List.enum_length]; omega)

theorem swapStep_id_of_le (i j : Nat) (keys : List KeyRow)
    (h : (rd keys i).kval ≤ (rd keys j).kval) : swapStep i j keys = keys :=
  swapStep_neg i j keys (by omega)

theorem sortInner_id (n i : Nat) (keys : List KeyRow)
    (h : ∀ a b, a < b → b < n → (rd keys a).kval ≤ (rd keys b).kval) (fuel : Nat) :
    ∀ j, i < j → j + fuel = n → sortInner i fuel j keys = keys := by
  induction fuel with
  | zero => intro j _ _; rfl
  | succ f ih =>
    intro j hij hjn
    simp only [sortInner]
    rw [swapStep_id_of_le i j keys (h i j hij (by omega))]
    exact ih (j + 1) (by omega) (by omega)

theorem sortOuter_id (n : Nat) (keys : List KeyRow)
    (h : ∀ a b, a < b → b < n → (rd keys a).kval ≤ (rd keys b).kval) (fuel : Nat) :
    ∀ i, i + fuel = n → sortOuter n fuel i keys = keys := by
  induction fuel with
  | zero => intro i _; rfl
  | succ f ih =>
    intro i hin
    simp only [sortOuter]
    rw [sortInner_id n i keys h (n - (i + 1)) (i + 1) (by omega) (by omega)]
    exact ih (i + 1) (by omega)

theorem maxOfLast_eq (p c m : Nat) : maxOfLast p c m = maxOf p c m := by
  unfold maxOfLast maxOf
  split_ifs <;> omega

theorem halfway_eq (c p : Nat) (h : c + p < 131072) : halfway c p = (c + p) / 2 := by
  unfold halfway
  omega

theorem minOf_bounds (p c : Nat) (hpc : p < c) (hc : c ≤ 1023) :
    p < minOf p c ∧ minOf p c ≤ c := by
  unfold minOf
  rw [halfway_eq c p (by omega)]
  split_ifs <;> omega

theorem maxOf_succ (p c : Nat) (hpc : p < c) (hc : c ≤ 1023) :
    maxOf p c (minOf p c) + 1 = minOf p c := by
  have := minOf_bounds p c hpc hc
  unfold maxOf pred16
  split_ifs <;> omega

theorem limitsBody_spec (nthKey i : Nat) (keys : List KeyRow) (hi : 1 ≤ i) (hin : i < nthKey)
    (hlen : nthKey < keys.length) :
    (limitsBody nthKey i keys).length = keys.length ∧
    ∀ r, (rd (limitsBody nthKey i keys) r).knum = (rd keys r).knum ∧
      (rd (limitsBody nthKey i keys) r).kval = (rd keys r).kval ∧
      (rd (limitsBody nthKey i keys) r).kmin =
        (if r = i then minOf (rd keys (i - 1)).kval (rd keys i).kval
         else if i = nthKey - 1 ∧ r = nthKey then minOf (rd keys i).kval (rd keys nthKey).kval
         else (rd keys r).kmin) ∧
      (rd (limitsBody nthKey i keys) r).kmax =
        (if i = nthKey - 1 ∧ r = i then
           maxOfLast (rd keys i).kval (rd keys nthKey).kval
             (minOf (rd keys i).kval (rd keys nthKey).kval)
         else if r = i - 1 then
           maxOf (rd keys (i - 1)).kval (rd keys i).kval
             (minOf (rd keys (i - 1)).kval (rd keys i).kval)
         else (rd keys r).kmax) := by
  have h1 : i < keys.length := by omega
  have h2 : i - 1 < keys.length := by omega
  have e1 : ¬ (i = i - 1) := by omega
  have e2 : ¬ (i - 1 = i) := by omega
  have e3 : ¬ (nthKey = i) := by omega
  have e4 : ¬ (i = nthKey) := by omega
  have e5 : ¬ (nthKey = i - 1) := by omega
  have e6 : ¬ (i - 1 = nthKey) := by omega
  by_cases hlast : i = nthKey - 1
  · constructor
    · simp [limitsBody, hlast, length_setAt]
    · intro r
      by_cases r1 : r = i
      · subst r1
        simp only [limitsBody, if_pos hlast, rd_setAt, length_setAt, h1, h2, hlen, e1, e2, e3,
          e4, e5, e6, minOf, maxOf, maxOfLast]
        simp
        rw [if_pos hlast]
      · by_cases r2 : r = i - 1
        · subst r2
          simp only [limitsBody, if_pos hlast, rd_setAt, length_setAt, h1, h2, hlen, e1, e2, e3,
            e4, e5, e6, minOf, maxOf, maxOfLast]
          simp [e2, e5]
        · by_cases r3 : r = nthKey
          · subst r3
            simp only [limitsBody, if_pos hlast, rd_setAt, length_setAt, h1, h2, hlen, e1, e2, e3,
              e4, e5, e6, minOf, maxOf, maxOfLast]
            simp [e3, e5, hlast]
          · simp only [limitsBody, if_pos hlast, rd_setAt, length_setAt, h1, h2, hlen, e1, e2, e3,
              e4, e5, e6, minOf, maxOf, maxOfLast, r1, r2, r3]
            simp [r1, r2, r3]
  · constructor
    · simp [limitsBody, hlast, length_setAt]
    · intro r
      by_cases r1 : r = i
      · subst r1
        simp only [limitsBody, if_neg hlast, rd_setAt, length_setAt, h1, h2, hlen, e1, e2, e3,
          e4, e5, e6, minOf, maxOf, maxOfLast]
        simp [hlast]
      · by_cases r2 : r = i - 1
        · subst r2
          simp only [limitsBody, if_neg hlast, rd_setAt, length_setAt, h1, h2, hlen, e1, e2, e3,
            e4, e5, e6, minOf, maxOf, maxOfLast]
          simp [e2, hlast]
        · simp only [limitsBody, if_neg hlast, rd_setAt, length_setAt, h1, h2, hlen, e1, e2, e3,
            e4, e5, e6, minOf, maxOf, maxOfLast, r1, r2]
          simp [r1, r2, hlast]

theorem limitsInv_step (nthKey i : Nat) (keys0 keys : List KeyRow) (hi : 1 ≤ i)
    (hin : i < nthKey) (hlen : nthKey < keys0.length) (h : LimitsInv nthKey i keys0 keys) :
    LimitsInv nthKey (i + 1) keys0 (limitsBody nthKey i keys) := by
  obtain ⟨hl, hr⟩ := h
  obtain ⟨b1, b2⟩ := limitsBody_spec nthKey i keys hi hin (by omega)
  refine ⟨by omega, fun r => ?_⟩
  obtain ⟨c1, c2, c3, c4⟩ := b2 r
  obtain ⟨d1, d2, d3⟩ := hr r
  refine ⟨by rw [c1, d1], by rw [c2, d2], fun hr1 hcase => ?_⟩
  have kvi := (hr i).2.1
  have kvp := (hr (i - 1)).2.1
  have kvn := (hr nthKey).2.1
  have kvr := (hr (r - 1)).2.1
  obtain ⟨_, _, _, c4'⟩ := b2 (r - 1)
  rw [c3, c4']
  by_cases r1 : r = i
  · subst r1
    rw [if_pos rfl, if_neg (by omega), if_pos rfl, kvi, kvp]
    exact ⟨rfl, rfl⟩
  · rw [if_neg r1]
    by_cases r2 : i = nthKey - 1 ∧ r = nthKey
    · obtain ⟨r2a, r2b⟩ := r2
      have e : r - 1 = i := by omega
      rw [if_pos ⟨r2a, r2b⟩, if_pos ⟨r2a, e⟩, maxOfLast_eq, e, r2b, kvi, kvn]
      exact ⟨rfl, rfl⟩
    · rw [if_neg r2]
      have hlt : r < i := by omega
      obtain ⟨f1, f2⟩ := d3 hr1 (Or.inl hlt)
      rw [if_neg (by omega), if_neg (by omega)]
      exact ⟨f1, f2⟩

theorem limitsLoop_inv (nthKey : Nat) (keys0 : List KeyRow) (hlen : nthKey < keys0.length)
    (fuel : Nat) :
    ∀ (i : Nat) (keys : List KeyRow), 1 ≤ i → i + fuel = nthKey →
      LimitsInv nthKey i keys0 keys →
      LimitsInv nthKey nthKey keys0 (limitsLoop nthKey fuel i keys) := by
  induction fuel with
  | zero =>
    intro i keys _ hin h
    have : i = nthKey := by omega
    subst this
    exact h
  | succ f ih =>
    intro i keys hi hin h
    simp only [limitsLoop]
    exact ih (i + 1) _ (by omega) (by omega)
      (limitsInv_step nthKey i keys0 keys hi (by omega) hlen h)

/-- The limits loop on a table of at least three rows: numbers and values are
kept, and every pair of neighbouring rows gets its limits. -/
theorem limitsLoop_spec (nthKey : Nat) (keys : List KeyRow) (h2 : 2 ≤ nthKey)
    (hlen : nthKey < keys.length) :
    (limitsLoop nthKey (nthKey - 1) 1 keys).length = keys.length ∧
    ∀ r, (rd (limitsLoop nthKey (nthKey - 1) 1 keys) r).knum = (rd keys r).knum ∧
      (rd (limitsLoop nthKey (nthKey - 1) 1 keys) r).kval = (rd keys r).kval ∧
      (1 ≤ r → r ≤ nthKey →
        (rd (limitsLoop nthKey (nthKey - 1) 1 keys) r).kmin =
          minOf (rd keys (r - 1)).kval (rd keys r).kval ∧
        (rd (limitsLoop nthKey (nthKey - 1) 1 keys) (r - 1)).kmax =
          maxOf (rd keys (r - 1)).kval (rd keys r).kval
            (minOf (rd keys (r - 1)).kval (rd keys r).kval)) := by
  have h0 : LimitsInv nthKey 1 keys keys :=
    ⟨rfl, fun r => ⟨rfl, rfl, fun a b => by omega⟩⟩
  obtain ⟨g1, g2⟩ := limitsLoop_inv nthKey keys hlen (nthKey - 1) 1 keys (by omega) (by omega) h0
  refine ⟨g1, fun r => ?_⟩
  obtain ⟨a, b, c⟩ := g2 r
  exact ⟨a, b, fun hr1 hr2 => c hr1 (by omega)⟩

theorem SameKV.refl (a : List KeyRow) : SameKV a a := ⟨rfl, fun _ => ⟨rfl, rfl⟩⟩

theorem SameKV.trans {a b c : List KeyRow} (h1 : SameKV a b) (h2 : SameKV b c) : SameKV a c :=
  ⟨h1.1.trans h2.1, fun r => ⟨(h1.2 r).1.trans (h2.2 r).1, (h1.2 r).2.trans (h2.2 r).2⟩⟩

theorem sameKV_setMin (keys : List KeyRow) (i x : Nat) :
    SameKV (setAt keys i { rd keys i with kmin := x }) keys := by
  refine ⟨length_setAt _ _ _, fun r => ?_⟩
  rw [rd_setAt]
  by_cases h : r = i ∧ i < keys.length
  · rw [if_pos h, h.1]; exact ⟨rfl, rfl⟩
  · rw [if_neg h]; exact ⟨rfl, rfl⟩

theorem sameKV_setMax (keys : List KeyRow) (i x : Nat) :
    SameKV (setAt keys i { rd keys i with kmax := x }) keys := by
  refine ⟨length_setAt _ _ _, fun r => ?_⟩
  rw [rd_setAt]
  by_cases h : r = i ∧ i < keys.length
  · rw [if_pos h, h.1]; exact ⟨rfl, rfl⟩
  · rw [if_neg h]; exact ⟨rfl, rfl⟩

/-- Numbers and values of all rows survive the body of the limits loop. -/
theorem limitsBody_keeps (nthKey i : Nat) (keys : List KeyRow) :
    SameKV (limitsBody nthKey i keys) keys := by
  unfold limitsBody
  simp only []
  split
  · exact (sameKV_setMax _ _ _).trans ((sameKV_setMin _ _ _).trans
      ((sameKV_setMax _ _ _).trans (sameKV_setMin _ _ _)))
  · exact (sameKV_setMax _ _ _).trans (sameKV_setMin _ _ _)

theorem limitsLoop_keeps (nthKey : Nat) (fuel : Nat) :
    ∀ (i : Nat) (keys : List KeyRow), SameKV (limitsLoop nthKey fuel i keys) keys := by
  induction fuel with
  | zero => intro i keys; exact SameKV.refl keys
  | succ f ih =>
    intro i keys
    simp only [limitsLoop]
    exact (ih (i + 1) _).trans (limitsBody_keeps nthKey i keys)

theorem setRelease_keeps (releaseState : Int) (tolNum tolDen nthKey : Nat)
    (keys : List KeyRow) : SameKV (setRelease releaseState tolNum tolDen nthKey keys) keys := by
  unfold setRelease
  simp only []
  split
  · exact (sameKV_setMax _ _ _).trans (sameKV_setMin _ _ _)
  · exact (sameKV_setMin _ _ _).trans (sameKV_setMax _ _ _)

theorem sortedKeys_spec (keyVals : List Nat) (keys0 : List KeyRow)
    (hmem : keyVals.length ≤ keys0.length) :
    (sortedKeys keyVals keys0).length = keys0.length ∧
    PairsInv keyVals.length (fun i => keyVals.getD i 0) (sortedKeys keyVals keys0) ∧
    ∀ a b, a < b → b < keyVals.length →
      (rd (sortedKeys keyVals keys0) a).kval ≤ (rd (sortedKeys keyVals keys0) b).kval := by
  obtain ⟨c1, _⟩ := rd_copyLoop keyVals keyVals.length 0 keys0 (by omega)
  obtain ⟨s1, s2, s3⟩ := sortKeys_spec keyVals.length (fun i => keyVals.getD i 0)
    (copyLoop keyVals keyVals.length 0 keys0) (by omega)
    (pairsInv_copyLoop keyVals keyVals.length keys0 hmem)
  exact ⟨by unfold sortedKeys; omega, s2, s3⟩

theorem buildKeys_sameKV (keyVals : List Nat) (releaseState : Int) (tolNum tolDen : Nat)
    (keys0 : List KeyRow) :
    SameKV (buildKeys keyVals.length keyVals releaseState tolNum tolDen keys0)
      (sortedKeys keyVals keys0) := by
  unfold buildKeys sortedKeys
  simp only []
  exact (setRelease_keeps _ _ _ _ _).trans (limitsLoop_keeps _ _ _ _)

/-- C7 (sorting): for every input of `n ≤ 48` values, after the copy loop
and the sort the first `n` rows are a permutation of the input pairs
`(i, keyVals[i])`, so each key number stays with its own value, and the values
are in non-decreasing order from each row to the next; the rest of the
constructor changes neither the numbers nor the values of the rows. -/
theorem sort_perm_sorted (keyVals : List Nat) (keys0 : List KeyRow)
    (h48 : keyVals.length ≤ AKM_MaxNumOfKeys) (hmem : keys0.length = AKM_MaxNumOfKeys) :
    List.Perm (pairsOf keyVals.length (sortedKeys keyVals keys0)) keyVals.enum ∧
    (∀ i, i + 1 < keyVals.length →
      (rd (sortedKeys keyVals keys0) i).kval ≤ (rd (sortedKeys keyVals keys0) (i + 1)).kval) ∧
    (∀ (releaseState : Int) (tolNum tolDen : Nat),
      SameKV (buildKeys keyVals.length keyVals releaseState tolNum tolDen keys0)
        (sortedKeys keyVals keys0)) := by
  have hm : keyVals.length ≤ keys0.length := by omega
  obtain ⟨s1, s2, s3⟩ := sortedKeys_spec keyVals keys0 hm
  refine ⟨pairsOf_perm keyVals.length keyVals _ rfl (by omega) s2,
    fun i hi => s3 i (i + 1) (by omega) hi, fun rs tn td => buildKeys_sameKV keyVals rs tn td keys0⟩

/-- C7 on the default key values of the source. -/
theorem sort_perm_sorted_witness :
    (AKM_defaultKeyVals.length ≤ AKM_MaxNumOfKeys ∧ zeroKeys.length = AKM_MaxNumOfKeys) ∧
    (List.Perm (pairsOf AKM_defaultKeyVals.length (sortedKeys AKM_defaultKeyVals zeroKeys))
      AKM_defaultKeyVals.enum ∧
    (∀ i, i + 1 < AKM_defaultKeyVals.length →
      (rd (sortedKeys AKM_defaultKeyVals zeroKeys) i).kval ≤
        (rd (sortedKeys AKM_defaultKeyVals zeroKeys) (i + 1)).kval) ∧
    (∀ (releaseState : Int) (tolNum tolDen : Nat),
      SameKV (buildKeys AKM_defaultKeyVals.length AKM_defaultKeyVals releaseState tolNum tolDen
        zeroKeys) (sortedKeys AKM_defaultKeyVals zeroKeys))) :=
  ⟨⟨by decide, by decide⟩,
    sort_perm_sorted AKM_defaultKeyVals zeroKeys (by decide) (by decide)⟩

/-- C8, the claim as stated fails: with the values `[2, 2, 1]` the sort leaves
the rows in the key order 2, 1, 0, so key 1 stands before key 0 although both
have the value 2. -/
theorem sort_not_stable :
    pairsOf 3 (sortedKeys [2, 2, 1] zeroKeys) = [(2, 1), (1, 2), (0, 2)] ∧
    ¬ StableOn 3 (sortedKeys [2, 2, 1] zeroKeys) := by
  decide

/-- When the input values are already in non-decreasing order the sort
exchanges nothing, every row `r` keeps key `r`, and so keys of equal
value stay in their input order. -/
theorem sort_stable_of_sorted (keyVals : List Nat) (keys0 : List KeyRow)
    (h48 : keyVals.length ≤ AKM_MaxNumOfKeys) (hmem : keys0.length = AKM_MaxNumOfKeys)
    (hs : keyVals.Pairwise (fun x y => x ≤ y)) :
    sortedKeys keyVals keys0 = copyLoop keyVals keyVals.length 0 keys0 ∧
    (∀ r, r < keyVals.length → (rd (sortedKeys keyVals keys0) r).knum = r) ∧
    StableOn keyVals.length (sortedKeys keyVals keys0) := by
  have hm : keyVals.length ≤ keys0.length := by omega
  obtain ⟨_, c2⟩ := rd_copyLoop keyVals keyVals.length 0 keys0 (by omega)
  have hrow : ∀ r, r < keyVals.length → rd (copyLoop keyVals keyVals.length 0 keys0) r =
      ⟨r, keyVals.getD r 0, (rd keys0 r).kmin, (rd keys0 r).kmax⟩ := by
    intro r hr
    rw [c2 r, if_pos (by omega)]
  have hle : ∀ a b, a < b → b < keyVals.length →
      (rd (copyLoop keyVals keyVals.length 0 keys0) a).kval ≤
        (rd (copyLoop keyVals keyVals.length 0 keys0) b).kval := by
    intro a b hab hb
    rw [hrow a (by omega), hrow b hb]
    have ha : a < keyVals.length := by omega
    have := (List.pairwise_iff_getElem.mp hs) a b ha hb hab
    simpa [List.getD_eq_getElem?_getD, ha, hb] using this
  have hid : sortedKeys keyVals keys0 = copyLoop keyVals keyVals.length 0 keys0 :=
    sortOuter_id keyVals.length _ hle keyVals.length 0 (by omega)
  refine ⟨hid, fun r hr => by rw [hid, hrow r hr], fun a ha b hb hab _ => ?_⟩
  rw [hid, hrow a ha, hrow b hb]
  exact hab

/-- The sorted input of two keys of equal value: key 0 stays before key 1. -/
theorem sort_stable_of_sorted_witness :
    ([512, 512].length ≤ AKM_MaxNumOfKeys ∧ zeroKeys.length = AKM_MaxNumOfKeys ∧
      [512, 512].Pairwise (fun x y => x ≤ y)) ∧
    (sortedKeys [512, 512] zeroKeys = copyLoop [512, 512] [512, 512].length 0 zeroKeys ∧
    (∀ r, r < [512, 512].length → (rd (sortedKeys [512, 512] zeroKeys) r).knum = r) ∧
    StableOn [512, 512].length (sortedKeys [512, 512] zeroKeys)) :=
  ⟨⟨by decide, by decide, by decide⟩,
    sort_stable_of_sorted [512, 512] zeroKeys (by decide) (by decide) (by decide)⟩

theorem setRelease_spec (releaseState : Int) (tolNum tolDen nthKey : Nat) (keys : List KeyRow)
    (h0 : 0 < nthKey) (hlen : nthKey < keys.length) :
    ∀ r, (rd (setRelease releaseState tolNum tolDen nthKey keys) r).kmin =
        (if r = 0 then
          (if releaseState = HIGH then 0 else truncMul16 ((rd keys 0).kval : Int) tolNum tolDen)
         else (rd keys r).kmin) ∧
      (rd (setRelease releaseState tolNum tolDen nthKey keys) r).kmax =
        (if r = nthKey then
          (if releaseState = HIGH then highBP (rd keys nthKey).kmin tolNum tolDen else 1023)
         else (rd keys r).kmax) := by
  intro r
  have e1 : ¬ (nthKey = 0) := by omega
  have e2 : ¬ (0 = nthKey) := by omega
  have e3 : 0 < keys.length := by omega
  by_cases hs : releaseState = HIGH
  · by_cases r1 : r = 0
    · subst r1
      simp only [setRelease, if_pos hs, rd_setAt, length_setAt, hlen, e1, e2, e3, highBP]
      simp [e2]
    · by_cases r2 : r = nthKey
      · subst r2
        simp only [setRelease, if_pos hs, rd_setAt, length_setAt, hlen, e1, e2, e3, highBP]
        simp [e1]
      · simp only [setRelease, if_pos hs, rd_setAt, length_setAt, hlen, e1, e2, e3, highBP]
        simp [r1, r2]
  · by_cases r1 : r = 0
    · subst r1
      simp only [setRelease, if_neg hs, rd_setAt, length_setAt, hlen, e1, e2, e3, highBP]
      simp [e2]
    · by_cases r2 : r = nthKey
      · subst r2
        simp only [setRelease, if_neg hs, rd_setAt, length_setAt, hlen, e1, e2, e3, highBP]
        simp [e1]
      · simp only [setRelease, if_neg hs, rd_setAt, length_setAt, hlen, e1, e2, e3, highBP]
        simp [r1, r2]

theorem roundHalfEven_bounds (a b : Nat) (hb : 0 < b) :
    2 * (b * roundHalfEven a b) ≤ 2 * a + b ∧ 2 * a ≤ 2 * (b * roundHalfEven a b) + b := by
  have h1 := Nat.div_add_mod a b
  have h2 := Nat.mod_lt a hb
  unfold roundHalfEven
  split_ifs with c1 c2
  · constructor <;> omega
  · rw [Nat.mul_add, Nat.mul_one]
    constructor <;> omega
  · rw [Nat.mul_add]
    rcases Nat.mod_two_eq_zero_or_one (a / b) with e | e
    · rw [e, Nat.mul_zero]
      constructor <;> omega
    · rw [e, Nat.mul_one]
      constructor <;> omega

theorem roundHalfEven_le (a b N : Nat) (hb : 0 < b) (h : a ≤ N * b) : roundHalfEven a b ≤ N := by
  have h1 := Nat.div_add_mod a b
  have h2 := Nat.mod_lt a hb
  have hq : a / b ≤ N := by
    have := Nat.div_le_div_right (c := b) h
    rwa [Nat.mul_div_cancel _ hb] at this
  rcases Nat.lt_or_ge (a / b) N with c | c
  · unfold roundHalfEven
    have := Nat.mod_lt (a / b) (by decide : 0 < 2)
    split_ifs <;> omega
  · have e : a / b = N := by omega
    have hr : a % b = 0 := by
      rw [e, Nat.mul_comm] at h1
      omega
    unfold roundHalfEven
    rw [hr, if_pos (by omega), e]

theorem roundHalfEven_mul (k b : Nat) (hb : 0 < b) : roundHalfEven (k * b) b = k := by
  unfold roundHalfEven
  rw [Nat.mul_mod_left, if_pos (by omega), Nat.mul_div_cancel _ hb]

theorem fracBits_spec (a b : Nat) : ∀ fuel s, s ≤ fracBits a b fuel s ∧
    (2 ^ 52 * b ≤ a * 2 ^ fracBits a b fuel s ∨ fracBits a b fuel s = s + fuel) := by
  intro fuel
  induction fuel with
  | zero => intro s; exact ⟨Nat.le_refl _, Or.inr rfl⟩
  | succ f ih =>
    intro s
    simp only [fracBits]
    split_ifs with c
    · exact ⟨Nat.le_refl _, Or.inl c⟩
    · obtain ⟨i1, i2⟩ := ih (s + 1)
      refine ⟨by omega, ?_⟩
      rcases i2 with i2 | i2
      · exact Or.inl i2
      · exact Or.inr (by omega)

theorem fracBits_gt (a b k : Nat) (hk : k < 1074) (h : a * 2 ^ k < 2 ^ 52 * b) :
    k < fracBits a b 1074 0 := by
  obtain ⟨_, h2⟩ := fracBits_spec a b 1074 0
  rcases h2 with h2 | h2
  · by_contra hc
    have hle : fracBits a b 1074 0 ≤ k := by omega
    have := Nat.pow_le_pow_right (by decide : 0 < 2) hle
    have := Nat.mul_le_mul_left a this
    omega
  · omega


theorem toDouble_le (a b N : Nat) (hb : 0 < b) (h : a ≤ N * b) :
    (toDouble a b).1 ≤ N * 2 ^ (toDouble a b).2 := by
  unfold toDouble
  split_ifs with c
  · exact Nat.zero_le _
  · apply roundHalfEven_le _ _ _ hb
    calc a * 2 ^ fracBits a b 1074 0 ≤ N * b * 2 ^ fracBits a b 1074 0 :=
          Nat.mul_le_mul_right _ h
      _ = N * 2 ^ fracBits a b 1074 0 * b := by ring

theorem mulDouble_le (x tolNum tolDen : Nat) (ht : tolNum ≤ tolDen) :
    (mulDouble x tolNum tolDen).1 / 2 ^ (mulDouble x tolNum tolDen).2 ≤ x := by
  have h1 : (toDouble tolNum tolDen).1 ≤ 2 ^ (toDouble tolNum tolDen).2 := by
    rcases Nat.eq_zero_or_pos tolDen with c | c
    · have e : tolNum = 0 := by omega
      rw [e]
      simp [toDouble]
    · have := toDouble_le tolNum tolDen 1 c (by omega)
      omega
  have hp : 0 < 2 ^ (toDouble tolNum tolDen).2 := Nat.two_pow_pos _
  have h2 := toDouble_le (x * (toDouble tolNum tolDen).1) (2 ^ (toDouble tolNum tolDen).2) x hp
    (Nat.mul_le_mul_left x h1)
  unfold mulDouble
  exact Nat.div_le_of_le_mul (Nat.le_trans h2 (Nat.le_of_eq (Nat.mul_comm _ _)))

theorem truncMul16_le (x tolNum tolDen : Nat) (ht : tolNum ≤ tolDen) :
    truncMul16 (x : Int) tolNum tolDen ≤ x := by
  unfold truncMul16
  have h0 : (0 : Int) ≤ (x : Int) := Int.ofNat_nonneg x
  rw [if_pos h0, Int.toNat_ofNat]
  have h1 := mulDouble_le x tolNum tolDen ht
  have h2 := Nat.mod_le ((mulDouble x tolNum tolDen).1 / 2 ^ (mulDouble x tolNum tolDen).2) 65536
  omega

theorem highBP_bounds (m tolNum tolDen : Nat) (hm : m ≤ 1023) (ht : tolNum ≤ tolDen) :
    m ≤ highBP m tolNum tolDen + 1 ∧ highBP m tolNum tolDen ≤ 1022 := by
  have h1 := truncMul16_le (1023 - m) tolNum tolDen ht
  have h2 : ((1023 - m : Nat) : Int) = 1023 - (m : Int) := by omega
  rw [h2] at h1
  unfold highBP
  split_ifs <;> omega

/-- The sorted values of a valid calibration are strictly increasing and in range. -/
theorem sortedKeys_strict (keyVals : List Nat) (tolNum tolDen : Nat) (keys0 : List KeyRow)
    (hv : ValidCalib keyVals tolNum tolDen keys0) :
    (∀ a b, a < b → b < keyVals.length →
      (rd (sortedKeys keyVals keys0) a).kval < (rd (sortedKeys keyVals keys0) b).kval) ∧
    (∀ r, r < keyVals.length → (rd (sortedKeys keyVals keys0) r).kval ≤ 1023) := by
  have h48 := hv.atMost
  have hmem := hv.mem
  obtain ⟨s1, ⟨p1, p2⟩, s3⟩ := sortedKeys_spec keyVals keys0 (by omega)
  constructor
  · intro a b hab hb
    have ha : a < keyVals.length := by omega
    have hle := s3 a b hab hb
    have hne : (rd (sortedKeys keyVals keys0) a).kval ≠ (rd (sortedKeys keyVals keys0) b).kval := by
      intro he
      obtain ⟨a1, a2⟩ := p1 a ha
      obtain ⟨b1, b2⟩ := p1 b hb
      rw [a2, b2] at he
      simp only [List.getD_eq_getElem?_getD, List.getElem?_eq_getElem a1,
        List.getElem?_eq_getElem b1, Option.getD_some] at he
      have := (hv.nodup.getElem_inj_iff).mp he
      have := p2 a b ha hb this
      omega
    omega
  · intro r hr
    obtain ⟨a1, a2⟩ := p1 r hr
    rw [a2]
    simp only [List.getD_eq_getElem?_getD, List.getElem?_eq_getElem a1, Option.getD_some]
    exact hv.range _ (List.getElem_mem _)

theorem buildKeys_eq (keyVals : List Nat) (releaseState : Int) (tolNum tolDen : Nat)
    (keys0 : List KeyRow) (h1 : 1 ≤ keyVals.length) (h48 : keyVals.length ≤ AKM_MaxNumOfKeys) :
    buildKeys keyVals.length keyVals releaseState tolNum tolDen keys0 =
      setRelease (resolveRelease releaseState (sortedKeys keyVals keys0)) tolNum tolDen
        (keyVals.length - 1)
        (limitsLoop (keyVals.length - 1) (keyVals.length - 1 - 1) 1 (sortedKeys keyVals keys0)) := by
  have h : (keyVals.length + 255) % 256 = keyVals.length - 1 := by
    unfold AKM_MaxNumOfKeys at h48
    omega
  unfold buildKeys sortedKeys
  simp only [h]

/-- The limits of the table built from at least three keys, in terms of the
sorted values. -/
theorem buildKeys_spec (keyVals : List Nat) (releaseState : Int) (tolNum tolDen : Nat)
    (keys0 : List KeyRow) (h3 : 3 ≤ keyVals.length) (h48 : keyVals.length ≤ AKM_MaxNumOfKeys)
    (hmem : keys0.length = AKM_MaxNumOfKeys) :
    (∀ r, 1 ≤ r → r ≤ keyVals.length - 1 →
      (rd (buildKeys keyVals.length keyVals releaseState tolNum tolDen keys0) r).kmin =
        minOf (rd (sortedKeys keyVals keys0) (r - 1)).kval (rd (sortedKeys keyVals keys0) r).kval) ∧
    (∀ r, r + 1 ≤ keyVals.length - 1 →
      (rd (buildKeys keyVals.length keyVals releaseState tolNum tolDen keys0) r).kmax =
        maxOf (rd (sortedKeys keyVals keys0) r).kval (rd (sortedKeys keyVals keys0) (r + 1)).kval
          (minOf (rd (sortedKeys keyVals keys0) r).kval
            (rd (sortedKeys keyVals keys0) (r + 1)).kval)) ∧
    (rd (buildKeys keyVals.length keyVals releaseState tolNum tolDen keys0) 0).kmin =
      (if resolveRelease releaseState (sortedKeys keyVals keys0) = HIGH then 0
       else truncMul16 ((rd (sortedKeys keyVals keys0) 0).kval : Int) tolNum tolDen) ∧
    (rd (buildKeys keyVals.length keyVals releaseState tolNum tolDen keys0)
        (keyVals.length - 1)).kmax =
      (if resolveRelease releaseState (sortedKeys keyVals keys0) = HIGH then
         highBP (minOf (rd (sortedKeys keyVals keys0) (keyVals.length - 1 - 1)).kval
           (rd (sortedKeys keyVals keys0) (keyVals.length - 1)).kval) tolNum tolDen
       else 1023) := by
  obtain ⟨s1, _, _⟩ := sortedKeys_spec keyVals keys0 (by omega)
  have hn : keyVals.length - 1 < (sortedKeys keyVals keys0).length := by
    unfold AKM_MaxNumOfKeys at *
    omega
  obtain ⟨l1, l2⟩ := limitsLoop_spec (keyVals.length - 1) (sortedKeys keyVals keys0) (by omega) hn
  have hrel := setRelease_spec (resolveRelease releaseState (sortedKeys keyVals keys0)) tolNum
    tolDen (keyVals.length - 1)
    (limitsLoop (keyVals.length - 1) (keyVals.length - 1 - 1) 1 (sortedKeys keyVals keys0))
    (by omega) (by omega)
  rw [buildKeys_eq keyVals releaseState tolNum tolDen keys0 (by omega) h48]
  refine ⟨fun r hr1 hr2 => ?_, fun r hr => ?_, ?_, ?_⟩
  · rw [(hrel r).1, if_neg (by omega)]
    exact ((l2 r).2.2 hr1 hr2).1
  · rw [(hrel r).2, if_neg (by omega)]
    have := ((l2 (r + 1)).2.2 (by omega) (by omega)).2
    simpa using this
  · rw [(hrel 0).1, if_pos rfl, (l2 0).2.1]
  · rw [(hrel (keyVals.length - 1)).2, if_pos rfl,
      ((l2 (keyVals.length - 1)).2.2 (by omega) (by omega)).1]

/-- The table of a valid calibration with at least three keys is well formed. -/
theorem buildKeys_tableOK (keyVals : List Nat) (releaseState : Int) (tolNum tolDen : Nat)
    (keys0 : List KeyRow) (hv : ValidCalib keyVals tolNum tolDen keys0) :
    TableOK keyVals.length (buildKeys keyVals.length keyVals releaseState tolNum tolDen keys0) := by
  have h3 := hv.three
  obtain ⟨b1, b2, b3, b4⟩ :=
    buildKeys_spec keyVals releaseState tolNum tolDen keys0 hv.three hv.atMost hv.mem
  obtain ⟨t1, t2⟩ := sortedKeys_strict keyVals tolNum tolDen keys0 hv
  have hmin : ∀ r, 1 ≤ r → r ≤ keyVals.length - 1 →
      (rd (sortedKeys keyVals keys0) (r - 1)).kval <
        (rd (buildKeys keyVals.length keyVals releaseState tolNum tolDen keys0) r).kmin ∧
      (rd (buildKeys keyVals.length keyVals releaseState tolNum tolDen keys0) r).kmin ≤
        (rd (sortedKeys keyVals keys0) r).kval := by
    intro r hr1 hr2
    rw [b1 r hr1 hr2]
    exact minOf_bounds _ _ (t1 (r - 1) r (by omega) (by omega)) (t2 r (by omega))
  have hmax : ∀ r, r + 1 ≤ keyVals.length - 1 →
      (rd (buildKeys keyVals.length keyVals releaseState tolNum tolDen keys0) r).kmax + 1 =
        (rd (buildKeys keyVals.length keyVals releaseState tolNum tolDen keys0) (r + 1)).kmin := by
    intro r hr
    rw [b2 r hr, b1 (r + 1) (by omega) (by omega)]
    simpa using maxOf_succ _ _ (t1 r (r + 1) (by omega) (by omega)) (t2 (r + 1) (by omega))
  have hk0 : (rd (buildKeys keyVals.length keyVals releaseState tolNum tolDen keys0) 0).kmin ≤
      (rd (sortedKeys keyVals keys0) 0).kval := by
    rw [b3]
    split_ifs
    · omega
    · exact truncMul16_le _ _ _ hv.tol
  have hlast := hmin (keyVals.length - 1) (by omega) (by omega)
  have hl2 := t2 (keyVals.length - 1) (by omega)
  constructor
  · intro r hr
    exact hmax r (by omega)
  · intro r hr
    have h1 := hmax r (by omega)
    have h2 := hmin (r + 1) (by omega) (by omega)
    simp only [Nat.add_sub_cancel] at h2
    by_cases r0 : r = 0
    · subst r0; omega
    · have h3 := hmin r (by omega) (by omega)
      omega
  · rw [b4]
    split_ifs
    · have := highBP_bounds
        (rd (buildKeys keyVals.length keyVals releaseState tolNum tolDen keys0)
          (keyVals.length - 1)).kmin tolNum tolDen (by omega) hv.tol
      rw [b1 (keyVals.length - 1) (by omega) (by omega)] at this
      rw [b1 (keyVals.length - 1) (by omega) (by omega)]
      exact this.1
    · omega
  · rw [b4]
    split_ifs
    · have := (hmin (keyVals.length - 1) (by omega) (by omega)).2
      have := highBP_bounds
        (minOf (rd (sortedKeys keyVals keys0) (keyVals.length - 1 - 1)).kval
          (rd (sortedKeys keyVals keys0) (keyVals.length - 1)).kval) tolNum tolDen
        (by rw [← b1 (keyVals.length - 1) (by omega) (by omega)]; omega) hv.tol
      omega
    · omega

theorem tableOK_kmin_mono (n : Nat) (keys : List KeyRow) (h : TableOK n keys) (a : Nat) :
    ∀ d, a + d < n → (rd keys a).kmin ≤ (rd keys (a + d)).kmin := by
  intro d
  induction d with
  | zero => intro _; exact Nat.le_refl _
  | succ d ih =>
    intro hd
    have h1 := ih (by omega)
    have h2 := h.adj (a + d) (by omega)
    have h3 := h.nonempty (a + d) (by omega)
    have e : a + (d + 1) = a + d + 1 := by omega
    rw [e]
    omega

theorem tableOK_lt (n : Nat) (keys : List KeyRow) (h : TableOK n keys) (a b : Nat)
    (hab : a < b) (hb : b < n) : (rd keys a).kmax < (rd keys b).kmin := by
  have h1 := tableOK_kmin_mono n keys h (a + 1) (b - (a + 1)) (by omega)
  have e : a + 1 + (b - (a + 1)) = b := by omega
  rw [e] at h1
  have h2 := h.adj a (by omega)
  omega

theorem tableOK_kmax_le_last (n : Nat) (keys : List KeyRow) (h : TableOK n keys) (a : Nat)
    (ha : a < n) : (rd keys a).kmax ≤ (rd keys (n - 1)).kmax + 1 ∧
      (a + 1 < n → (rd keys a).kmax ≤ (rd keys (n - 1)).kmax) := by
  have hl := h.last
  by_cases e : a = n - 1
  · subst e
    exact ⟨by omega, fun h => by omega⟩
  · have := tableOK_lt n keys h a (n - 1) (by omega) (by omega)
    exact ⟨by omega, fun _ => by omega⟩

/-- No reading is in two windows. -/
theorem window_unique (n : Nat) (keys : List KeyRow) (h : TableOK n keys) (i j : Nat)
    (hi : i < n) (hj : j < n) (val : Int) (wi : inWindow keys i val) (wj : inWindow keys j val) :
    i = j := by
  unfold inWindow at wi wj
  by_contra hne
  rcases Nat.lt_or_gt_of_ne hne with hlt | hgt
  · have := tableOK_lt n keys h i j hlt hj
    omega
  · have := tableOK_lt n keys h j i hgt hi
    omega

/-- No reading of the release region is in a window. -/
theorem release_no_window (n : Nat) (keys : List KeyRow) (h : TableOK n keys) (i : Nat)
    (hi : i < n) (val : Int) (hr : inRelease keys (n - 1) val) : ¬ inWindow keys i val := by
  unfold inRelease at hr
  unfold inWindow
  intro hw
  have h1 := tableOK_kmin_mono n keys h 0 i (by omega)
  rw [Nat.zero_add] at h1
  have h2 := tableOK_kmax_le_last n keys h i hi
  rcases hr with hr | hr
  · omega
  · by_cases e : i + 1 < n
    · have := h2.2 e
      omega
    · have e2 : i = n - 1 := by omega
      subst e2
      omega

theorem keyLoop_some (keys : List KeyRow) (val : Int) (i : Nat) (fuel : Nat) :
    ∀ j, keyLoop keys val fuel j = some i →
      j ≤ i ∧ i < j + fuel ∧ val ≤ ((rd keys i).kmax : Int) ∧
      ∀ r, j ≤ r → r < i → ¬ val ≤ ((rd keys r).kmax : Int) := by
  induction fuel with
  | zero => intro j h; simp [keyLoop] at h
  | succ f ih =>
    intro j h
    simp only [keyLoop] at h
    by_cases hc : val ≤ ((rd keys j).kmax : Int)
    · rw [if_pos hc] at h
      have e : j = i := Option.some.inj h
      subst e
      exact ⟨Nat.le_refl _, by omega, hc, fun r h1 h2 => by omega⟩
    · rw [if_neg hc] at h
      obtain ⟨a, b, c, d⟩ := ih (j + 1) h
      refine ⟨by omega, by omega, c, fun r h1 h2 => ?_⟩
      by_cases e : r = j
      · subst e; exact hc
      · exact d r (by omega) h2

theorem keyLoop_none (keys : List KeyRow) (val : Int) (fuel : Nat) :
    ∀ j, keyLoop keys val fuel j = none →
      ∀ r, j ≤ r → r < j + fuel → ¬ val ≤ ((rd keys r).kmax : Int) := by
  induction fuel with
  | zero => intro j _ r h1 h2; omega
  | succ f ih =>
    intro j h r h1 h2
    simp only [keyLoop] at h
    by_cases hc : val ≤ ((rd keys j).kmax : Int)
    · rw [if_pos hc] at h
      exact absurd h (by simp)
    · rw [if_neg hc] at h
      by_cases e : r = j
      · subst e; exact hc
      · exact ih (j + 1) h r (by omega) (by omega)

/-- Outside the release region the key loop stops at a row, the first whose
`kmax` is not below the reading, and the reading is in that row's window. -/
theorem keyLoop_finds (n : Nat) (keys : List KeyRow) (h : TableOK n keys) (hn : 1 ≤ n)
    (val : Int) (hr : ¬ inRelease keys (n - 1) val) :
    ∃ i, i < n ∧ keyLoop keys val n 0 = some i ∧ inWindow keys i val ∧
      ∀ r, r < i → ¬ val ≤ ((rd keys r).kmax : Int) := by
  unfold inRelease at hr
  cases hk : keyLoop keys val n 0 with
  | none =>
    have := keyLoop_none keys val n 0 hk (n - 1) (by omega) (by omega)
    omega
  | some i =>
    obtain ⟨a, b, c, d⟩ := keyLoop_some keys val i n 0 hk
    refine ⟨i, by omega, rfl, ?_, fun r hr => d r (by omega) hr⟩
    unfold inWindow
    refine ⟨?_, c⟩
    by_cases e : i = 0
    · subst e; omega
    · have h1 := d (i - 1) (by omega) (by omega)
      have h2 := h.adj (i - 1) (by omega)
      have e2 : i - 1 + 1 = i := by omega
      rw [e2] at h2
      omega

/-- A reading in the window of row `i` makes the key loop stop at row `i`. -/
theorem keyLoop_of_window (n : Nat) (keys : List KeyRow) (h : TableOK n keys) (i : Nat)
    (hi : i < n) (val : Int) (hw : inWindow keys i val) :
    ¬ inRelease keys (n - 1) val ∧ keyLoop keys val n 0 = some i := by
  have hnr : ¬ inRelease keys (n - 1) val :=
    fun hr => release_no_window n keys h i hi val hr hw
  obtain ⟨j, hj, hk, hwj, _⟩ := keyLoop_finds n keys h (by omega) val hnr
  have := window_unique n keys h i j hi hj val hw hwj
  subst this
  exact ⟨hnr, hk⟩

/-- The partition of the readings by a well-formed table: a reading is either
in the release region and in no window, or outside it and in exactly one. -/
theorem partition_of_tableOK (n : Nat) (keys : List KeyRow) (h : TableOK n keys) (hn : 1 ≤ n)
    (val : Int) :
    (inRelease keys (n - 1) val ∧ ∀ i, i < n → ¬ inWindow keys i val) ∨
    (¬ inRelease keys (n - 1) val ∧
      ∃ i, i < n ∧ inWindow keys i val ∧ ∀ j, j < n → inWindow keys j val → j = i) := by
  by_cases hr : inRelease keys (n - 1) val
  · exact Or.inl ⟨hr, fun i hi => release_no_window n keys h i hi val hr⟩
  · obtain ⟨i, hi, _, hw, _⟩ := keyLoop_finds n keys h hn val hr
    exact Or.inr ⟨hr, i, hi, hw, fun j hj hwj => window_unique n keys h j i hj hi val hwj hw⟩

/-- The partition holds for every valid calibration with at least three keys. -/
theorem partition_of_valid (keyVals : List Nat) (releaseState : Int) (tolNum tolDen : Nat)
    (keys0 : List KeyRow) (hv : ValidCalib keyVals tolNum tolDen keys0) (val : Int) :
    (inRelease (buildKeys keyVals.length keyVals releaseState tolNum tolDen keys0)
        (keyVals.length - 1) val ∧
      ∀ i, i < keyVals.length →
        ¬ inWindow (buildKeys keyVals.length keyVals releaseState tolNum tolDen keys0) i val) ∨
    (¬ inRelease (buildKeys keyVals.length keyVals releaseState tolNum tolDen keys0)
        (keyVals.length - 1) val ∧
      ∃ i, i < keyVals.length ∧
        inWindow (buildKeys keyVals.length keyVals releaseState tolNum tolDen keys0) i val ∧
        ∀ j, j < keyVals.length →
          inWindow (buildKeys keyVals.length keyVals releaseState tolNum tolDen keys0) j val →
          j = i) :=
  partition_of_tableOK keyVals.length _
    (buildKeys_tableOK keyVals releaseState tolNum tolDen keys0 hv) (by have := hv.three; omega) val

/-- C2 fails on two keys: the limits loop `for (i = 1; i < nthKey; ++i)` runs no
iteration when `nthKey = 1`, so `keys[0][kmax]` and `keys[1][kmin]` keep what
the storage held (zero here).  With the values 200 and 500, tolerance 1/10 and
automatic polarity the table is `[20, 0]`, `[0, 1023]`, and the reading 10 lies
both in the release region and in the window of row 1. -/
theorem partition_fails_two_keys :
    (buildKeys 2 [200, 500] (-1) 1 10 zeroKeys).take 2 =
      [⟨0, 200, 20, 0⟩, ⟨1, 500, 0, 1023⟩] ∧
    inRelease (buildKeys 2 [200, 500] (-1) 1 10 zeroKeys) 1 10 ∧
    inWindow (buildKeys 2 [200, 500] (-1) 1 10 zeroKeys) 1 10 := by
  decide

theorem rdAt_natCast (a : List AKM_State) (n : Nat) : rdAt a (n : Int) = rd a n := by
  unfold rdAt
  rw [if_neg (by omega), Int.toNat_ofNat]

theorem nAgoIdx_back (K now n : Nat) (hK : K ≤ 127) (hnow : now < K) (hn : n < K) :
    nAgoIdx K now n = ((back K now n : Nat) : Int) := by
  unfold nAgoIdx wrapInt8 back
  simp only []
  split_ifs <;> omega

theorem succ_mod (K i : Nat) (hi : i < K) : (i + 1) % K = if i + 1 = K then 0 else i + 1 := by
  split_ifs with h
  · rw [h, Nat.mod_self]
  · exact Nat.mod_eq_of_lt (by omega)

theorem shuffleLoop_spec (K : Nat) (fuel : Nat) :
    ∀ (n0 : Nat) (s : AnalogKeyMatrix), 1 ≤ n0 → n0 + fuel ≤ s.log.length →
      (shuffleLoop K fuel n0 s)._log = s._log ∧
      (shuffleLoop K fuel n0 s).now_i = s.now_i ∧
      (shuffleLoop K fuel n0 s).now = s.now ∧
      (shuffleLoop K fuel n0 s).keys = s.keys ∧
      (shuffleLoop K fuel n0 s).numOfKeys = s.numOfKeys ∧
      (shuffleLoop K fuel n0 s).nthKey = s.nthKey ∧
      (shuffleLoop K fuel n0 s).prev_i = s.prev_i ∧
      (shuffleLoop K fuel n0 s).log.length = s.log.length ∧
      (∀ n, rd (shuffleLoop K fuel n0 s).log n =
        if n0 ≤ n ∧ n < n0 + fuel then nAgoIdx K s.now_i n else rd s.log n) ∧
      (shuffleLoop K fuel n0 s).prev =
        (if n0 ≤ 1 ∧ 1 < n0 + fuel then nAgoIdx K s.now_i 1 else s.prev) := by
  induction fuel with
  | zero =>
    intro n0 s _ _
    refine ⟨rfl, rfl, rfl, rfl, rfl, rfl, rfl, rfl, fun n => ?_, ?_⟩
    · rw [if_neg (by omega)]; rfl
    · rw [if_neg (by omega)]; rfl
  | succ f ih =>
    intro n0 s h1 hlen
    simp only [shuffleLoop]
    by_cases e : n0 = 1
    · subst e
      rw [if_pos rfl]
      obtain ⟨a1, a2, a3, a4, a5, a6, a7, a8, a9, a10⟩ := ih 2
        { s with log := setAt s.log 1 (nAgoIdx K s.now_i 1),
                 prev := nAgoIdx K s.now_i 1 }
        (by omega) (by simp only [length_setAt]; omega)
      refine ⟨a1, a2, a3, a4, a5, a6, a7, by rw [a8]; exact length_setAt _ _ _, fun n => ?_, ?_⟩
      · rw [a9 n]
        by_cases c : 2 ≤ n ∧ n < 2 + f
        · rw [if_pos c, if_pos (by omega)]
        · rw [if_neg c]
          simp only [rd_setAt]
          by_cases c2 : n = 1
          · subst c2
            rw [if_pos ⟨rfl, by omega⟩, if_pos (by omega)]
          · rw [if_neg (fun h => c2 h.1), if_neg (by omega)]
      · rw [a10, if_neg (by omega), if_pos (by omega)]
    · rw [if_neg e]
      obtain ⟨a1, a2, a3, a4, a5, a6, a7, a8, a9, a10⟩ := ih (n0 + 1)
        { s with log := setAt s.log n0 (nAgoIdx K s.now_i n0) }
        (by omega) (by simp only [length_setAt]; omega)
      refine ⟨a1, a2, a3, a4, a5, a6, a7, by rw [a8]; exact length_setAt _ _ _, fun n => ?_, ?_⟩
      · rw [a9 n]
        by_cases c : n0 + 1 ≤ n ∧ n < n0 + 1 + f
        · rw [if_pos c, if_pos (by omega)]
        · rw [if_neg c]
          simp only [rd_setAt]
          by_cases c2 : n = n0
          · subst c2
            rw [if_pos ⟨rfl, by omega⟩, if_pos (by omega)]
          · rw [if_neg (fun h => c2 h.1), if_neg (by omega)]
      · rw [a10, if_neg (by omega), if_neg (by omega)]

/-- The object after `readTail` when the cursor moves to `this_i`. -/
theorem readTail_advance (K : Nat) (s : AnalogKeyMatrix) (this_i : Nat) (val event key : Int)
    (ms : Nat) (hne : this_i ≠ s.now_i) (h256 : this_i < 256) (hK : 1 ≤ K)
    (hlen : s.log.length = K) :
    (readTail K s this_i val event key ms).1._log = setAt s._log this_i ⟨val, event, key, ms⟩ ∧
    (readTail K s this_i val event key ms).1.now_i = this_i ∧
    (readTail K s this_i val event key ms).1.now = this_i ∧
    (readTail K s this_i val event key ms).2 = this_i ∧
    (readTail K s this_i val event key ms).1.keys = s.keys ∧
    (readTail K s this_i val event key ms).1.numOfKeys = s.numOfKeys ∧
    (readTail K s this_i val event key ms).1.nthKey = s.nthKey ∧
    (readTail K s this_i val event key ms).1.log.length = K ∧
    (∀ n, rd (readTail K s this_i val event key ms).1.log n =
      if n = 0 then (this_i : Int) else if n < K then nAgoIdx K this_i n else rd s.log n) ∧
    (readTail K s this_i val event key ms).1.prev =
      (if 1 < K then nAgoIdx K this_i 1 else (s.now_i : Int)) := by
  have hm : this_i % 256 = this_i := Nat.mod_eq_of_lt h256
  obtain ⟨a1, a2, a3, a4, a5, a6, a7, a8, a9, a10⟩ := shuffleLoop_spec K (K - 1) 1
    { s with prev := (s.now_i : Int), now := this_i, now_i := this_i % 256,
             log := setAt s.log 0 ((this_i % 256 : Nat) : Int) }
    (by omega) (by simp only [length_setAt]; omega)
  simp only [readTail, if_pos hne]
  simp only [length_setAt] at a8
  refine ⟨by rw [a1], by rw [a2]; exact hm, a3, a3, a4, a5, a6, by rw [a8]; exact hlen,
    fun n => ?_, ?_⟩
  · rw [a9 n]
    simp only [hm, rd_setAt]
    by_cases c : n = 0
    · subst c
      rw [if_neg (by omega), if_pos ⟨rfl, by omega⟩, if_pos rfl]
    · rw [if_neg c]
      by_cases c2 : n < K
      · rw [if_pos (by omega), if_pos c2]
      · rw [if_neg (by omega), if_neg (fun h => c h.1), if_neg c2]
  · rw [a10]
    simp only [hm]
    by_cases c : 1 < K
    · rw [if_pos (by omega), if_pos c]
    · rw [if_neg (by omega), if_neg c]

/-- The object after `readTail` when the cursor stays. -/
theorem readTail_stay (K : Nat) (s : AnalogKeyMatrix) (val event key : Int) (ms : Nat) :
    readTail K s s.now_i val event key ms =
      ({ s with _log := setAt s._log s.now_i ⟨val, event, key, ms⟩ }, s.now) := by
  simp [readTail]

theorem read_error (K : Nat) (AKM_ERROR : Option Int) (s : AnalogKeyMatrix) (val : Int)
    (millis : Nat) (hr : inRelease s.keys s.nthKey val) (he : errFires AKM_ERROR val) :
    read K AKM_ERROR s val millis =
      ({ s with _log := setAt s._log s.now_i ⟨val, AKM_ERROR.getD 0, -1, millis⟩ }, s.now_i) := by
  unfold inRelease at hr
  unfold errFires at he
  simp only [read]
  rw [if_pos hr, if_pos he]

theorem read_idle_continues (K : Nat) (AKM_ERROR : Option Int) (s : AnalogKeyMatrix)
    (val : Int) (millis : Nat) (hr : inRelease s.keys s.nthKey val)
    (he : ¬ errFires AKM_ERROR val) (hi : (rd s._log s.now_i).event = AKM_IDLE) :
    read K AKM_ERROR s val millis =
      ({ s with _log := setAt s._log s.now_i { rd s._log s.now_i with val := val } },
        s.now_i) := by
  unfold inRelease at hr
  unfold errFires at he
  simp only [read]
  rw [if_pos hr, if_neg he, if_pos hi]

theorem read_release (K : Nat) (AKM_ERROR : Option Int) (s : AnalogKeyMatrix)
    (val : Int) (millis : Nat) (hr : inRelease s.keys s.nthKey val)
    (he : ¬ errFires AKM_ERROR val) (hi : (rd s._log s.now_i).event ≥ AKM_PRESS) :
    read K AKM_ERROR s val millis =
      readTail K s ((s.now_i + 1) % K) val AKM_RELEASE (rd s._log s.now_i).key millis := by
  unfold inRelease at hr
  unfold errFires at he
  have hn : ¬ (rd s._log s.now_i).event = AKM_IDLE := by
    unfold AKM_PRESS at hi
    unfold AKM_IDLE
    omega
  simp only [read]
  rw [if_pos hr, if_neg he, if_neg hn, if_pos hi]

theorem read_first_idle (K : Nat) (AKM_ERROR : Option Int) (s : AnalogKeyMatrix)
    (val : Int) (millis : Nat) (hr : inRelease s.keys s.nthKey val)
    (he : ¬ errFires AKM_ERROR val) (hn : ¬ (rd s._log s.now_i).event = AKM_IDLE)
    (hi : ¬ (rd s._log s.now_i).event ≥ AKM_PRESS) :
    read K AKM_ERROR s val millis =
      readTail K s ((s.now_i + 1) % K) val AKM_IDLE (-1) millis := by
  unfold inRelease at hr
  unfold errFires at he
  simp only [read]
  rw [if_pos hr, if_neg he, if_neg hn, if_neg hi]

theorem read_same_key (K : Nat) (AKM_ERROR : Option Int) (s : AnalogKeyMatrix)
    (val : Int) (millis : Nat) (key_i : Nat) (hr : ¬ inRelease s.keys s.nthKey val)
    (hk : keyLoop s.keys val s.numOfKeys 0 = some key_i)
    (hs : (rd s._log s.now_i).event = AKM_PRESS ∧
      (rd s._log s.now_i).key = ((rd s.keys key_i).knum : Int)) :
    read K AKM_ERROR s val millis = (s, s.now_i) := by
  unfold inRelease at hr
  simp only [read]
  rw [if_neg hr, hk]
  simp only []
  rw [if_pos hs]

theorem read_press (K : Nat) (AKM_ERROR : Option Int) (s : AnalogKeyMatrix)
    (val : Int) (millis : Nat) (key_i : Nat) (hr : ¬ inRelease s.keys s.nthKey val)
    (hk : keyLoop s.keys val s.numOfKeys 0 = some key_i)
    (hs : ¬ ((rd s._log s.now_i).event = AKM_PRESS ∧
      (rd s._log s.now_i).key = ((rd s.keys key_i).knum : Int))) :
    read K AKM_ERROR s val millis =
      readTail K s ((s.now_i + 1) % K) val AKM_PRESS ((rd s.keys key_i).knum : Int) millis := by
  unfold inRelease at hr
  simp only [read]
  rw [if_neg hr, hk]
  simp only []
  rw [if_neg hs]

theorem read_not_found (K : Nat) (AKM_ERROR : Option Int) (s : AnalogKeyMatrix)
    (val : Int) (millis : Nat) (hr : ¬ inRelease s.keys s.nthKey val)
    (hk : keyLoop s.keys val s.numOfKeys 0 = none) :
    read K AKM_ERROR s val millis = readTail K s s.now_i val (-1) (-1) 4294967295 := by
  unfold inRelease at hr
  simp only [read]
  rw [if_neg hr, hk]

/-- Every call of `read` does one of three things: it rewrites the record of the
current slot in place, it changes nothing, or it runs `readTail` on the next
slot. -/
theorem read_shape (K : Nat) (AKM_ERROR : Option Int) (s : AnalogKeyMatrix) (val : Int)
    (millis : Nat) :
    (∃ r, read K AKM_ERROR s val millis =
        ({ s with _log := setAt s._log s.now_i r }, s.now_i)) ∨
    (∃ r, read K AKM_ERROR s val millis =
        ({ s with _log := setAt s._log s.now_i r }, s.now)) ∨
    read K AKM_ERROR s val millis = (s, s.now_i) ∨
    (∃ event key, read K AKM_ERROR s val millis =
        readTail K s ((s.now_i + 1) % K) val event key millis) := by
  by_cases hr : inRelease s.keys s.nthKey val
  · by_cases he : errFires AKM_ERROR val
    · exact Or.inl ⟨_, read_error K AKM_ERROR s val millis hr he⟩
    · by_cases hi : (rd s._log s.now_i).event = AKM_IDLE
      · exact Or.inl ⟨_, read_idle_continues K AKM_ERROR s val millis hr he hi⟩
      · by_cases hp : (rd s._log s.now_i).event ≥ AKM_PRESS
        · exact Or.inr (Or.inr (Or.inr ⟨_, _, read_release K AKM_ERROR s val millis hr he hp⟩))
        · exact Or.inr (Or.inr (Or.inr
            ⟨_, _, read_first_idle K AKM_ERROR s val millis hr he hi hp⟩))
  · cases hk : keyLoop s.keys val s.numOfKeys 0 with
    | none =>
      refine Or.inr (Or.inl ⟨⟨val, -1, -1, 4294967295⟩, ?_⟩)
      rw [read_not_found K AKM_ERROR s val millis hr hk, readTail_stay]
    | some key_i =>
      by_cases hs : (rd s._log s.now_i).event = AKM_PRESS ∧
          (rd s._log s.now_i).key = ((rd s.keys key_i).knum : Int)
      · exact Or.inr (Or.inr (Or.inl (read_same_key K AKM_ERROR s val millis key_i hr hk hs)))
      · exact Or.inr (Or.inr (Or.inr
          ⟨_, _, read_press K AKM_ERROR s val millis key_i hr hk hs⟩))

theorem next_ne (K i : Nat) (hK : 2 ≤ K) (hi : i < K) :
    (i + 1) % K ≠ i ∧ (i + 1) % K < K := by
  rw [succ_mod K i hi]
  split_ifs <;> omega

/-- `read` keeps the table and keeps the log in order. -/
theorem read_keeps (K : Nat) (AKM_ERROR : Option Int) (s : AnalogKeyMatrix) (val : Int)
    (millis : Nat) (hK : 2 ≤ K) (hK2 : K ≤ 127) (h : LogOK K s) :
    LogOK K (read K AKM_ERROR s val millis).1 ∧
    (read K AKM_ERROR s val millis).1.keys = s.keys ∧
    (read K AKM_ERROR s val millis).1.numOfKeys = s.numOfKeys ∧
    (read K AKM_ERROR s val millis).1.nthKey = s.nthKey ∧
    (read K AKM_ERROR s val millis).2 = (read K AKM_ERROR s val millis).1.now_i := by
  rcases read_shape K AKM_ERROR s val millis with ⟨r, e⟩ | ⟨r, e⟩ | e | ⟨ev, key, e⟩
  · rw [e]
    exact ⟨⟨by simp only [length_setAt]; exact h.slots, h.ptrs, h.cur, h.nowp⟩, rfl, rfl, rfl, rfl⟩
  · rw [e]
    exact ⟨⟨by simp only [length_setAt]; exact h.slots, h.ptrs, h.cur, h.nowp⟩, rfl, rfl, rfl,
      h.nowp⟩
  · rw [e]
    exact ⟨h, rfl, rfl, rfl, rfl⟩
  · rw [e]
    obtain ⟨n1, n2⟩ := next_ne K s.now_i hK h.cur
    obtain ⟨a1, a2, a3, a4, a5, a6, a7, a8, _, _⟩ := readTail_advance K s ((s.now_i + 1) % K) val
      ev key millis n1 (by omega) (by omega) h.ptrs
    refine ⟨⟨?_, a8, by rw [a2]; exact n2, by rw [a3, a2]⟩, a5, a6, a7, by rw [a4, a2]⟩
    rw [a1, length_setAt]
    exact h.slots

theorem resetLoop_spec (val : Int) (ms : Nat) (fuel : Nat) :
    ∀ (i : Nat) (s : AnalogKeyMatrix), i + fuel ≤ s._log.length → i + fuel ≤ s.log.length →
      (resetLoop val ms fuel i s)._log.length = s._log.length ∧
      (resetLoop val ms fuel i s).log.length = s.log.length ∧
      (resetLoop val ms fuel i s).keys = s.keys ∧
      (resetLoop val ms fuel i s).numOfKeys = s.numOfKeys ∧
      (resetLoop val ms fuel i s).nthKey = s.nthKey ∧
      (∀ r, rd (resetLoop val ms fuel i s)._log r =
        if i ≤ r ∧ r < i + fuel then ⟨val, AKM_IDLE, -1, ms⟩ else rd s._log r) ∧
      (∀ r, rd (resetLoop val ms fuel i s).log r =
        if i ≤ r ∧ r < i + fuel then (r : Int) else rd s.log r) := by
  induction fuel with
  | zero =>
    intro i s _ _
    refine ⟨rfl, rfl, rfl, rfl, rfl, fun r => ?_, fun r => ?_⟩
    · rw [if_neg (by omega)]; rfl
    · rw [if_neg (by omega)]; rfl
  | succ f ih =>
    intro i s h1 h2
    simp only [resetLoop]
    obtain ⟨a1, a2, a3, a4, a5, a6, a7⟩ := ih (i + 1)
      { s with _log := setAt s._log i ⟨val, AKM_IDLE, -1, ms⟩, log := setAt s.log i (i : Int) }
      (by simp only [length_setAt]; omega) (by simp only [length_setAt]; omega)
    simp only [length_setAt] at a1 a2
    refine ⟨a1, a2, a3, a4, a5, fun r => ?_, fun r => ?_⟩
    · rw [a6 r]
      simp only [rd_setAt]
      by_cases c : i + 1 ≤ r ∧ r < i + 1 + f
      · rw [if_pos c, if_pos (by omega)]
      · rw [if_neg c]
        by_cases c2 : r = i
        · rw [if_pos ⟨c2, by omega⟩, if_pos (by omega)]
        · rw [if_neg (fun h => c2 h.1), if_neg (by omega)]
    · rw [a7 r]
      simp only [rd_setAt]
      by_cases c : i + 1 ≤ r ∧ r < i + 1 + f
      · rw [if_pos c, if_pos (by omega)]
      · rw [if_neg c]
        by_cases c2 : r = i
        · rw [if_pos ⟨c2, by omega⟩, if_pos (by omega), c2]
        · rw [if_neg (fun h => c2 h.1), if_neg (by omega)]

/-- The object after the seeding part of `resetStates`. -/
theorem resetCore_spec (K : Nat) (s : AnalogKeyMatrix) (val : Int) (ms : Nat)
    (hK : 1 ≤ K) (hK2 : K ≤ 255) (h1 : s._log.length = K) (h2 : s.log.length = K) :
    LogOK K (resetCore K s val ms) ∧
    (resetCore K s val ms).keys = s.keys ∧
    (resetCore K s val ms).numOfKeys = s.numOfKeys ∧
    (resetCore K s val ms).nthKey = s.nthKey ∧
    (resetCore K s val ms).now_i = 0 ∧
    (resetCore K s val ms).prev = ((K - 1 : Nat) : Int) ∧
    (∀ r, r < K → rd (resetCore K s val ms)._log r = ⟨val, AKM_IDLE, -1, ms⟩) ∧
    (∀ r, r < K → rd (resetCore K s val ms).log r = (r : Int)) := by
  obtain ⟨a1, a2, a3, a4, a5, a6, a7⟩ := resetLoop_spec val ms K 0 s (by omega) (by omega)
  have hm : (K - 1) % 256 = K - 1 := Nat.mod_eq_of_lt (by omega)
  have e1 : (resetCore K s val ms)._log = (resetLoop val ms K 0 s)._log := rfl
  have e2 : (resetCore K s val ms).log = (resetLoop val ms K 0 s).log := rfl
  have e3 : (resetCore K s val ms).now_i = 0 := rfl
  have e4 : (resetCore K s val ms).now = 0 := rfl
  have e5 : (resetCore K s val ms).prev = (((K - 1) % 256 : Nat) : Int) := rfl
  have e6 : (resetCore K s val ms).keys = (resetLoop val ms K 0 s).keys := rfl
  have e7 : (resetCore K s val ms).numOfKeys = (resetLoop val ms K 0 s).numOfKeys := rfl
  have e8 : (resetCore K s val ms).nthKey = (resetLoop val ms K 0 s).nthKey := rfl
  refine ⟨⟨by rw [e1, a1]; exact h1, by rw [e2, a2]; exact h2, by rw [e3]; omega,
    by rw [e4, e3]⟩, by rw [e6, a3], by rw [e7, a4], by rw [e8, a5], e3, by rw [e5, hm],
    fun r hr => ?_, fun r hr => ?_⟩
  · rw [e1, a6 r, if_pos (by omega)]
  · rw [e2, a7 r, if_pos (by omega)]

theorem resetStates_eq (K : Nat) (AKM_ERROR : Option Int) (s : AnalogKeyMatrix) (val : Int)
    (ms : Nat) (val2 : Int) (ms2 : Nat) :
    resetStates K AKM_ERROR s val ms val2 ms2 =
      (if ¬ inRelease (resetCore K s val ms).keys (resetCore K s val ms).nthKey val then
        read K AKM_ERROR (resetCore K s val ms) val2 ms2
       else (resetCore K s val ms, (resetCore K s val ms).now)) := by
  unfold resetStates inRelease
  simp only []
  by_cases c : val ≥ ((rd (resetCore K s val ms).keys 0).kmin : Int) ∧
      val ≤ ((rd (resetCore K s val ms).keys (resetCore K s val ms).nthKey).kmax : Int)
  · rw [if_pos c, if_pos (by omega)]
  · rw [if_neg c, if_neg (by omega)]

theorem ready_read (K : Nat) (AKM_ERROR : Option Int) (mem s : AnalogKeyMatrix) (val : Int)
    (millis : Nat) (hK : 2 ≤ K) (hK2 : K ≤ 127) (h : Ready K mem s) :
    Ready K mem (read K AKM_ERROR s val millis).1 := by
  obtain ⟨a, b, c, d, _⟩ := read_keeps K AKM_ERROR s val millis hK hK2 h.logOK
  exact ⟨a, b.trans h.keys, c.trans h.numOfKeys, d.trans h.nthKey⟩

theorem ready_resetCore (K : Nat) (mem s : AnalogKeyMatrix) (val : Int) (ms : Nat)
    (hK : 2 ≤ K) (hK2 : K ≤ 127) (h1 : s._log.length = K) (h2 : s.log.length = K)
    (hk : s.keys = mem.keys) (hn : s.numOfKeys = mem.numOfKeys) (ht : s.nthKey = mem.nthKey) :
    Ready K mem (resetCore K s val ms) := by
  obtain ⟨a, b, c, d, _⟩ := resetCore_spec K s val ms (by omega) (by omega) h1 h2
  exact ⟨a, b.trans hk, c.trans hn, d.trans ht⟩

theorem ready_resetStates (K : Nat) (AKM_ERROR : Option Int) (mem s : AnalogKeyMatrix)
    (val : Int) (ms : Nat) (val2 : Int) (ms2 : Nat)
    (hK : 2 ≤ K) (hK2 : K ≤ 127) (h1 : s._log.length = K) (h2 : s.log.length = K)
    (hk : s.keys = mem.keys) (hn : s.numOfKeys = mem.numOfKeys) (ht : s.nthKey = mem.nthKey) :
    Ready K mem (resetStates K AKM_ERROR s val ms val2 ms2).1 := by
  have hc := ready_resetCore K mem s val ms hK hK2 h1 h2 hk hn ht
  rw [resetStates_eq]
  by_cases c : inRelease (resetCore K s val ms).keys (resetCore K s val ms).nthKey val
  · rw [if_neg (not_not_intro c)]
    exact hc
  · rw [if_pos c]
    exact ready_read K AKM_ERROR mem _ val2 ms2 hK hK2 hc

/-- Every reachable state is ready. -/
theorem reachable_ready (K : Nat) (AKM_ERROR : Option Int) (mem s : AnalogKeyMatrix)
    (hK : 2 ≤ K) (hK2 : K ≤ 127) (h1 : mem._log.length = K) (h2 : mem.log.length = K)
    (h : Reachable K AKM_ERROR mem s) : Ready K mem s := by
  induction h with
  | reset val ms val2 ms2 =>
    exact ready_resetStates K AKM_ERROR mem mem val ms val2 ms2 hK hK2 h1 h2 rfl rfl rfl
  | read s val ms _ ih => exact ready_read K AKM_ERROR mem s val ms hK hK2 ih
  | again s val ms val2 ms2 _ ih =>
    exact ready_resetStates K AKM_ERROR mem s val ms val2 ms2 hK hK2 ih.logOK.slots
      ih.logOK.ptrs ih.keys ih.numOfKeys ih.nthKey

theorem calibrated_nthKey (keyVals : List Nat) (releaseState : Int) (tolNum tolDen : Nat)
    (mem : AnalogKeyMatrix) (h1 : 1 ≤ keyVals.length) (h48 : keyVals.length ≤ AKM_MaxNumOfKeys) :
    (calibrated keyVals.length keyVals releaseState tolNum tolDen mem).nthKey =
      keyVals.length - 1 := by
  unfold AKM_MaxNumOfKeys at h48
  show (keyVals.length + 255) % 256 = keyVals.length - 1
  omega

/-- What a ready state of a valid deployment knows about its table. -/
theorem ready_table (K : Nat) (keyVals : List Nat) (releaseState : Int) (tolNum tolDen : Nat)
    (mem s : AnalogKeyMatrix) (hd : ValidSetup K keyVals tolNum tolDen mem)
    (hs : Ready K (calibrated keyVals.length keyVals releaseState tolNum tolDen mem) s) :
    s.keys = buildKeys keyVals.length keyVals releaseState tolNum tolDen mem.keys ∧
    s.numOfKeys = keyVals.length ∧ s.nthKey = keyVals.length - 1 ∧
    TableOK keyVals.length s.keys := by
  have h3 := hd.calib.three
  have e1 : s.keys = buildKeys keyVals.length keyVals releaseState tolNum tolDen mem.keys :=
    hs.keys
  refine ⟨e1, hs.numOfKeys, ?_, ?_⟩
  · rw [hs.nthKey]
    exact calibrated_nthKey keyVals releaseState tolNum tolDen mem (by omega) hd.calib.atMost
  · rw [e1]
    exact buildKeys_tableOK keyVals releaseState tolNum tolDen mem.keys hd.calib

/-- The storage of a calibrated object still has its `K` log slots. -/
theorem reachable_ready_valid (K : Nat) (AKM_ERROR : Option Int) (keyVals : List Nat)
    (releaseState : Int) (tolNum tolDen : Nat) (mem s : AnalogKeyMatrix)
    (hd : ValidSetup K keyVals tolNum tolDen mem)
    (hs : Reachable K AKM_ERROR
      (calibrated keyVals.length keyVals releaseState tolNum tolDen mem) s) :
    Ready K (calibrated keyVals.length keyVals releaseState tolNum tolDen mem) s :=
  reachable_ready K AKM_ERROR _ s hd.sizeLo hd.sizeHi hd.slots hd.ptrs hs

/-- The state after `readTail` moved the cursor to the next slot. -/
theorem advance_facts (K : Nat) (s : AnalogKeyMatrix) (val event key : Int) (ms : Nat)
    (hK : 2 ≤ K) (hK2 : K ≤ 127) (h : LogOK K s) :
    (readTail K s ((s.now_i + 1) % K) val event key ms).1.now_i = (s.now_i + 1) % K ∧
    (readTail K s ((s.now_i + 1) % K) val event key ms).1.now_i ≠ s.now_i ∧
    (readTail K s ((s.now_i + 1) % K) val event key ms).2 = (s.now_i + 1) % K ∧
    (readTail K s ((s.now_i + 1) % K) val event key ms).1.now = (s.now_i + 1) % K ∧
    rd (readTail K s ((s.now_i + 1) % K) val event key ms).1._log ((s.now_i + 1) % K) =
      ⟨val, event, key, ms⟩ ∧
    (∀ j, j ≠ (s.now_i + 1) % K →
      rd (readTail K s ((s.now_i + 1) % K) val event key ms).1._log j = rd s._log j) := by
  obtain ⟨n1, n2⟩ := next_ne K s.now_i hK h.cur
  obtain ⟨a1, a2, a3, a4, _⟩ := readTail_advance K s ((s.now_i + 1) % K) val
    event key ms n1 (by omega) (by omega) h.ptrs
  refine ⟨a2, by rw [a2]; exact n1, a4, a3, ?_, fun j hj => ?_⟩
  · rw [a1, rd_setAt_eq _ _ _ (by rw [h.slots]; exact n2)]
  · rw [a1, rd_setAt_ne _ _ _ _ hj]

/-- C6 (key identification): for a valid calibration with at least three keys
and every reading between the first key's `kmin` and the last key's `kmax`,
exactly one sorted row has the reading in its window, it is the first row in
sorted order whose `kmax` is at least the reading, its key number is the index
in `keyVals` of its value, and the record `read()` returns has event
`AKM_PRESS` and that key number. -/
theorem key_identification (K : Nat) (AKM_ERROR : Option Int) (keyVals : List Nat)
    (releaseState : Int) (tolNum tolDen : Nat) (mem s : AnalogKeyMatrix) (val : Int)
    (millis : Nat) (hd : ValidSetup K keyVals tolNum tolDen mem)
    (hs : Ready K (calibrated keyVals.length keyVals releaseState tolNum tolDen mem) s)
    (hlo : ((rd (buildKeys keyVals.length keyVals releaseState tolNum tolDen mem.keys) 0).kmin
      : Int) ≤ val)
    (hhi : val ≤ ((rd (buildKeys keyVals.length keyVals releaseState tolNum tolDen mem.keys)
      (keyVals.length - 1)).kmax : Int)) :
    ∃ i, i < keyVals.length ∧
      inWindow (buildKeys keyVals.length keyVals releaseState tolNum tolDen mem.keys) i val ∧
      (∀ j, j < keyVals.length →
        inWindow (buildKeys keyVals.length keyVals releaseState tolNum tolDen mem.keys) j val →
        j = i) ∧
      (∀ r, r < i → ¬ val ≤
        ((rd (buildKeys keyVals.length keyVals releaseState tolNum tolDen mem.keys) r).kmax
          : Int)) ∧
      (rd (buildKeys keyVals.length keyVals releaseState tolNum tolDen mem.keys) i).knum <
        keyVals.length ∧
      keyVals.getD
          (rd (buildKeys keyVals.length keyVals releaseState tolNum tolDen mem.keys) i).knum 0 =
        (rd (buildKeys keyVals.length keyVals releaseState tolNum tolDen mem.keys) i).kval ∧
      (rd (read K AKM_ERROR s val millis).1._log (read K AKM_ERROR s val millis).2).event =
        AKM_PRESS ∧
      (rd (read K AKM_ERROR s val millis).1._log (read K AKM_ERROR s val millis).2).key =
        ((rd (buildKeys keyVals.length keyVals releaseState tolNum tolDen mem.keys) i).knum
          : Int) := by
  obtain ⟨t1, t2, t3, t4⟩ := ready_table K keyVals releaseState tolNum tolDen mem s hd hs
  have h3 := hd.calib.three
  have h48 := hd.calib.atMost
  have hmem := hd.calib.mem
  rw [← t1] at hlo hhi ⊢
  have hnr : ¬ inRelease s.keys (keyVals.length - 1) val := by
    unfold inRelease
    omega
  obtain ⟨i, hi, hk, hw, hfirst⟩ := keyLoop_finds keyVals.length s.keys t4 (by omega) val hnr
  obtain ⟨_, ⟨p1, _⟩, _⟩ := sortedKeys_spec keyVals mem.keys (by omega)
  have hkv := (buildKeys_sameKV keyVals releaseState tolNum tolDen mem.keys).2 i
  rw [← t1] at hkv
  obtain ⟨q1, q2⟩ := p1 i hi
  rw [← hkv.1, ← hkv.2] at q2
  rw [← hkv.1] at q1
  refine ⟨i, hi, hw, fun j hj hwj => window_unique keyVals.length s.keys t4 j i hj hi val hwj hw,
    hfirst, q1, q2.symm, ?_⟩
  rw [← t3] at hnr
  rw [← t2] at hk
  by_cases hsame : (rd s._log s.now_i).event = AKM_PRESS ∧
      (rd s._log s.now_i).key = ((rd s.keys i).knum : Int)
  · rw [read_same_key K AKM_ERROR s val millis i hnr hk hsame]
    exact hsame
  · rw [read_press K AKM_ERROR s val millis i hnr hk hsame]
    obtain ⟨a1, a2, a3, a4, a5, a6⟩ := advance_facts K s val AKM_PRESS
      ((rd s.keys i).knum : Int) millis hd.sizeLo hd.sizeHi hs.logOK
    rw [a3, a5]
    exact ⟨rfl, rfl⟩

theorem tabled_of_ready (K : Nat) (keyVals : List Nat) (releaseState : Int)
    (tolNum tolDen : Nat) (mem s : AnalogKeyMatrix) (hd : ValidSetup K keyVals tolNum tolDen mem)
    (hs : Ready K (calibrated keyVals.length keyVals releaseState tolNum tolDen mem) s) :
    Tabled K keyVals.length s := by
  obtain ⟨_, t2, t3, t4⟩ := ready_table K keyVals releaseState tolNum tolDen mem s hd hs
  exact ⟨hs.logOK, t4, t2, t3⟩

theorem tabled_read (K n : Nat) (AKM_ERROR : Option Int) (s : AnalogKeyMatrix) (val : Int)
    (millis : Nat) (hK : 2 ≤ K) (hK2 : K ≤ 127) (h : Tabled K n s) :
    Tabled K n (read K AKM_ERROR s val millis).1 := by
  obtain ⟨a, b, c, d, _⟩ := read_keeps K AKM_ERROR s val millis hK hK2 h.logOK
  exact ⟨a, by rw [b]; exact h.table, c.trans h.numOfKeys, d.trans h.nthKey⟩

/-- A reading in the window of row `i` while the current record is not a press
of that row's key: the cursor moves to the next slot, which gets the press
record stamped with the clock value. -/
theorem press_new (K n : Nat) (AKM_ERROR : Option Int) (s : AnalogKeyMatrix) (val : Int)
    (millis : Nat) (i : Nat) (hK : 2 ≤ K) (hK2 : K ≤ 127) (h : Tabled K n s) (hi : i < n)
    (hw : inWindow s.keys i val)
    (hnot : ¬ ((nowRec s).event = AKM_PRESS ∧ (nowRec s).key = ((rd s.keys i).knum : Int))) :
    (read K AKM_ERROR s val millis).1.now_i = (s.now_i + 1) % K ∧
    (read K AKM_ERROR s val millis).1.now_i ≠ s.now_i ∧
    (read K AKM_ERROR s val millis).2 = (s.now_i + 1) % K ∧
    nowRec (read K AKM_ERROR s val millis).1 =
      ⟨val, AKM_PRESS, ((rd s.keys i).knum : Int), millis⟩ ∧
    (∀ j, j ≠ (s.now_i + 1) % K →
      rd (read K AKM_ERROR s val millis).1._log j = rd s._log j) := by
  obtain ⟨hnr, hk⟩ := keyLoop_of_window n s.keys h.table i hi val hw
  rw [← h.nthKey] at hnr
  rw [← h.numOfKeys] at hk
  unfold nowRec at hnot ⊢
  rw [h.logOK.nowp] at hnot
  rw [read_press K AKM_ERROR s val millis i hnr hk hnot]
  obtain ⟨a1, a2, a3, a4, a5, a6⟩ := advance_facts K s val AKM_PRESS
    ((rd s.keys i).knum : Int) millis hK hK2 h.logOK
  exact ⟨a1, a2, a3, by rw [a4]; exact a5, a6⟩

/-- A reading in the window of row `i` while the current record is a press of
that row's key changes nothing. -/
theorem press_held (K n : Nat) (AKM_ERROR : Option Int) (s : AnalogKeyMatrix) (val : Int)
    (millis : Nat) (i : Nat) (h : Tabled K n s) (hi : i < n) (hw : inWindow s.keys i val)
    (hp : (nowRec s).event = AKM_PRESS ∧ (nowRec s).key = ((rd s.keys i).knum : Int)) :
    read K AKM_ERROR s val millis = (s, s.now_i) := by
  obtain ⟨hnr, hk⟩ := keyLoop_of_window n s.keys h.table i hi val hw
  rw [← h.nthKey] at hnr
  rw [← h.numOfKeys] at hk
  unfold nowRec at hp
  rw [h.logOK.nowp] at hp
  exact read_same_key K AKM_ERROR s val millis i hnr hk hp

/-- Any run of readings in the window of the key that is already pressed leaves
the object as it is. -/
theorem held_run (K n : Nat) (AKM_ERROR : Option Int) (s : AnalogKeyMatrix) (i : Nat)
    (h : Tabled K n s) (hi : i < n)
    (hp : (nowRec s).event = AKM_PRESS ∧ (nowRec s).key = ((rd s.keys i).knum : Int))
    (rest : List (Int × Nat)) (hrest : ∀ p ∈ rest, inWindow s.keys i p.1) :
    runReads K AKM_ERROR s rest = s := by
  induction rest with
  | nil => rfl
  | cons p rest ih =>
    obtain ⟨v, m⟩ := p
    simp only [runReads]
    rw [press_held K n AKM_ERROR s v m i h hi (hrest (v, m) (List.mem_cons_self _ _)) hp]
    exact ih (fun q hq => hrest q (List.mem_cons_of_mem _ hq))

/-- Edge triggering for three or more keys (`ValidSetup`, where the table is
well formed): from a reachable state whose current record is not a
press of the key of row `i`, a run of one or more reads whose readings all lie in
that key's window moves the cursor once, on the first read, to slot
`(now_i + 1) mod K`; the new current record is a press of that key stamped with
the clock value of the first read; and the object after the whole run is the
object after the first read, so the later reads neither move the cursor nor
touch the record. -/
theorem edge_triggering (K : Nat) (AKM_ERROR : Option Int) (keyVals : List Nat)
    (releaseState : Int) (tolNum tolDen : Nat) (mem s : AnalogKeyMatrix)
    (hd : ValidSetup K keyVals tolNum tolDen mem)
    (hs : Reachable K AKM_ERROR
      (calibrated keyVals.length keyVals releaseState tolNum tolDen mem) s)
    (i : Nat) (hi : i < keyVals.length)
    (hnot : ¬ ((nowRec s).event = AKM_PRESS ∧ (nowRec s).key =
      ((rd (buildKeys keyVals.length keyVals releaseState tolNum tolDen mem.keys) i).knum : Int)))
    (v1 : Int) (m1 : Nat) (rest : List (Int × Nat))
    (hw1 : inWindow (buildKeys keyVals.length keyVals releaseState tolNum tolDen mem.keys) i v1)
    (hrest : ∀ p ∈ rest,
      inWindow (buildKeys keyVals.length keyVals releaseState tolNum tolDen mem.keys) i p.1) :
    (read K AKM_ERROR s v1 m1).1.now_i = (s.now_i + 1) % K ∧
    (read K AKM_ERROR s v1 m1).1.now_i ≠ s.now_i ∧
    nowRec (read K AKM_ERROR s v1 m1).1 =
      ⟨v1, AKM_PRESS,
        ((rd (buildKeys keyVals.length keyVals releaseState tolNum tolDen mem.keys) i).knum : Int),
        m1⟩ ∧
    runReads K AKM_ERROR s ((v1, m1) :: rest) = (read K AKM_ERROR s v1 m1).1 := by
  have hr := reachable_ready_valid K AKM_ERROR keyVals releaseState tolNum tolDen mem s hd hs
  have ht := tabled_of_ready K keyVals releaseState tolNum tolDen mem s hd hr
  have hkeys : s.keys = buildKeys keyVals.length keyVals releaseState tolNum tolDen mem.keys :=
    hr.keys
  rw [← hkeys] at hnot hw1 hrest ⊢
  obtain ⟨a1, a2, a3, a4, a5⟩ :=
    press_new K keyVals.length AKM_ERROR s v1 m1 i hd.sizeLo hd.sizeHi ht hi hw1 hnot
  have ht1 := tabled_read K keyVals.length AKM_ERROR s v1 m1 hd.sizeLo hd.sizeHi ht
  have hk1 : (read K AKM_ERROR s v1 m1).1.keys = s.keys :=
    (read_keeps K AKM_ERROR s v1 m1 hd.sizeLo hd.sizeHi ht.logOK).2.1
  refine ⟨a1, a2, a4, ?_⟩
  simp only [runReads]
  apply held_run K keyVals.length AKM_ERROR _ i ht1 hi
  · rw [a4, hk1]
    exact ⟨rfl, rfl⟩
  · rw [hk1]
    exact hrest

/-- A reading in the release region while the current record is a press: the
cursor moves to the next slot, which gets a release record with the key of the
press. -/
theorem release_new (K n : Nat) (AKM_ERROR : Option Int) (s : AnalogKeyMatrix) (val : Int)
    (millis : Nat) (hK : 2 ≤ K) (hK2 : K ≤ 127) (h : Tabled K n s)
    (hr : inRelease s.keys (n - 1) val) (he : ¬ errFires AKM_ERROR val)
    (hp : (nowRec s).event ≥ AKM_PRESS) :
    (read K AKM_ERROR s val millis).1.now_i = (s.now_i + 1) % K ∧
    (read K AKM_ERROR s val millis).1.now_i ≠ s.now_i ∧
    (read K AKM_ERROR s val millis).2 = (s.now_i + 1) % K ∧
    nowRec (read K AKM_ERROR s val millis).1 = ⟨val, AKM_RELEASE, (nowRec s).key, millis⟩ := by
  rw [← h.nthKey] at hr
  unfold nowRec at hp ⊢
  rw [h.logOK.nowp] at hp ⊢
  rw [read_release K AKM_ERROR s val millis hr he hp]
  obtain ⟨a1, a2, a3, a4, a5, _⟩ := advance_facts K s val AKM_RELEASE
    (rd s._log s.now_i).key millis hK hK2 h.logOK
  exact ⟨a1, a2, a3, by rw [a4]; exact a5⟩

/-- A reading in the release region while the current record is a release: the
cursor moves to the next slot, which gets an idle record without key. -/
theorem idle_new (K n : Nat) (AKM_ERROR : Option Int) (s : AnalogKeyMatrix) (val : Int)
    (millis : Nat) (hK : 2 ≤ K) (hK2 : K ≤ 127) (h : Tabled K n s)
    (hr : inRelease s.keys (n - 1) val) (he : ¬ errFires AKM_ERROR val)
    (hp : (nowRec s).event = AKM_RELEASE) :
    (read K AKM_ERROR s val millis).1.now_i = (s.now_i + 1) % K ∧
    (read K AKM_ERROR s val millis).1.now_i ≠ s.now_i ∧
    (read K AKM_ERROR s val millis).2 = (s.now_i + 1) % K ∧
    nowRec (read K AKM_ERROR s val millis).1 = ⟨val, AKM_IDLE, -1, millis⟩ := by
  rw [← h.nthKey] at hr
  unfold nowRec at hp ⊢
  rw [h.logOK.nowp] at hp
  have h1 : ¬ (rd s._log s.now_i).event = AKM_IDLE := by
    rw [hp]; decide
  have h2 : ¬ (rd s._log s.now_i).event ≥ AKM_PRESS := by
    rw [hp]; decide
  rw [read_first_idle K AKM_ERROR s val millis hr he h1 h2]
  obtain ⟨a1, a2, a3, a4, a5, _⟩ := advance_facts K s val AKM_IDLE (-1) millis hK hK2 h.logOK
  exact ⟨a1, a2, a3, by rw [a4]; exact a5⟩

/-- One continuation read: cursor, pointers and every record but the current one
are as before, and the current record keeps event, key and time stamp. -/
theorem continuation_step (K n : Nat) (AKM_ERROR : Option Int) (s : AnalogKeyMatrix)
    (val : Int) (millis : Nat) (h : Tabled K n s)
    (hc : Continues n AKM_ERROR s.keys (nowRec s) val) :
    (read K AKM_ERROR s val millis).1.keys = s.keys ∧
    (read K AKM_ERROR s val millis).1.numOfKeys = s.numOfKeys ∧
    (read K AKM_ERROR s val millis).1.nthKey = s.nthKey ∧
    (read K AKM_ERROR s val millis).1._log.length = s._log.length ∧
    (read K AKM_ERROR s val millis).1.now_i = s.now_i ∧
    (read K AKM_ERROR s val millis).1.now = s.now ∧
    (read K AKM_ERROR s val millis).1.prev = s.prev ∧
    (read K AKM_ERROR s val millis).1.log = s.log ∧
    (∀ j, j ≠ s.now_i → rd (read K AKM_ERROR s val millis).1._log j = rd s._log j) ∧
    (nowRec (read K AKM_ERROR s val millis).1).event = (nowRec s).event ∧
    (nowRec (read K AKM_ERROR s val millis).1).key = (nowRec s).key ∧
    (nowRec (read K AKM_ERROR s val millis).1).ms = (nowRec s).ms := by
  rcases hc with ⟨hp, i, hi, hk, hw⟩ | ⟨hidle, hr, he⟩
  · rw [press_held K n AKM_ERROR s val millis i h hi hw ⟨hp, hk.symm⟩]
    exact ⟨rfl, rfl, rfl, rfl, rfl, rfl, rfl, rfl, fun _ _ => rfl, rfl, rfl, rfl⟩
  · rw [← h.nthKey] at hr
    unfold nowRec at hidle ⊢
    rw [h.logOK.nowp] at hidle
    rw [read_idle_continues K AKM_ERROR s val millis hr he hidle]
    have hcur : s.now_i < s._log.length := by rw [h.logOK.slots]; exact h.logOK.cur
    refine ⟨rfl, rfl, rfl, length_setAt _ _ _, rfl, rfl, rfl, rfl,
      fun j hj => rd_setAt_ne _ _ _ _ hj, ?_, ?_, ?_⟩
    · show (rd (setAt s._log s.now_i _) s.now).event = (rd s._log s.now).event
      rw [h.logOK.nowp, rd_setAt_eq _ _ _ hcur]
    · show (rd (setAt s._log s.now_i _) s.now).key = (rd s._log s.now).key
      rw [h.logOK.nowp, rd_setAt_eq _ _ _ hcur]
    · show (rd (setAt s._log s.now_i _) s.now).ms = (rd s._log s.now).ms
      rw [h.logOK.nowp, rd_setAt_eq _ _ _ hcur]

/-- Continuation idempotence for three or more keys (`ValidSetup`, where the
table is well formed): from a reachable state, when the current
record is a press of key `k` and the reading lies in key `k`'s window, or the
current record is idle and the reading lies in the release region, any number of
reads of that same reading leaves the cursor `now_i`, the pointers `now`, `prev`
and `log[0..K-1]`, and every record but the current one unchanged, and leaves
the event, key and time stamp of the current record unchanged. -/
theorem continuation_idempotence (K : Nat) (AKM_ERROR : Option Int) (keyVals : List Nat)
    (releaseState : Int) (tolNum tolDen : Nat) (mem s : AnalogKeyMatrix)
    (hd : ValidSetup K keyVals tolNum tolDen mem)
    (hs : Reachable K AKM_ERROR
      (calibrated keyVals.length keyVals releaseState tolNum tolDen mem) s)
    (val : Int)
    (hc : Continues keyVals.length AKM_ERROR
      (buildKeys keyVals.length keyVals releaseState tolNum tolDen mem.keys) (nowRec s) val)
    (clocks : List Nat) :
    (runReads K AKM_ERROR s (clocks.map (fun m => (val, m)))).now_i = s.now_i ∧
    (runReads K AKM_ERROR s (clocks.map (fun m => (val, m)))).now = s.now ∧
    (runReads K AKM_ERROR s (clocks.map (fun m => (val, m)))).prev = s.prev ∧
    (runReads K AKM_ERROR s (clocks.map (fun m => (val, m)))).log = s.log ∧
    (∀ j, j ≠ s.now_i →
      rd (runReads K AKM_ERROR s (clocks.map (fun m => (val, m))))._log j = rd s._log j) ∧
    (nowRec (runReads K AKM_ERROR s (clocks.map (fun m => (val, m))))).event =
      (nowRec s).event ∧
    (nowRec (runReads K AKM_ERROR s (clocks.map (fun m => (val, m))))).key = (nowRec s).key ∧
    (nowRec (runReads K AKM_ERROR s (clocks.map (fun m => (val, m))))).ms = (nowRec s).ms := by
  have hr := reachable_ready_valid K AKM_ERROR keyVals releaseState tolNum tolDen mem s hd hs
  have ht := tabled_of_ready K keyVals releaseState tolNum tolDen mem s hd hr
  have hkeys : s.keys = buildKeys keyVals.length keyVals releaseState tolNum tolDen mem.keys :=
    hr.keys
  rw [← hkeys] at hc
  clear hr hs hkeys
  induction clocks generalizing s with
  | nil => exact ⟨rfl, rfl, rfl, rfl, fun _ _ => rfl, rfl, rfl, rfl⟩
  | cons m clocks ih =>
    obtain ⟨c1, c2, c3, c4, c5, c6, c7, c8, c9, c10, c11, c12⟩ :=
      continuation_step K keyVals.length AKM_ERROR s val m ht hc
    have ht1 := tabled_read K keyVals.length AKM_ERROR s val m hd.sizeLo hd.sizeHi ht
    have hc1 : Continues keyVals.length AKM_ERROR (read K AKM_ERROR s val m).1.keys
        (nowRec (read K AKM_ERROR s val m).1) val := by
      unfold Continues at hc ⊢
      rw [c1, c10, c11]
      exact hc
    obtain ⟨d1, d2, d3, d4, d5, d6, d7, d8⟩ := ih (read K AKM_ERROR s val m).1 hc1 ht1
    simp only [List.map_cons, runReads]
    refine ⟨d1.trans c5, d2.trans c6, d3.trans c7, d4.trans c8, fun j hj => ?_, d6.trans c10,
      d7.trans c11, d8.trans c12⟩
    rw [d5 j (by rw [c5]; exact hj), c9 j hj]

theorem runReads_append (K : Nat) (AKM_ERROR : Option Int) (xs ys : List (Int × Nat)) :
    ∀ t : AnalogKeyMatrix, runReads K AKM_ERROR t (xs ++ ys) =
      runReads K AKM_ERROR (runReads K AKM_ERROR t xs) ys := by
  induction xs with
  | nil => intro t; rfl
  | cons x xs ih =>
    intro t
    obtain ⟨v, m⟩ := x
    show runReads K AKM_ERROR (read K AKM_ERROR t v m).1 (xs ++ ys) = _
    exact ih _

/-- C1 (press, release, idle): for a valid calibration with at least three keys
and every state whose current record is idle, a reading in the window of the key
of row `i` (followed by any number of further readings in that window) and then
two readings in the release region produce, each in a new slot, a press record
with that key, a release record with that key, and an idle record with key
`-1`, each holding its reading and stamped with the clock value of its read. -/
theorem press_release_idle (K : Nat) (AKM_ERROR : Option Int) (keyVals : List Nat)
    (releaseState : Int) (tolNum tolDen : Nat) (mem s : AnalogKeyMatrix)
    (hd : ValidSetup K keyVals tolNum tolDen mem)
    (hs : Ready K (calibrated keyVals.length keyVals releaseState tolNum tolDen mem) s)
    (hidle : (nowRec s).event = AKM_IDLE)
    (i : Nat) (hi : i < keyVals.length) (v1 : Int) (m1 : Nat) (held : List (Int × Nat))
    (r1 : Int) (m2 : Nat) (r2 : Int) (m3 : Nat)
    (hw1 : inWindow (buildKeys keyVals.length keyVals releaseState tolNum tolDen mem.keys) i v1)
    (hheld : ∀ p ∈ held,
      inWindow (buildKeys keyVals.length keyVals releaseState tolNum tolDen mem.keys) i p.1)
    (hr1 : inRelease (buildKeys keyVals.length keyVals releaseState tolNum tolDen mem.keys)
      (keyVals.length - 1) r1)
    (he1 : ¬ errFires AKM_ERROR r1)
    (hr2 : inRelease (buildKeys keyVals.length keyVals releaseState tolNum tolDen mem.keys)
      (keyVals.length - 1) r2)
    (he2 : ¬ errFires AKM_ERROR r2) :
    nowRec (runReads K AKM_ERROR s ((v1, m1) :: held)) =
      ⟨v1, AKM_PRESS,
        ((rd (buildKeys keyVals.length keyVals releaseState tolNum tolDen mem.keys) i).knum : Int),
        m1⟩ ∧
    (runReads K AKM_ERROR s ((v1, m1) :: held)).now_i = (s.now_i + 1) % K ∧
    nowRec (runReads K AKM_ERROR s ((v1, m1) :: held ++ [(r1, m2)])) =
      ⟨r1, AKM_RELEASE,
        ((rd (buildKeys keyVals.length keyVals releaseState tolNum tolDen mem.keys) i).knum : Int),
        m2⟩ ∧
    (runReads K AKM_ERROR s ((v1, m1) :: held ++ [(r1, m2)])).now_i =
      ((runReads K AKM_ERROR s ((v1, m1) :: held)).now_i + 1) % K ∧
    nowRec (runReads K AKM_ERROR s ((v1, m1) :: held ++ [(r1, m2), (r2, m3)])) =
      ⟨r2, AKM_IDLE, -1, m3⟩ ∧
    (runReads K AKM_ERROR s ((v1, m1) :: held ++ [(r1, m2), (r2, m3)])).now_i =
      ((runReads K AKM_ERROR s ((v1, m1) :: held ++ [(r1, m2)])).now_i + 1) % K := by
  have ht := tabled_of_ready K keyVals releaseState tolNum tolDen mem s hd hs
  have hkeys : s.keys = buildKeys keyVals.length keyVals releaseState tolNum tolDen mem.keys :=
    hs.keys
  rw [← hkeys] at hw1 hheld hr1 hr2 ⊢
  have hnot : ¬ ((nowRec s).event = AKM_PRESS ∧ (nowRec s).key = ((rd s.keys i).knum : Int)) := by
    rw [hidle]
    intro h
    exact absurd h.1 (by decide)
  obtain ⟨a1, a2, a3, a4, a5⟩ :=
    press_new K keyVals.length AKM_ERROR s v1 m1 i hd.sizeLo hd.sizeHi ht hi hw1 hnot
  have ht1 := tabled_read K keyVals.length AKM_ERROR s v1 m1 hd.sizeLo hd.sizeHi ht
  have hk1 : (read K AKM_ERROR s v1 m1).1.keys = s.keys :=
    (read_keeps K AKM_ERROR s v1 m1 hd.sizeLo hd.sizeHi ht.logOK).2.1
  have hrun : ∀ tail, runReads K AKM_ERROR s ((v1, m1) :: held ++ tail) =
      runReads K AKM_ERROR (read K AKM_ERROR s v1 m1).1 tail := by
    intro tail
    show runReads K AKM_ERROR (read K AKM_ERROR s v1 m1).1 (held ++ tail) = _
    rw [runReads_append, held_run K keyVals.length AKM_ERROR _ i ht1 hi (by rw [a4, hk1]; exact ⟨rfl, rfl⟩)
      held (by rw [hk1]; exact hheld)]
  have e0 : runReads K AKM_ERROR s ((v1, m1) :: held) = (read K AKM_ERROR s v1 m1).1 := by
    have := hrun []
    rw [List.append_nil] at this
    exact this
  have e1 : runReads K AKM_ERROR s ((v1, m1) :: held ++ [(r1, m2)]) =
      (read K AKM_ERROR (read K AKM_ERROR s v1 m1).1 r1 m2).1 := hrun [(r1, m2)]
  have e2 : runReads K AKM_ERROR s ((v1, m1) :: held ++ [(r1, m2), (r2, m3)]) =
      (read K AKM_ERROR (read K AKM_ERROR (read K AKM_ERROR s v1 m1).1 r1 m2).1 r2 m3).1 :=
    hrun [(r1, m2), (r2, m3)]
  rw [e0, e1, e2]
  have hp1 : (nowRec (read K AKM_ERROR s v1 m1).1).event ≥ AKM_PRESS := by
    rw [a4]
  obtain ⟨b1, b2, b3, b4⟩ := release_new K keyVals.length AKM_ERROR _ r1 m2 hd.sizeLo hd.sizeHi
    ht1 (by rw [hk1]; exact hr1) he1 hp1
  have ht2 := tabled_read K keyVals.length AKM_ERROR _ r1 m2 hd.sizeLo hd.sizeHi ht1
  have hk2 : (read K AKM_ERROR (read K AKM_ERROR s v1 m1).1 r1 m2).1.keys = s.keys :=
    ((read_keeps K AKM_ERROR _ r1 m2 hd.sizeLo hd.sizeHi ht1.logOK).2.1).trans hk1
  have hp2 : (nowRec (read K AKM_ERROR (read K AKM_ERROR s v1 m1).1 r1 m2).1).event =
      AKM_RELEASE := by
    rw [b4]
  obtain ⟨c1, c2, c3, c4⟩ := idle_new K keyVals.length AKM_ERROR _ r2 m3 hd.sizeLo hd.sizeHi
    ht2 (by rw [hk2]; exact hr2) he2 hp2
  refine ⟨a4, a1, ?_, b1, c4, c1⟩
  rw [b4, a4]

theorem demo_valid : ValidSetup 6 demoKeyVals 1 10 (zeroMem 48 6) :=
  ⟨⟨by decide, by decide, by decide, by decide, by decide, by decide, by decide⟩,
    by decide, by decide, by decide, by decide⟩

theorem demo_reachable : Reachable 6 none demoObj demoState := Reachable.reset 0 7 0 8

theorem demoPolled_reachable : Reachable 6 none demoObj demoPolled :=
  Reachable.read demoState 0 10 demo_reachable

theorem demoPressed_reachable : Reachable 6 none demoObj demoPressed :=
  Reachable.read demoPolled 500 11 demoPolled_reachable

theorem demoPolled_ready : Ready 6 demoObj demoPolled :=
  reachable_ready_valid 6 none demoKeyVals (-1) 1 10 (zeroMem 48 6) demoPolled demo_valid
    demoPolled_reachable

/-- C1 on the scenario of the specification: key values 200, 500, 900, tolerance
1/10, automatic polarity, seed reading 0 and the polls 0, 500, 500, 0, 0. -/
theorem press_release_idle_witness :
    ((nowRec demoPolled).event = AKM_IDLE ∧ (nowRec demoPolled).key = -1 ∧
      inWindow demoObj.keys 1 500 ∧ inRelease demoObj.keys 2 0) ∧
    (nowRec (runReads 6 none demoPolled [(500, 11), (500, 12)]) = ⟨500, AKM_PRESS, 1, 11⟩ ∧
    (runReads 6 none demoPolled [(500, 11), (500, 12)]).now_i = (demoPolled.now_i + 1) % 6 ∧
    nowRec (runReads 6 none demoPolled [(500, 11), (500, 12), (0, 13)]) =
      ⟨0, AKM_RELEASE, 1, 13⟩ ∧
    (runReads 6 none demoPolled [(500, 11), (500, 12), (0, 13)]).now_i =
      ((runReads 6 none demoPolled [(500, 11), (500, 12)]).now_i + 1) % 6 ∧
    nowRec (runReads 6 none demoPolled [(500, 11), (500, 12), (0, 13), (0, 14)]) =
      ⟨0, AKM_IDLE, -1, 14⟩ ∧
    (runReads 6 none demoPolled [(500, 11), (500, 12), (0, 13), (0, 14)]).now_i =
      ((runReads 6 none demoPolled [(500, 11), (500, 12), (0, 13)]).now_i + 1) % 6) :=
  ⟨by decide,
    press_release_idle 6 none demoKeyVals (-1) 1 10 (zeroMem 48 6) demoPolled demo_valid
      demoPolled_ready (by decide) 1 (by decide) 500 11 [(500, 12)] 0 13 0 14 (by decide)
      (by decide) (by decide) (by decide) (by decide) (by decide)⟩

/-- C6 on the scenario: the reading 510 while idle is identified as key 1. -/
theorem key_identification_witness :
    (((rd (buildKeys demoKeyVals.length demoKeyVals (-1) 1 10 (zeroMem 48 6).keys) 0).kmin : Int)
        ≤ 510 ∧
      (510 : Int) ≤ ((rd (buildKeys demoKeyVals.length demoKeyVals (-1) 1 10 (zeroMem 48 6).keys)
        (demoKeyVals.length - 1)).kmax : Int)) ∧
    ∃ i, i < demoKeyVals.length ∧
      inWindow (buildKeys demoKeyVals.length demoKeyVals (-1) 1 10 (zeroMem 48 6).keys) i 510 ∧
      (∀ j, j < demoKeyVals.length →
        inWindow (buildKeys demoKeyVals.length demoKeyVals (-1) 1 10 (zeroMem 48 6).keys) j 510 →
        j = i) ∧
      (∀ r, r < i → ¬ (510 : Int) ≤
        ((rd (buildKeys demoKeyVals.length demoKeyVals (-1) 1 10 (zeroMem 48 6).keys) r).kmax
          : Int)) ∧
      (rd (buildKeys demoKeyVals.length demoKeyVals (-1) 1 10 (zeroMem 48 6).keys) i).knum <
        demoKeyVals.length ∧
      demoKeyVals.getD
          (rd (buildKeys demoKeyVals.length demoKeyVals (-1) 1 10 (zeroMem 48 6).keys) i).knum 0 =
        (rd (buildKeys demoKeyVals.length demoKeyVals (-1) 1 10 (zeroMem 48 6).keys) i).kval ∧
      (rd (read 6 none demoPolled 510 11).1._log (read 6 none demoPolled 510 11).2).event =
        AKM_PRESS ∧
      (rd (read 6 none demoPolled 510 11).1._log (read 6 none demoPolled 510 11).2).key =
        ((rd (buildKeys demoKeyVals.length demoKeyVals (-1) 1 10 (zeroMem 48 6).keys) i).knum
          : Int) :=
  ⟨by decide,
    key_identification 6 none demoKeyVals (-1) 1 10 (zeroMem 48 6) demoPolled 510 11 demo_valid
      demoPolled_ready (by decide) (by decide)⟩

/-- Edge triggering on the scenario: three polls of key 1 from the idle state
record one press, at the first poll. -/
theorem edge_triggering_witness :
    (1 < demoKeyVals.length ∧
      ¬ ((nowRec demoPolled).event = AKM_PRESS ∧ (nowRec demoPolled).key = 1) ∧
      inWindow demoObj.keys 1 500 ∧ inWindow demoObj.keys 1 510 ∧ inWindow demoObj.keys 1 490) ∧
    ((read 6 none demoPolled 500 11).1.now_i = (demoPolled.now_i + 1) % 6 ∧
    (read 6 none demoPolled 500 11).1.now_i ≠ demoPolled.now_i ∧
    nowRec (read 6 none demoPolled 500 11).1 = ⟨500, AKM_PRESS, 1, 11⟩ ∧
    runReads 6 none demoPolled [(500, 11), (510, 12), (490, 13)] =
      (read 6 none demoPolled 500 11).1) :=
  ⟨by decide,
    edge_triggering 6 none demoKeyVals (-1) 1 10 (zeroMem 48 6) demoPolled demo_valid
      demoPolled_reachable 1 (by decide) (by decide) 500 11 [(510, 12), (490, 13)] (by decide)
      (by decide)⟩

/-- Continuation on the scenario: three more polls of the reading 505 while key
1 is pressed. -/
theorem continuation_idempotence_witness :
    Continues demoKeyVals.length none demoObj.keys (nowRec demoPressed) 505 ∧
    ((runReads 6 none demoPressed ([12, 13, 14].map (fun m => ((505 : Int), m)))).now_i =
      demoPressed.now_i ∧
    (runReads 6 none demoPressed ([12, 13, 14].map (fun m => ((505 : Int), m)))).now =
      demoPressed.now ∧
    (runReads 6 none demoPressed ([12, 13, 14].map (fun m => ((505 : Int), m)))).prev =
      demoPressed.prev ∧
    (runReads 6 none demoPressed ([12, 13, 14].map (fun m => ((505 : Int), m)))).log =
      demoPressed.log ∧
    (∀ j, j ≠ demoPressed.now_i →
      rd (runReads 6 none demoPressed ([12, 13, 14].map (fun m => ((505 : Int), m))))._log j =
        rd demoPressed._log j) ∧
    (nowRec (runReads 6 none demoPressed ([12, 13, 14].map (fun m => ((505 : Int), m))))).event =
      (nowRec demoPressed).event ∧
    (nowRec (runReads 6 none demoPressed ([12, 13, 14].map (fun m => ((505 : Int), m))))).key =
      (nowRec demoPressed).key ∧
    (nowRec (runReads 6 none demoPressed ([12, 13, 14].map (fun m => ((505 : Int), m))))).ms =
      (nowRec demoPressed).ms) :=
  ⟨Or.inl ⟨by decide, 1, by decide, by decide, by decide⟩,
    continuation_idempotence 6 none demoKeyVals (-1) 1 10 (zeroMem 48 6) demoPressed demo_valid
      demoPressed_reachable 505 (Or.inl ⟨by decide, 1, by decide, by decide, by decide⟩)
      [12, 13, 14]⟩

/-- C5 fails on the same-key continuation: while key 1 is pressed with the
recorded reading 500, a poll of the reading 510 (in the same window) returns
the current record with `val` still 500, because lines 309-315 return
`last_call` without the write `last_call->val = val` that the idle
continuation (line 280) does. -/
theorem val_not_updated_while_held :
    (nowRec demoPressed) = ⟨500, AKM_PRESS, 1, 11⟩ ∧
    inWindow demoObj.keys 1 510 ∧
    rd (read 6 none demoPressed 510 12).1._log (read 6 none demoPressed 510 12).2 =
      ⟨500, AKM_PRESS, 1, 11⟩ ∧
    (rd (read 6 none demoPressed 510 12).1._log (read 6 none demoPressed 510 12).2).val ≠ 510 := by
  decide

theorem back_one (K i : Nat) (hK : 2 ≤ K) (hi : i < K) : back K ((i + 1) % K) 1 = i := by
  rw [succ_mod K i hi]
  unfold back
  split_ifs <;> omega

/-- After an advance `log[0]` is `now`, `log[1]` is `prev`, and both are the
slot that was current before. -/
theorem advance_ptrs (K : Nat) (s : AnalogKeyMatrix) (val event key : Int) (ms : Nat)
    (hK : 2 ≤ K) (hK2 : K ≤ 127) (h : LogOK K s) :
    rd (readTail K s ((s.now_i + 1) % K) val event key ms).1.log 0 =
      (readTail K s ((s.now_i + 1) % K) val event key ms).1.now ∧
    rd (readTail K s ((s.now_i + 1) % K) val event key ms).1.log 1 =
      (readTail K s ((s.now_i + 1) % K) val event key ms).1.prev ∧
    (readTail K s ((s.now_i + 1) % K) val event key ms).1.prev = s.now_i := by
  obtain ⟨n1, n2⟩ := next_ne K s.now_i hK h.cur
  obtain ⟨_, _, a3, _, _, _, _, _, a9, a10⟩ := readTail_advance K s ((s.now_i + 1) % K) val
    event key ms n1 (by omega) (by omega) h.ptrs
  have e : nAgoIdx K ((s.now_i + 1) % K) 1 = (s.now_i : Int) := by
    rw [nAgoIdx_back K _ 1 hK2 n2 (by omega), back_one K s.now_i hK h.cur]
  refine ⟨by rw [a9 0, if_pos rfl, a3], ?_, ?_⟩
  · rw [a9 1, if_neg (by omega), if_pos (by omega), a10, if_pos (by omega)]
  · rw [a10, if_pos (by omega), e]

/-- C9, the claim as stated fails: in the scenario right after `resetStates()`
(seed reading 0 in the release region, `K = 6`) `log[1]` designates slot 1 and
`prev` designates slot 5. -/
theorem log1_not_prev_after_reset :
    Reachable 6 none demoObj demoState ∧
    rd demoState.log 1 = 1 ∧ demoState.prev = 5 ∧ rd demoState.log 1 ≠ demoState.prev :=
  ⟨Reachable.reset 0 7 0 8, by decide, by decide, by decide⟩

theorem getD_cons_tail (r : AKM_State) (h : List AKM_State) (sd : AKM_State) (hne : h ≠ [])
    (n : Nat) (hn : 1 ≤ n) : (r :: h.tail).getD n sd = h.getD n sd := by
  cases h with
  | nil => exact absurd rfl hne
  | cons a t =>
    cases n with
    | zero => omega
    | succ m => simp

theorem histInv_write (K : Nat) (s : AnalogKeyMatrix) (h : List AKM_State) (sd r : AKM_State)
    (hi : HistInv K s h sd) :
    HistInv K { s with _log := setAt s._log s.now_i r } (r :: h.tail) sd := by
  have hl := hi.logOK
  refine ⟨⟨by simp only [length_setAt]; exact hl.slots, hl.ptrs, hl.cur, hl.nowp⟩,
    by simp, fun n hn => ?_, ?_⟩
  · show rd (setAt s._log s.now_i r) (back K s.now_i n) = _
    by_cases e : n = 0
    · subst e
      have : back K s.now_i 0 = s.now_i := by unfold back; simp
      rw [this, rd_setAt_eq _ _ _ (by rw [hl.slots]; exact hl.cur)]
      rfl
    · have hne : back K s.now_i n ≠ s.now_i := by
        have := hl.cur
        unfold back
        split_ifs <;> omega
      rw [rd_setAt_ne _ _ _ _ hne, getD_cons_tail r h sd hi.nonempty n (by omega)]
      exact hi.slots n hn
  · rcases hi.ptrs with p | ⟨p1, p2, p3⟩
    · exact Or.inl p
    · refine Or.inr ⟨?_, p2, p3⟩
      cases h with
      | nil => exact absurd rfl hi.nonempty
      | cons a t =>
        simp only [List.length_cons] at p1
        simp only [List.tail_cons, List.length_cons]
        omega

theorem nowRec_write (K : Nat) (s : AnalogKeyMatrix) (r : AKM_State) (hl : LogOK K s) :
    nowRec { s with _log := setAt s._log s.now_i r } = r := by
  show rd (setAt s._log s.now_i r) s.now = r
  rw [hl.nowp, rd_setAt_eq _ _ _ (by rw [hl.slots]; exact hl.cur)]

theorem back_succ (K i n : Nat) (hK : 2 ≤ K) (hi : i < K) (hn1 : 1 ≤ n) (hn : n < K) :
    back K ((i + 1) % K) n = back K i (n - 1) ∧ back K i (n - 1) ≠ (i + 1) % K := by
  rw [succ_mod K i hi]
  unfold back
  split_ifs <;> omega

theorem histInv_read (K : Nat) (AKM_ERROR : Option Int) (s : AnalogKeyMatrix)
    (h : List AKM_State) (sd : AKM_State) (val : Int) (millis : Nat)
    (hK : 2 ≤ K) (hK2 : K ≤ 127) (hi : HistInv K s h sd) :
    HistInv K (read K AKM_ERROR s val millis).1
      (histStep s (read K AKM_ERROR s val millis).1 h) sd := by
  have hl := hi.logOK
  have hhead : nowRec s :: h.tail = h := by
    have h0 := hi.slots 0 (by omega)
    have e : back K s.now_i 0 = s.now_i := by unfold back; simp
    rw [e] at h0
    unfold nowRec
    rw [hl.nowp, h0]
    cases h with
    | nil => exact absurd rfl hi.nonempty
    | cons a t => simp
  have hwrite : ∀ r, HistInv K { s with _log := setAt s._log s.now_i r }
      (histStep s { s with _log := setAt s._log s.now_i r } h) sd := by
    intro r
    have e : histStep s { s with _log := setAt s._log s.now_i r } h = r :: h.tail := by
      unfold histStep
      rw [if_neg (fun hne => hne rfl), nowRec_write K s r hl]
    rw [e]
    exact histInv_write K s h sd r hi
  rcases read_shape K AKM_ERROR s val millis with ⟨r, e⟩ | ⟨r, e⟩ | e | ⟨ev, key, e⟩
  · rw [e]; exact hwrite r
  · rw [e]; exact hwrite r
  · rw [e]
    have e2 : histStep s s h = h := by
      unfold histStep
      rw [if_neg (fun hne => hne rfl)]
      exact hhead
    show HistInv K s (histStep s s h) sd
    rw [e2]
    exact hi
  · rw [e]
    obtain ⟨n1, n2⟩ := next_ne K s.now_i hK hl.cur
    obtain ⟨a1, a2, a3, a4, a5, a6, a7, a8, a9, a10⟩ := readTail_advance K s
      ((s.now_i + 1) % K) val ev key millis n1 (by omega) (by omega) hl.ptrs
    obtain ⟨b1, b2, b3, b4, b5, b6⟩ := advance_facts K s val ev key millis hK hK2 hl
    have hk := read_keeps K AKM_ERROR s val millis hK hK2 hl
    rw [e] at hk
    have e2 : histStep s (readTail K s ((s.now_i + 1) % K) val ev key millis).1 h =
        ⟨val, ev, key, millis⟩ :: h := by
      unfold histStep nowRec
      rw [if_pos b2, b4, b5]
    rw [e2]
    refine ⟨hk.1, by simp, fun n hn => ?_, Or.inl (fun n hn => ?_)⟩
    · rw [a2]
      by_cases c : n = 0
      · subst c
        have : back K ((s.now_i + 1) % K) 0 = (s.now_i + 1) % K := by unfold back; simp
        rw [this, b5]
        rfl
      · obtain ⟨c1, c2⟩ := back_succ K s.now_i n hK hl.cur (by omega) hn
        rw [c1, b6 _ c2, hi.slots (n - 1) (by omega)]
        obtain ⟨m, rfl⟩ : ∃ m, n = m + 1 := ⟨n - 1, by omega⟩
        simp
    · rw [a9 n, a2]
      by_cases c : n = 0
      · subst c
        rw [if_pos rfl]
        unfold back
        simp
      · rw [if_neg c, if_pos hn, nAgoIdx_back K _ n hK2 n2 hn]

theorem histInv_resetCore (K : Nat) (s : AnalogKeyMatrix) (val : Int) (ms : Nat)
    (hK : 2 ≤ K) (hK2 : K ≤ 127) (h1 : s._log.length = K) (h2 : s.log.length = K) :
    HistInv K (resetCore K s val ms) [⟨val, AKM_IDLE, -1, ms⟩] ⟨val, AKM_IDLE, -1, ms⟩ := by
  obtain ⟨a, _, _, _, a5, a6, a7, a8⟩ := resetCore_spec K s val ms (by omega) (by omega) h1 h2
  refine ⟨a, by simp, fun n hn => ?_, Or.inr ⟨rfl, a5, a8⟩⟩
  have hb : back K (resetCore K s val ms).now_i n < K := by
    rw [a5]
    unfold back
    split_ifs <;> omega
  rw [a7 _ hb]
  cases n with
  | zero => rfl
  | succ m => simp

theorem traced_histInv (K : Nat) (AKM_ERROR : Option Int) (mem s : AnalogKeyMatrix)
    (h : List AKM_State) (sd : AKM_State)
    (hK : 2 ≤ K) (hK2 : K ≤ 127) (h1 : mem._log.length = K) (h2 : mem.log.length = K)
    (ht : Traced K AKM_ERROR mem s h sd) : HistInv K s h sd := by
  induction ht with
  | seed val ms => exact histInv_resetCore K mem val ms hK hK2 h1 h2
  | read s h sd val ms _ ih => exact histInv_read K AKM_ERROR s h sd val ms hK hK2 ih
  | reseed s h sd val ms _ ih =>
    exact histInv_resetCore K s val ms hK hK2 ih.logOK.slots ih.logOK.ptrs

/-- Every reachable state is a traced state. -/
theorem reachable_traced (K : Nat) (AKM_ERROR : Option Int) (mem s : AnalogKeyMatrix)
    (hs : Reachable K AKM_ERROR mem s) : ∃ h sd, Traced K AKM_ERROR mem s h sd := by
  induction hs with
  | reset val ms val2 ms2 =>
    rw [resetStates_eq]
    by_cases c : inRelease (resetCore K mem val ms).keys (resetCore K mem val ms).nthKey val
    · rw [if_neg (not_not_intro c)]
      exact ⟨_, _, Traced.seed val ms⟩
    · rw [if_pos c]
      exact ⟨_, _, Traced.read _ _ _ val2 ms2 (Traced.seed val ms)⟩
  | read s val ms _ ih =>
    obtain ⟨h, sd, ht⟩ := ih
    exact ⟨_, _, Traced.read s h sd val ms ht⟩
  | again s val ms val2 ms2 _ ih =>
    obtain ⟨h, sd, ht⟩ := ih
    rw [resetStates_eq]
    by_cases c : inRelease (resetCore K s val ms).keys (resetCore K s val ms).nthKey val
    · rw [if_neg (not_not_intro c)]
      exact ⟨_, _, Traced.reseed s h sd val ms ht⟩
    · rw [if_pos c]
      exact ⟨_, _, Traced.read _ _ _ val2 ms2 (Traced.reseed s h sd val ms ht)⟩

/-- History order for a log of at most 127 slots: in every state reached from a
reset by reads (`2 ≤ K ≤ 127`, where `int8_t nAgoIdx` holds every slot index),
with `h` the history of the records that were current since the reset, most
recent first, and `sd` the seed record of the reset: the history
starts with the current record, and for every `n < K` the record `log[n]`
designates is the `n`-th record of the history, the one that was current `n`
advances ago with the contents it had last, and is the seed record when fewer
than `n` advances happened. -/
theorem history_order (K : Nat) (AKM_ERROR : Option Int) (mem s : AnalogKeyMatrix)
    (h : List AKM_State) (sd : AKM_State)
    (hK : 2 ≤ K) (hK2 : K ≤ 127) (h1 : mem._log.length = K) (h2 : mem.log.length = K)
    (ht : Traced K AKM_ERROR mem s h sd) :
    h.head? = some (nowRec s) ∧
    ∀ n, n < K → logRec s n = if n < h.length then h.getD n sd else sd := by
  have hi := traced_histInv K AKM_ERROR mem s h sd hK hK2 h1 h2 ht
  have hl := hi.logOK
  have hget : ∀ n, h.getD n sd = if n < h.length then h.getD n sd else sd := by
    intro n
    split_ifs with c
    · rfl
    · simp [List.getD_eq_getElem?_getD, List.getElem?_eq_none (by omega : h.length ≤ n)]
  constructor
  · have h0 := hi.slots 0 (by omega)
    have e : back K s.now_i 0 = s.now_i := by unfold back; simp
    rw [e] at h0
    unfold nowRec
    rw [hl.nowp, h0]
    cases h with
    | nil => exact absurd rfl hi.nonempty
    | cons a t => simp
  · intro n hn
    rw [← hget n]
    unfold logRec
    rcases hi.ptrs with p | ⟨p1, p2, p3⟩
    · rw [p n hn, rdAt_natCast]
      exact hi.slots n hn
    · rw [p3 n hn, rdAt_natCast]
      by_cases c : n = 0
      · subst c
        have := hi.slots 0 (by omega)
        rw [p2] at this
        have e : back K 0 0 = 0 := by unfold back; simp
        rw [e] at this
        exact this
      · have := hi.slots (K - n) (by omega)
        rw [p2] at this
        have e : back K 0 (K - n) = n := by
          unfold back
          split_ifs <;> omega
        rw [e] at this
        rw [this, hget (K - n), hget n, if_neg (by omega), if_neg (by omega)]

/-- History order on the scenario: after the seeding and the polls 500 and 0 the
history is release, press, seed, and `log[0..5]` designates these records and then the
seed. -/
theorem history_order_witness :
    ((2 ≤ 6 ∧ 6 ≤ 127) ∧ demoObj._log.length = 6 ∧ demoObj.log.length = 6 ∧
      demoHist = [⟨0, AKM_RELEASE, 1, 13⟩, ⟨500, AKM_PRESS, 1, 11⟩, ⟨0, AKM_IDLE, -1, 7⟩]) ∧
    (demoHist.head? = some (nowRec (read 6 none (read 6 none demoSeeded 500 11).1 0 13).1) ∧
    ∀ n, n < 6 → logRec (read 6 none (read 6 none demoSeeded 500 11).1 0 13).1 n =
      if n < demoHist.length then demoHist.getD n ⟨0, AKM_IDLE, -1, 7⟩
      else ⟨0, AKM_IDLE, -1, 7⟩) :=
  ⟨by decide,
    history_order 6 none demoObj _ _ _ (by decide) (by decide) (by decide) (by decide)
      (Traced.read _ _ _ 0 13 (Traced.read _ _ _ 500 11 (Traced.seed 0 7)))⟩

/-- C11 fails for low-end release: with tolerance 0 the code stores
`keys[0][kmin] = (uint16_t)(keys[0][kval] * 0.0) = 0` (lines 206-207), so no
reading in `[0, 1023]` is below it.  With the key values 200, 500, 900 and
automatic polarity (low-end release) the table is `[0, 349]`, `[350, 699]`,
`[700, 1023]`; the reading 0 is outside the release region, inside the window of
row 0, and `resetStates()` already records it as a press of key 0.  The
high-end branch has the fallback of line 202 that keeps 1023 released; the
low-end branch has none. -/
theorem zero_tolerance_low_end_never_released :
    resolveRelease (-1) (sortedKeys demoKeyVals zeroKeys) = LOW ∧
    (buildKeys 3 demoKeyVals (-1) 0 1 zeroKeys).take 3 =
      [⟨0, 200, 0, 349⟩, ⟨1, 500, 350, 699⟩, ⟨2, 900, 700, 1023⟩] ∧
    ¬ inRelease (buildKeys 3 demoKeyVals (-1) 0 1 zeroKeys) 2 0 ∧
    inWindow (buildKeys 3 demoKeyVals (-1) 0 1 zeroKeys) 0 0 ∧
    nowRec zeroTolState = ⟨0, AKM_PRESS, 0, 8⟩ := by
  decide

/-- C13 fails, by the defect of C2: with two keys the limits loop runs no
iteration, so `keys[1][kmin]` and `keys[0][kmax]` keep what the storage held.
With the values 10 and 11, tolerance 1/10 and zeroed storage the table is
`[1, 0]`, `[0, 1023]`: the last key's `kmin` is 0 and not 11, the first key's
`kmax` is 0 and not 10, and the first key has `kmin > kmax`. -/
theorem two_key_limits_unwritten :
    (buildKeys 2 [10, 11] (-1) 1 10 zeroKeys).take 2 = [⟨0, 10, 1, 0⟩, ⟨1, 11, 0, 1023⟩] ∧
    (rd (buildKeys 2 [10, 11] (-1) 1 10 zeroKeys) 1).kmin ≠ 11 ∧
    (rd (buildKeys 2 [10, 11] (-1) 1 10 zeroKeys) 0).kmax ≠ 10 ∧
    ¬ (rd (buildKeys 2 [10, 11] (-1) 1 10 zeroKeys) 0).kmin ≤
      (rd (buildKeys 2 [10, 11] (-1) 1 10 zeroKeys) 0).kmax ∧
    limitsLoop 1 (1 - 1) 1 (sortedKeys [10, 11] zeroKeys) = sortedKeys [10, 11] zeroKeys := by
  decide

theorem floor_tol (x tolNum tolDen : Nat) :
    ⌊(x : ℚ) * ((tolNum : ℚ) / (tolDen : ℚ))⌋ = ((x * tolNum / tolDen : Nat) : Int) := by
  have h : (x : ℚ) * ((tolNum : ℚ) / (tolDen : ℚ)) = ((x * tolNum : Nat) : ℚ) / (tolDen : ℚ) := by
    push_cast
    ring
  rw [h, Rat.floor_natCast_div_natCast]
  norm_cast

/-- The double nearest to `a / b` differs from it by at most half a unit of its
last fraction bit. -/
theorem toDouble_err (a b k : Nat) (hb : 0 < b) (hk : k < 1074) (h : a * 2 ^ k < 2 ^ 52 * b) :
    |((toDouble a b).1 : ℚ) / (2 : ℚ) ^ (toDouble a b).2 - (a : ℚ) / (b : ℚ)| ≤
      1 / (2 : ℚ) ^ (k + 2) := by
  unfold toDouble
  split_ifs with c
  · subst c
    simp
  · have hs := fracBits_gt a b k hk h
    obtain ⟨r1, r2⟩ := roundHalfEven_bounds (a * 2 ^ fracBits a b 1074 0) b hb
    generalize fracBits a b 1074 0 = s at hs r1 r2 ⊢
    generalize roundHalfEven (a * 2 ^ s) b = m at r1 r2 ⊢
    show |(m : ℚ) / (2 : ℚ) ^ s - (a : ℚ) / (b : ℚ)| ≤ 1 / (2 : ℚ) ^ (k + 2)
    have hbq : (0 : ℚ) < (b : ℚ) := by exact_mod_cast hb
    have hsq : (0 : ℚ) < (2 : ℚ) ^ s := by positivity
    have q1 : (2 : ℚ) * ((b : ℚ) * (m : ℚ)) ≤ 2 * ((a : ℚ) * (2 : ℚ) ^ s) + (b : ℚ) := by
      exact_mod_cast r1
    have q2 : (2 : ℚ) * ((a : ℚ) * (2 : ℚ) ^ s) ≤ 2 * ((b : ℚ) * (m : ℚ)) + (b : ℚ) := by
      exact_mod_cast r2
    have hpow : (2 : ℚ) ^ (k + 2) ≤ 2 * (2 : ℚ) ^ s := by
      have h5 : (2 : ℚ) ^ (k + 2) ≤ (2 : ℚ) ^ (s + 1) :=
        pow_le_pow_right₀ (by norm_num) (by omega)
      have e1 : (2 : ℚ) ^ (s + 1) = 2 * (2 : ℚ) ^ s := by ring
      rw [e1] at h5
      exact h5
    have hk2 : (0 : ℚ) < (2 : ℚ) ^ (k + 2) := by positivity
    have e : (m : ℚ) / (2 : ℚ) ^ s - (a : ℚ) / (b : ℚ) =
        ((b : ℚ) * (m : ℚ) - (a : ℚ) * (2 : ℚ) ^ s) / ((2 : ℚ) ^ s * (b : ℚ)) := by
      field_simp
      ring
    rw [e, abs_le]
    have hden : (0 : ℚ) < (2 : ℚ) ^ s * (b : ℚ) := by positivity
    have hb1 : (b : ℚ) / 2 / ((2 : ℚ) ^ s * (b : ℚ)) ≤ 1 / (2 : ℚ) ^ (k + 2) := by
      rw [div_le_div_iff₀ hden hk2]
      nlinarith
    constructor
    · have : -((b : ℚ) / 2) / ((2 : ℚ) ^ s * (b : ℚ)) ≤
          ((b : ℚ) * (m : ℚ) - (a : ℚ) * (2 : ℚ) ^ s) / ((2 : ℚ) ^ s * (b : ℚ)) := by
        apply div_le_div_of_nonneg_right _ hden.le
        linarith
      have e2 : -((b : ℚ) / 2) / ((2 : ℚ) ^ s * (b : ℚ)) =
          -((b : ℚ) / 2 / ((2 : ℚ) ^ s * (b : ℚ))) := by ring
      rw [e2] at this
      linarith
    · have : ((b : ℚ) * (m : ℚ) - (a : ℚ) * (2 : ℚ) ^ s) / ((2 : ℚ) ^ s * (b : ℚ)) ≤
          ((b : ℚ) / 2) / ((2 : ℚ) ^ s * (b : ℚ)) := by
        apply div_le_div_of_nonneg_right _ hden.le
        linarith
      linarith


theorem toDouble_le_one (tolNum tolDen : Nat) (ht : tolNum ≤ tolDen) :
    (toDouble tolNum tolDen).1 ≤ 2 ^ (toDouble tolNum tolDen).2 := by
  rcases Nat.eq_zero_or_pos tolDen with c | c
  · have e : tolNum = 0 := by omega
    rw [e]
    simp [toDouble]
  · have := toDouble_le tolNum tolDen 1 c (by omega)
    omega

theorem mulDouble_lt (x tolNum tolDen : Nat) (hx : x < 65536) (ht : tolNum ≤ tolDen) :
    x * (toDouble tolNum tolDen).1 * 2 ^ 36 < 2 ^ 52 * 2 ^ (toDouble tolNum tolDen).2 := by
  have h1 := toDouble_le_one tolNum tolDen ht
  have hp : 0 < 2 ^ (toDouble tolNum tolDen).2 := Nat.two_pow_pos _
  generalize (toDouble tolNum tolDen).1 = m at h1 ⊢
  generalize 2 ^ (toDouble tolNum tolDen).2 = p at h1 hp ⊢
  have h2 : x * m ≤ 65535 * p := Nat.mul_le_mul (by omega) h1
  have h3 : x * m * 2 ^ 36 ≤ 65535 * p * 2 ^ 36 := Nat.mul_le_mul_right _ h2
  have e1 : (2 : Nat) ^ 36 = 68719476736 := by norm_num
  have e2 : (2 : Nat) ^ 52 = 4503599627370496 := by norm_num
  rw [e1] at h3 ⊢
  rw [e2]
  omega

/-- The truncated double product is within one of the floor of the exact
product, for a tolerance in `[0, 1]` and a 16-bit factor. -/
theorem truncMul16_near (x tolNum tolDen : Nat) (hx : x < 65536) (ht : tolNum ≤ tolDen)
    (hd : 0 < tolDen) :
    x * tolNum / tolDen ≤ truncMul16 (x : Int) tolNum tolDen + 1 ∧
    truncMul16 (x : Int) tolNum tolDen ≤ x * tolNum / tolDen + 1 := by
  have hle := mulDouble_le x tolNum tolDen ht
  have e51 : (2 : Nat) ^ 51 = 2251799813685248 := by norm_num
  have e52 : (2 : Nat) ^ 52 = 4503599627370496 := by norm_num
  have E1 := toDouble_err tolNum tolDen 51 hd (by decide) (by rw [e51, e52]; omega)
  have E2 := toDouble_err (x * (toDouble tolNum tolDen).1) (2 ^ (toDouble tolNum tolDen).2) 36
    (Nat.two_pow_pos _) (by decide) (mulDouble_lt x tolNum tolDen hx ht)
  have hr : truncMul16 (x : Int) tolNum tolDen =
      (mulDouble x tolNum tolDen).1 / 2 ^ (mulDouble x tolNum tolDen).2 := by
    unfold truncMul16
    rw [if_pos (Int.ofNat_nonneg x), Int.toNat_ofNat]
    exact Nat.mod_eq_of_lt (by omega)
  rw [hr]
  unfold mulDouble at hle ⊢
  generalize (toDouble tolNum tolDen).1 = m1 at *
  generalize (toDouble tolNum tolDen).2 = s1 at *
  generalize (toDouble (x * m1) (2 ^ s1)).1 = m2 at *
  generalize (toDouble (x * m1) (2 ^ s1)).2 = s2 at *
  have hp2 : 0 < 2 ^ s2 := Nat.two_pow_pos _
  have d1 := Nat.div_mul_le_self m2 (2 ^ s2)
  have d2 := Nat.lt_div_mul_add (a := m2) hp2
  have d3 := Nat.div_mul_le_self (x * tolNum) tolDen
  have d4 := Nat.lt_div_mul_add (a := x * tolNum) hd
  generalize m2 / 2 ^ s2 = r at *
  generalize x * tolNum / tolDen = F at *
  have hdq : (0 : ℚ) < (tolDen : ℚ) := by exact_mod_cast hd
  have hs1 : (0 : ℚ) < (2 : ℚ) ^ s1 := by positivity
  have hs2 : (0 : ℚ) < (2 : ℚ) ^ s2 := by positivity
  have c1 : (r : ℚ) ≤ (m2 : ℚ) / (2 : ℚ) ^ s2 := by
    rw [le_div_iff₀ hs2]
    exact_mod_cast d1
  have c2 : (m2 : ℚ) / (2 : ℚ) ^ s2 < (r : ℚ) + 1 := by
    rw [div_lt_iff₀ hs2]
    have : m2 < (r + 1) * 2 ^ s2 := by
      rw [Nat.add_mul, Nat.one_mul]
      exact d2
    exact_mod_cast this
  have c3 : (F : ℚ) ≤ (x : ℚ) * ((tolNum : ℚ) / (tolDen : ℚ)) := by
    rw [← mul_div_assoc, le_div_iff₀ hdq]
    exact_mod_cast d3
  have c4 : (x : ℚ) * ((tolNum : ℚ) / (tolDen : ℚ)) < (F : ℚ) + 1 := by
    rw [← mul_div_assoc, div_lt_iff₀ hdq]
    have : x * tolNum < (F + 1) * tolDen := by
      rw [Nat.add_mul, Nat.one_mul]
      exact d4
    exact_mod_cast this
  push_cast at E2
  rw [abs_le] at E1 E2
  have hxq : (x : ℚ) ≤ 65535 := by
    have : x ≤ 65535 := by omega
    exact_mod_cast this
  have hx0 : (0 : ℚ) ≤ (x : ℚ) := by positivity
  have e53 : (1 : ℚ) / (2 : ℚ) ^ (51 + 2) = 1 / 9007199254740992 := by norm_num
  have e38 : (1 : ℚ) / (2 : ℚ) ^ (36 + 2) = 1 / 274877906944 := by norm_num
  rw [e53] at E1
  rw [e38] at E2
  have p1 : (x : ℚ) * ((m1 : ℚ) / (2 : ℚ) ^ s1 - (tolNum : ℚ) / (tolDen : ℚ)) ≤
      65535 * (1 / 9007199254740992) := by
    calc (x : ℚ) * ((m1 : ℚ) / (2 : ℚ) ^ s1 - (tolNum : ℚ) / (tolDen : ℚ))
        ≤ (x : ℚ) * (1 / 9007199254740992) := mul_le_mul_of_nonneg_left E1.2 hx0
      _ ≤ 65535 * (1 / 9007199254740992) := mul_le_mul_of_nonneg_right hxq (by norm_num)
  have p2 : -(65535 * (1 / 9007199254740992)) ≤
      (x : ℚ) * ((m1 : ℚ) / (2 : ℚ) ^ s1 - (tolNum : ℚ) / (tolDen : ℚ)) := by
    have a1 : (x : ℚ) * (-(1 / 9007199254740992)) ≤
        (x : ℚ) * ((m1 : ℚ) / (2 : ℚ) ^ s1 - (tolNum : ℚ) / (tolDen : ℚ)) :=
      mul_le_mul_of_nonneg_left E1.1 hx0
    have a2 : (65535 : ℚ) * (-(1 / 9007199254740992)) ≤ (x : ℚ) * (-(1 / 9007199254740992)) :=
      mul_le_mul_of_nonpos_right hxq (by norm_num)
    linarith
  have e3 : (x : ℚ) * (m1 : ℚ) / (2 : ℚ) ^ s1 = (x : ℚ) * ((m1 : ℚ) / (2 : ℚ) ^ s1) := by ring
  rw [e3] at E2
  have q1 : (r : ℚ) < (F : ℚ) + 2 := by
    have := E2.2
    norm_num at p1 p2 this ⊢
    linarith
  have q2 : (F : ℚ) < (r : ℚ) + 2 := by
    have := E2.1
    norm_num at p1 p2 this ⊢
    linarith
  have q3 : r < F + 2 := by exact_mod_cast q1
  have q4 : F < r + 2 := by exact_mod_cast q2
  omega

theorem toDouble_of_dvd (a b q : Nat) (hb : 0 < b) (ha : a ≠ 0)
    (h : a * 2 ^ fracBits a b 1074 0 = q * b) : toDouble a b = (q, fracBits a b 1074 0) := by
  unfold toDouble
  rw [if_neg ha, h, roundHalfEven_mul q b hb]

/-- For a tolerance `m / 2 ^ k` in `[0, 1]` with `k ≤ 36` both roundings are
exact and the truncated double product is the floor of the exact product. -/
theorem truncMul16_dyadic (x m k : Nat) (hx : x < 65536) (hm : m ≤ 2 ^ k) (hk : k ≤ 36) :
    truncMul16 (x : Int) m (2 ^ k) = x * m / 2 ^ k := by
  have hle := mulDouble_le x m (2 ^ k) hm
  have hlt := mulDouble_lt x m (2 ^ k) hx hm
  have hr : truncMul16 (x : Int) m (2 ^ k) =
      (mulDouble x m (2 ^ k)).1 / 2 ^ (mulDouble x m (2 ^ k)).2 := by
    unfold truncMul16
    rw [if_pos (Int.ofNat_nonneg x), Int.toNat_ofNat]
    exact Nat.mod_eq_of_lt (by omega)
  rw [hr]
  have e51 : (2 : Nat) ^ 51 = 2251799813685248 := by norm_num
  have e52 : (2 : Nat) ^ 52 = 4503599627370496 := by norm_num
  have hk0 : 0 < 2 ^ k := Nat.two_pow_pos _
  by_cases m0 : m = 0
  · subst m0
    simp [mulDouble, toDouble]
  by_cases x0 : x = 0
  · subst x0
    simp [mulDouble, toDouble]
  have g1 := fracBits_gt m (2 ^ k) 51 (by decide) (by rw [e51, e52]; omega)
  have t1 : toDouble m (2 ^ k) =
      (m * 2 ^ (fracBits m (2 ^ k) 1074 0 - k), fracBits m (2 ^ k) 1074 0) := by
    apply toDouble_of_dvd _ _ _ hk0 m0
    rw [Nat.mul_assoc, ← Nat.pow_add]
    congr 2
    omega
  rw [t1] at hlt
  unfold mulDouble
  rw [t1]
  generalize fracBits m (2 ^ k) 1074 0 = s1 at g1 hlt ⊢
  have hne : x * (m * 2 ^ (s1 - k)) ≠ 0 := by
    have : 0 < 2 ^ (s1 - k) := Nat.two_pow_pos _
    exact Nat.mul_ne_zero x0 (Nat.mul_ne_zero m0 (by omega))
  have g2 := fracBits_gt (x * (m * 2 ^ (s1 - k))) (2 ^ s1) 36 (by decide) hlt
  have t2 : toDouble (x * (m * 2 ^ (s1 - k))) (2 ^ s1) =
      (x * m * 2 ^ (fracBits (x * (m * 2 ^ (s1 - k))) (2 ^ s1) 1074 0 - k),
        fracBits (x * (m * 2 ^ (s1 - k))) (2 ^ s1) 1074 0) := by
    apply toDouble_of_dvd _ _ _ (Nat.two_pow_pos _) hne
    generalize fracBits (x * (m * 2 ^ (s1 - k))) (2 ^ s1) 1074 0 = s2 at g2 ⊢
    have a1 : 2 ^ (s1 - k) * 2 ^ s2 = 2 ^ (s2 - k) * 2 ^ s1 := by
      rw [← Nat.pow_add, ← Nat.pow_add]
      congr 1
      omega
    calc x * (m * 2 ^ (s1 - k)) * 2 ^ s2 = x * m * (2 ^ (s1 - k) * 2 ^ s2) := by ring
      _ = x * m * (2 ^ (s2 - k) * 2 ^ s1) := by rw [a1]
      _ = x * m * 2 ^ (s2 - k) * 2 ^ s1 := by ring
  rw [t2]
  generalize fracBits (x * (m * 2 ^ (s1 - k))) (2 ^ s1) 1074 0 = s2 at g2 ⊢
  show x * m * 2 ^ (s2 - k) / 2 ^ s2 = x * m / 2 ^ k
  have a2 : 2 ^ s2 = 2 ^ k * 2 ^ (s2 - k) := by
    rw [← Nat.pow_add]
    congr 1
    omega
  rw [a2, Nat.mul_div_mul_right _ _ (Nat.two_pow_pos _)]

theorem highBP_eq_min (m tolNum tolDen : Nat) (hm : m ≤ 1023) (ht : tolNum ≤ tolDen) :
    ((highBP m tolNum tolDen : Nat) : Int) =
      min 1022 (1023 - ((truncMul16 (1023 - (m : Int)) tolNum tolDen : Nat) : Int)) := by
  have h1 := truncMul16_le (1023 - m) tolNum tolDen ht
  have h2 : ((1023 - m : Nat) : Int) = 1023 - (m : Int) := by omega
  rw [h2] at h1
  unfold highBP
  split_ifs <;> omega

/-- The value of sorted row 0 is the lowest input value. -/
theorem sortedKeys_lowest (keyVals : List Nat) (keys0 : List KeyRow)
    (hmem : keyVals.length ≤ keys0.length) :
    ∀ v ∈ keyVals, (rd (sortedKeys keyVals keys0) 0).kval ≤ v := by
  intro v hv
  obtain ⟨s1, s2, s3⟩ := sortedKeys_spec keyVals keys0 hmem
  have hp := pairsOf_perm keyVals.length keyVals (sortedKeys keyVals keys0) rfl (by omega) s2
  obtain ⟨k, hk, hkv⟩ := List.getElem_of_mem hv
  have hin : (k, v) ∈ keyVals.enum := by
    rw [List.mk_mem_enum_iff_getElem?, List.getElem?_eq_getElem hk, hkv]
  have hin2 := hp.mem_iff.mpr hin
  obtain ⟨r, hr, hrv⟩ := List.getElem_of_mem hin2
  have hl : (pairsOf keyVals.length (sortedKeys keyVals keys0)).length = keyVals.length := by
    simp [pairsOf, s1, hmem]
  rw [pairsOf_getElem keyVals.length _ (by omega) r hr] at hrv
  have e : (rd (sortedKeys keyVals keys0) r).kval = v := congrArg Prod.snd hrv
  rw [← e]
  by_cases r0 : r = 0
  · rw [r0]
  · exact s3 0 r (by omega) (by omega)

theorem resolveRelease_cases (releaseState : Int) (keys : List KeyRow) :
    (resolveRelease releaseState keys = HIGH ∨ resolveRelease releaseState keys = LOW) ∧
    (releaseState = -1 → (resolveRelease releaseState keys = HIGH ↔ (rd keys 0).kval = 0)) ∧
    (releaseState > 0 → resolveRelease releaseState keys = HIGH) ∧
    (releaseState = 0 → resolveRelease releaseState keys = LOW) := by
  unfold resolveRelease HIGH LOW
  refine ⟨?_, ?_, ?_, ?_⟩
  · split_ifs <;> simp
  · intro h
    rw [if_pos h]
    split_ifs <;> simp_all
  · intro h
    rw [if_neg (by omega), if_pos h]
  · intro h
    rw [if_neg (by omega), if_neg (by omega)]

/-- The truncated double product against the floor of the exact product, for a
factor in `[0, 1023]` and a tolerance in `[0, 1]`: at most one apart, and equal
for a tolerance with denominator `2 ^ k`, `k ≤ 36`. -/
theorem truncMul16_floor (x tolNum tolDen : Nat) (hx : x ≤ 1023) (ht : tolNum ≤ tolDen)
    (hd : 0 < tolDen) :
    ⌊(x : ℚ) * ((tolNum : ℚ) / (tolDen : ℚ))⌋ - 1 ≤
      ((truncMul16 (x : Int) tolNum tolDen : Nat) : Int) ∧
    ((truncMul16 (x : Int) tolNum tolDen : Nat) : Int) ≤
      ⌊(x : ℚ) * ((tolNum : ℚ) / (tolDen : ℚ))⌋ + 1 ∧
    (∀ k, k ≤ 36 → tolDen = 2 ^ k →
      ((truncMul16 (x : Int) tolNum tolDen : Nat) : Int) =
        ⌊(x : ℚ) * ((tolNum : ℚ) / (tolDen : ℚ))⌋) := by
  obtain ⟨n1, n2⟩ := truncMul16_near x tolNum tolDen (by omega) ht hd
  rw [floor_tol]
  refine ⟨by omega, by omega, fun k hk e => ?_⟩
  subst e
  rw [truncMul16_dyadic x tolNum k (by omega) ht hk]

/-- C12, the boundary formulas as stated fail: the product with the tolerance is
taken in `double` arithmetic and rounded before the cast (lines 201, 206).  With
the values 100, 500, 900 and tolerance 0.29 (low-end release) the first key gets
`kmin = 28`, while `floor(100 * 29/100) = 29`; with the values 0, 823, 1023 and
tolerance 0.29 (high-end release) the last key, whose `kmin` is 923, gets
`kmax = 995`, while `min(1022, 1023 - floor((1023 - 923) * 29/100)) = 994`. -/
theorem release_boundary_not_floor :
    resolveRelease (-1) (sortedKeys [100, 500, 900] zeroKeys) = LOW ∧
    (rd (buildKeys 3 [100, 500, 900] (-1) 29 100 zeroKeys) 0).kval = 100 ∧
    (rd (buildKeys 3 [100, 500, 900] (-1) 29 100 zeroKeys) 0).kmin = 28 ∧
    ⌊((100 : Nat) : ℚ) * (((29 : Nat) : ℚ) / ((100 : Nat) : ℚ))⌋ = 29 ∧
    resolveRelease (-1) (sortedKeys [0, 823, 1023] zeroKeys) = HIGH ∧
    (rd (buildKeys 3 [0, 823, 1023] (-1) 29 100 zeroKeys) 2).kmin = 923 ∧
    (rd (buildKeys 3 [0, 823, 1023] (-1) 29 100 zeroKeys) 2).kmax = 995 ∧
    min 1022 (1023 - ⌊((100 : Nat) : ℚ) * (((29 : Nat) : ℚ) / ((100 : Nat) : ℚ))⌋) = 994 := by
  have hf : ⌊((100 : Nat) : ℚ) * (((29 : Nat) : ℚ) / ((100 : Nat) : ℚ))⌋ = 29 := by
    rw [floor_tol]
    decide
  refine ⟨by decide, by decide, by decide, hf, by decide, by decide, by decide, ?_⟩
  rw [hf]
  decide

/-- C12 as amended (polarity and release boundary): for a valid calibration with
at least three keys, the value of sorted row 0 is the lowest nominal value; the
resolved polarity is `HIGH` or `LOW`; with `releaseState = -1` it is `HIGH`
exactly when the lowest nominal value is 0; a positive `releaseState` gives
`HIGH` and 0 gives `LOW`.  For `HIGH` the table has `kmin = 0` in the first row
and `kmax = min(1022, 1023 - P)` in the last, `P` being the truncated double
product of `1023 - kmin[last]` and the tolerance; for `LOW` it has `kmax = 1023`
in the last row and in the first row `kmin` is the truncated double product of
`kval[first]` and the tolerance.  Either product is at most one away from the
floor of the exact product with `t = tolNum / tolDen`, and is that floor when
`tolDen = 2 ^ k` with `k ≤ 36`. -/
theorem polarity_and_release_boundary (keyVals : List Nat) (releaseState : Int)
    (tolNum tolDen : Nat) (keys0 : List KeyRow) (hv : ValidCalib keyVals tolNum tolDen keys0) :
    (∀ v ∈ keyVals, (rd (sortedKeys keyVals keys0) 0).kval ≤ v) ∧
    (resolveRelease releaseState (sortedKeys keyVals keys0) = HIGH ∨
      resolveRelease releaseState (sortedKeys keyVals keys0) = LOW) ∧
    (releaseState = -1 →
      (resolveRelease releaseState (sortedKeys keyVals keys0) = HIGH ↔
        (rd (sortedKeys keyVals keys0) 0).kval = 0)) ∧
    (releaseState > 0 → resolveRelease releaseState (sortedKeys keyVals keys0) = HIGH) ∧
    (releaseState = 0 → resolveRelease releaseState (sortedKeys keyVals keys0) = LOW) ∧
    (resolveRelease releaseState (sortedKeys keyVals keys0) = HIGH →
      (rd (buildKeys keyVals.length keyVals releaseState tolNum tolDen keys0) 0).kmin = 0 ∧
      (((rd (buildKeys keyVals.length keyVals releaseState tolNum tolDen keys0) (keyVals.length - 1)).kmax : Nat) : Int) =
        min 1022 (1023 - ((truncMul16 (((1023 - (rd (buildKeys keyVals.length keyVals releaseState tolNum tolDen keys0) (keyVals.length - 1)).kmin : Nat)) : Int)
          tolNum tolDen : Nat) : Int)) ∧
      ⌊(((1023 - (rd (buildKeys keyVals.length keyVals releaseState tolNum tolDen keys0) (keyVals.length - 1)).kmin : Nat)) : ℚ) *
          ((tolNum : ℚ) / (tolDen : ℚ))⌋ - 1 ≤
        ((truncMul16 (((1023 - (rd (buildKeys keyVals.length keyVals releaseState tolNum tolDen keys0) (keyVals.length - 1)).kmin : Nat)) : Int)
          tolNum tolDen : Nat) : Int) ∧
      ((truncMul16 (((1023 - (rd (buildKeys keyVals.length keyVals releaseState tolNum tolDen keys0) (keyVals.length - 1)).kmin : Nat)) : Int)
          tolNum tolDen : Nat) : Int) ≤
        ⌊(((1023 - (rd (buildKeys keyVals.length keyVals releaseState tolNum tolDen keys0) (keyVals.length - 1)).kmin : Nat)) : ℚ) *
          ((tolNum : ℚ) / (tolDen : ℚ))⌋ + 1 ∧
      (∀ k, k ≤ 36 → tolDen = 2 ^ k →
        (((rd (buildKeys keyVals.length keyVals releaseState tolNum tolDen keys0) (keyVals.length - 1)).kmax : Nat) : Int) =
          min 1022 (1023 - ⌊(((1023 - (rd (buildKeys keyVals.length keyVals releaseState tolNum tolDen keys0) (keyVals.length - 1)).kmin : Nat)) : ℚ) *
            ((tolNum : ℚ) / (tolDen : ℚ))⌋))) ∧
    (resolveRelease releaseState (sortedKeys keyVals keys0) = LOW →
      (rd (buildKeys keyVals.length keyVals releaseState tolNum tolDen keys0) (keyVals.length - 1)).kmax = 1023 ∧
      (rd (buildKeys keyVals.length keyVals releaseState tolNum tolDen keys0) 0).kmin = truncMul16 ((rd (buildKeys keyVals.length keyVals releaseState tolNum tolDen keys0) 0).kval : Int) tolNum tolDen ∧
      ⌊((rd (buildKeys keyVals.length keyVals releaseState tolNum tolDen keys0) 0).kval : ℚ) * ((tolNum : ℚ) / (tolDen : ℚ))⌋ - 1 ≤
        (((rd (buildKeys keyVals.length keyVals releaseState tolNum tolDen keys0) 0).kmin : Nat) : Int) ∧
      (((rd (buildKeys keyVals.length keyVals releaseState tolNum tolDen keys0) 0).kmin : Nat) : Int) ≤
        ⌊((rd (buildKeys keyVals.length keyVals releaseState tolNum tolDen keys0) 0).kval : ℚ) * ((tolNum : ℚ) / (tolDen : ℚ))⌋ + 1 ∧
      (∀ k, k ≤ 36 → tolDen = 2 ^ k →
        (((rd (buildKeys keyVals.length keyVals releaseState tolNum tolDen keys0) 0).kmin : Nat) : Int) =
          ⌊((rd (buildKeys keyVals.length keyVals releaseState tolNum tolDen keys0) 0).kval : ℚ) * ((tolNum : ℚ) / (tolDen : ℚ))⌋)) := by
  have h3 := hv.three
  have h48 := hv.atMost
  have hmem := hv.mem
  obtain ⟨b1, b2, b3, b4⟩ :=
    buildKeys_spec keyVals releaseState tolNum tolDen keys0 hv.three hv.atMost hv.mem
  obtain ⟨t1, t2⟩ := sortedKeys_strict keyVals tolNum tolDen keys0 hv
  obtain ⟨c1, c2, c3, c4⟩ := resolveRelease_cases releaseState (sortedKeys keyVals keys0)
  have hkv0 := ((buildKeys_sameKV keyVals releaseState tolNum tolDen keys0).2 0).2
  have hlastmin : (rd (buildKeys keyVals.length keyVals releaseState tolNum tolDen keys0) (keyVals.length - 1)).kmin ≤ 1023 := by
    rw [b1 (keyVals.length - 1) (by omega) (by omega)]
    have := minOf_bounds _ _ (t1 (keyVals.length - 1 - 1) (keyVals.length - 1) (by omega)
      (by omega)) (t2 (keyVals.length - 1) (by omega))
    have := t2 (keyVals.length - 1) (by omega)
    omega
  refine ⟨sortedKeys_lowest keyVals keys0 (by omega), c1, c2, c3, c4, fun hH => ?_, fun hL => ?_⟩
  · obtain ⟨f1, f2, f3⟩ := truncMul16_floor (1023 - (rd (buildKeys keyVals.length keyVals releaseState tolNum tolDen keys0) (keyVals.length - 1)).kmin)
      tolNum tolDen (by omega) hv.tol hv.den
    have hmax : (((rd (buildKeys keyVals.length keyVals releaseState tolNum tolDen keys0) (keyVals.length - 1)).kmax : Nat) : Int) =
        min 1022 (1023 - ((truncMul16
          (((1023 - (rd (buildKeys keyVals.length keyVals releaseState tolNum tolDen keys0) (keyVals.length - 1)).kmin : Nat)) : Int) tolNum tolDen : Nat)
            : Int)) := by
      have e := highBP_eq_min (rd (buildKeys keyVals.length keyVals releaseState tolNum tolDen keys0) (keyVals.length - 1)).kmin tolNum tolDen hlastmin hv.tol
      have h2 : (((1023 - (rd (buildKeys keyVals.length keyVals releaseState tolNum tolDen keys0) (keyVals.length - 1)).kmin : Nat)) : Int) =
          1023 - ((rd (buildKeys keyVals.length keyVals releaseState tolNum tolDen keys0) (keyVals.length - 1)).kmin : Int) := by omega
      rw [h2, ← e]
      have e4 := b4
      rw [if_pos hH, ← b1 (keyVals.length - 1) (by omega) (by omega)] at e4
      rw [e4]
    refine ⟨?_, hmax, f1, f2, fun k hk e => ?_⟩
    · rw [b3, if_pos hH]
    · rw [hmax, f3 k hk e]
  · have hne : ¬ resolveRelease releaseState (sortedKeys keyVals keys0) = HIGH := by
      rw [hL]; decide
    have hkmin : (rd (buildKeys keyVals.length keyVals releaseState tolNum tolDen keys0) 0).kmin = truncMul16 ((rd (buildKeys keyVals.length keyVals releaseState tolNum tolDen keys0) 0).kval : Int) tolNum tolDen := by
      rw [b3, if_neg hne, hkv0]
    obtain ⟨f1, f2, f3⟩ := truncMul16_floor (rd (buildKeys keyVals.length keyVals releaseState tolNum tolDen keys0) 0).kval tolNum tolDen
      (by rw [hkv0]; exact t2 0 (by omega)) hv.tol hv.den
    refine ⟨?_, hkmin, ?_, ?_, fun k hk e => ?_⟩
    · rw [b4, if_neg hne]
    · rw [hkmin]; exact f1
    · rw [hkmin]; exact f2
    · rw [hkmin]; exact f3 k hk e

/-- C12 as amended, on the scenario: automatic polarity with lowest value 200
resolves to `LOW`, and `kmin` of the first row is 20. -/
theorem polarity_and_release_boundary_witness :
    (resolveRelease (-1) (sortedKeys demoKeyVals zeroKeys) = LOW ∧
      (rd (buildKeys 3 demoKeyVals (-1) 1 10 zeroKeys) 0).kmin = 20) ∧
    (resolveRelease (-1) (sortedKeys demoKeyVals zeroKeys) = LOW →
      (rd (buildKeys demoKeyVals.length demoKeyVals (-1) 1 10 zeroKeys)
        (demoKeyVals.length - 1)).kmax = 1023 ∧
      (rd (buildKeys demoKeyVals.length demoKeyVals (-1) 1 10 zeroKeys) 0).kmin =
        truncMul16 ((rd (buildKeys demoKeyVals.length demoKeyVals (-1) 1 10 zeroKeys) 0).kval
          : Int) 1 10 ∧
      ⌊((rd (buildKeys demoKeyVals.length demoKeyVals (-1) 1 10 zeroKeys) 0).kval : ℚ) *
          (((1 : Nat) : ℚ) / ((10 : Nat) : ℚ))⌋ - 1 ≤
        (((rd (buildKeys demoKeyVals.length demoKeyVals (-1) 1 10 zeroKeys) 0).kmin : Nat)
          : Int) ∧
      (((rd (buildKeys demoKeyVals.length demoKeyVals (-1) 1 10 zeroKeys) 0).kmin : Nat)
          : Int) ≤
        ⌊((rd (buildKeys demoKeyVals.length demoKeyVals (-1) 1 10 zeroKeys) 0).kval : ℚ) *
          (((1 : Nat) : ℚ) / ((10 : Nat) : ℚ))⌋ + 1 ∧
      (∀ k, k ≤ 36 → 10 = 2 ^ k →
        (((rd (buildKeys demoKeyVals.length demoKeyVals (-1) 1 10 zeroKeys) 0).kmin : Nat)
            : Int) =
          ⌊((rd (buildKeys demoKeyVals.length demoKeyVals (-1) 1 10 zeroKeys) 0).kval : ℚ) *
            (((1 : Nat) : ℚ) / ((10 : Nat) : ℚ))⌋)) :=
  ⟨by decide,
    (polarity_and_release_boundary demoKeyVals (-1) 1 10 zeroKeys
      ⟨by decide, by decide, by decide, by decide, by decide, by decide,
        by decide⟩).2.2.2.2.2.2⟩

/-- With pairwise distinct input values the sorted values are strictly
increasing. -/
theorem sortedKeys_lt_of_nodup (keyVals : List Nat) (keys0 : List KeyRow)
    (hmem : keyVals.length ≤ keys0.length) (hnd : keyVals.Nodup) :
    ∀ a b, a < b → b < keyVals.length →
      (rd (sortedKeys keyVals keys0) a).kval < (rd (sortedKeys keyVals keys0) b).kval := by
  obtain ⟨s1, ⟨p1, p2⟩, s3⟩ := sortedKeys_spec keyVals keys0 hmem
  intro a b hab hb
  have ha : a < keyVals.length := by omega
  have hle := s3 a b hab hb
  have hne : (rd (sortedKeys keyVals keys0) a).kval ≠ (rd (sortedKeys keyVals keys0) b).kval := by
    intro he
    obtain ⟨a1, a2⟩ := p1 a ha
    obtain ⟨b1, b2⟩ := p1 b hb
    rw [a2, b2] at he
    simp only [List.getD_eq_getElem?_getD, List.getElem?_eq_getElem a1,
      List.getElem?_eq_getElem b1, Option.getD_some] at he
    have := (hnd.getElem_inj_iff).mp he
    have := p2 a b ha hb this
    omega
  omega

/-- Every sorted value is one of the input values. -/
theorem sortedKeys_kval_mem (keyVals : List Nat) (keys0 : List KeyRow)
    (hmem : keyVals.length ≤ keys0.length) (r : Nat) (hr : r < keyVals.length) :
    (rd (sortedKeys keyVals keys0) r).kval ∈ keyVals := by
  obtain ⟨_, ⟨p1, _⟩, _⟩ := sortedKeys_spec keyVals keys0 hmem
  obtain ⟨a1, a2⟩ := p1 r hr
  rw [a2]
  simp only [List.getD_eq_getElem?_getD, List.getElem?_eq_getElem a1, Option.getD_some]
  exact List.getElem_mem _

theorem minOf_eq (p c : Nat) (hp : p < 65536) (hc : c < 65536) :
    minOf p c = (if p < (p + c) / 2 ∧ (p + c) / 2 ≤ c then (p + c) / 2 else c) ∧
    minOf p c < 65536 := by
  unfold minOf
  rw [halfway_eq c p (by omega)]
  have e : (c + p) / 2 = (p + c) / 2 := by rw [Nat.add_comm]
  rw [e]
  split_ifs <;> omega

theorem maxOf_eq (p c m : Nat) (hp : p < 65536) (hc : c < 65536) (hm : m < 65536) :
    ((maxOf p c m : Nat) : Int) =
      if (p : Int) ≤ (m : Int) - 1 ∧ (m : Int) - 1 < (c : Int) then (m : Int) - 1 else (p : Int) := by
  unfold maxOf pred16
  split_ifs <;> omega

theorem halfway_floor (p c : Nat) :
    ⌊(c : ℚ) - ((c : ℚ) - (p : ℚ)) / 2⌋ = (((p + c) / 2 : Nat) : Int) := by
  have h : (c : ℚ) - ((c : ℚ) - (p : ℚ)) / 2 = ((p + c : Nat) : ℚ) / ((2 : Nat) : ℚ) := by
    push_cast
    ring
  rw [h, Rat.floor_natCast_div_natCast]
  norm_cast

theorem minOf_bounds16 (p c : Nat) (hpc : p < c) (hc : c < 65536) :
    p < minOf p c ∧ minOf p c ≤ c := by
  unfold minOf
  rw [halfway_eq c p (by omega)]
  split_ifs <;> omega

theorem maxOf_succ16 (p c : Nat) (hpc : p < c) (hc : c < 65536) :
    maxOf p c (minOf p c) + 1 = minOf p c ∧ p ≤ maxOf p c (minOf p c) := by
  have := minOf_bounds16 p c hpc hc
  unfold maxOf pred16
  split_ifs <;> omega

/-- C17 (halfway split with fallback): for every calibration with at least three
keys and every sorted index `1 ≤ i ≤ n - 1`, with `prev` and `curr` the values
of rows `i - 1` and `i`: the value `curr - (curr - prev) / 2` truncated is
`(prev + curr) / 2`; `kmin[i]` is that value when it lies in `(prev, curr]` and
`curr` otherwise; `kmax[i-1]` is `kmin[i] - 1` when that lies in `[prev, curr)`
and `prev` otherwise; and for pairwise distinct values `prev ≤ kmax[i-1]`,
`kmax[i-1] + 1 = kmin[i]` and `kmin[i] ≤ curr`. -/
theorem halfway_split (keyVals : List Nat) (releaseState : Int) (tolNum tolDen : Nat)
    (keys0 : List KeyRow) (h3 : 3 ≤ keyVals.length) (h48 : keyVals.length ≤ AKM_MaxNumOfKeys)
    (hmem : keys0.length = AKM_MaxNumOfKeys) (h16 : ∀ v ∈ keyVals, v < 65536)
    (i : Nat) (hi1 : 1 ≤ i) (hi2 : i ≤ keyVals.length - 1) :
    ⌊((rd (buildKeys keyVals.length keyVals releaseState tolNum tolDen keys0) i).kval : ℚ) -
        (((rd (buildKeys keyVals.length keyVals releaseState tolNum tolDen keys0) i).kval : ℚ) -
          ((rd (buildKeys keyVals.length keyVals releaseState tolNum tolDen keys0) (i - 1)).kval
            : ℚ)) / 2⌋ =
      ((((rd (buildKeys keyVals.length keyVals releaseState tolNum tolDen keys0) (i - 1)).kval +
        (rd (buildKeys keyVals.length keyVals releaseState tolNum tolDen keys0) i).kval) / 2
          : Nat) : Int) ∧
    (rd (buildKeys keyVals.length keyVals releaseState tolNum tolDen keys0) i).kmin =
      (if (rd (buildKeys keyVals.length keyVals releaseState tolNum tolDen keys0) (i - 1)).kval <
            ((rd (buildKeys keyVals.length keyVals releaseState tolNum tolDen keys0) (i - 1)).kval +
              (rd (buildKeys keyVals.length keyVals releaseState tolNum tolDen keys0) i).kval) / 2 ∧
          ((rd (buildKeys keyVals.length keyVals releaseState tolNum tolDen keys0) (i - 1)).kval +
              (rd (buildKeys keyVals.length keyVals releaseState tolNum tolDen keys0) i).kval) / 2 ≤
            (rd (buildKeys keyVals.length keyVals releaseState tolNum tolDen keys0) i).kval
       then
         ((rd (buildKeys keyVals.length keyVals releaseState tolNum tolDen keys0) (i - 1)).kval +
           (rd (buildKeys keyVals.length keyVals releaseState tolNum tolDen keys0) i).kval) / 2
       else (rd (buildKeys keyVals.length keyVals releaseState tolNum tolDen keys0) i).kval) ∧
    (((rd (buildKeys keyVals.length keyVals releaseState tolNum tolDen keys0) (i - 1)).kmax : Nat)
        : Int) =
      (if (((rd (buildKeys keyVals.length keyVals releaseState tolNum tolDen keys0) (i - 1)).kval
              : Nat) : Int) ≤
            ((rd (buildKeys keyVals.length keyVals releaseState tolNum tolDen keys0) i).kmin : Int)
              - 1 ∧
          ((rd (buildKeys keyVals.length keyVals releaseState tolNum tolDen keys0) i).kmin : Int)
              - 1 <
            ((rd (buildKeys keyVals.length keyVals releaseState tolNum tolDen keys0) i).kval : Int)
       then
         ((rd (buildKeys keyVals.length keyVals releaseState tolNum tolDen keys0) i).kmin : Int) - 1
       else
         ((rd (buildKeys keyVals.length keyVals releaseState tolNum tolDen keys0) (i - 1)).kval
           : Int)) ∧
    (keyVals.Nodup →
      (rd (buildKeys keyVals.length keyVals releaseState tolNum tolDen keys0) (i - 1)).kval ≤
        (rd (buildKeys keyVals.length keyVals releaseState tolNum tolDen keys0) (i - 1)).kmax ∧
      (rd (buildKeys keyVals.length keyVals releaseState tolNum tolDen keys0) (i - 1)).kmax + 1 =
        (rd (buildKeys keyVals.length keyVals releaseState tolNum tolDen keys0) i).kmin ∧
      (rd (buildKeys keyVals.length keyVals releaseState tolNum tolDen keys0) i).kmin ≤
        (rd (buildKeys keyVals.length keyVals releaseState tolNum tolDen keys0) i).kval) := by
  have hm : keyVals.length ≤ keys0.length := by omega
  obtain ⟨b1, b2, _, _⟩ := buildKeys_spec keyVals releaseState tolNum tolDen keys0 h3 h48 hmem
  have hkv := (buildKeys_sameKV keyVals releaseState tolNum tolDen keys0).2
  have hp := h16 _ (sortedKeys_kval_mem keyVals keys0 hm (i - 1) (by omega))
  have hc := h16 _ (sortedKeys_kval_mem keyVals keys0 hm i (by omega))
  have e1 := b1 i hi1 hi2
  have e2 := b2 (i - 1) (by omega)
  have e3 : i - 1 + 1 = i := by omega
  rw [e3] at e2
  rw [(hkv i).2, (hkv (i - 1)).2, e1, e2]
  obtain ⟨m1, m2⟩ := minOf_eq _ _ hp hc
  refine ⟨halfway_floor _ _, m1, maxOf_eq _ _ _ hp hc m2, fun hnd => ?_⟩
  have hlt := sortedKeys_lt_of_nodup keyVals keys0 hm hnd (i - 1) i (by omega) (by omega)
  obtain ⟨n1, n2⟩ := maxOf_succ16 _ _ hlt hc
  exact ⟨n2, n1, (minOf_bounds16 _ _ hlt hc).2⟩

/-- C17 on the scenario, for the rows of the values 500 and 900. -/
theorem halfway_split_witness :
    ((3 ≤ demoKeyVals.length ∧ demoKeyVals.length ≤ AKM_MaxNumOfKeys ∧
      zeroKeys.length = AKM_MaxNumOfKeys ∧ (∀ v ∈ demoKeyVals, v < 65536) ∧
      2 ≤ demoKeyVals.length - 1) ∧
      (rd (buildKeys 3 demoKeyVals (-1) 1 10 zeroKeys) 2).kmin = 700 ∧
      (rd (buildKeys 3 demoKeyVals (-1) 1 10 zeroKeys) 1).kmax = 699) ∧
    (rd (buildKeys demoKeyVals.length demoKeyVals (-1) 1 10 zeroKeys) 2).kmin =
      (if (rd (buildKeys demoKeyVals.length demoKeyVals (-1) 1 10 zeroKeys) (2 - 1)).kval <
            ((rd (buildKeys demoKeyVals.length demoKeyVals (-1) 1 10 zeroKeys) (2 - 1)).kval +
              (rd (buildKeys demoKeyVals.length demoKeyVals (-1) 1 10 zeroKeys) 2).kval) / 2 ∧
          ((rd (buildKeys demoKeyVals.length demoKeyVals (-1) 1 10 zeroKeys) (2 - 1)).kval +
              (rd (buildKeys demoKeyVals.length demoKeyVals (-1) 1 10 zeroKeys) 2).kval) / 2 ≤
            (rd (buildKeys demoKeyVals.length demoKeyVals (-1) 1 10 zeroKeys) 2).kval
       then
         ((rd (buildKeys demoKeyVals.length demoKeyVals (-1) 1 10 zeroKeys) (2 - 1)).kval +
           (rd (buildKeys demoKeyVals.length demoKeyVals (-1) 1 10 zeroKeys) 2).kval) / 2
       else (rd (buildKeys demoKeyVals.length demoKeyVals (-1) 1 10 zeroKeys) 2).kval) :=
  ⟨by decide,
    (halfway_split demoKeyVals (-1) 1 10 zeroKeys (by decide) (by decide) (by decide)
      (by decide) 2 (by decide) (by decide)).2.1⟩

/-- The record `read` returns for a reading in the window of row `i` is a press
of that row's key. -/
theorem read_in_window (K n : Nat) (AKM_ERROR : Option Int) (s : AnalogKeyMatrix) (val : Int)
    (millis : Nat) (i : Nat) (hK : 2 ≤ K) (hK2 : K ≤ 127) (h : Tabled K n s) (hi : i < n)
    (hw : inWindow s.keys i val) :
    (rd (read K AKM_ERROR s val millis).1._log (read K AKM_ERROR s val millis).2).event =
      AKM_PRESS ∧
    (rd (read K AKM_ERROR s val millis).1._log (read K AKM_ERROR s val millis).2).key =
      ((rd s.keys i).knum : Int) ∧
    ((read K AKM_ERROR s val millis).1.now_i ≠ s.now_i →
      rd (read K AKM_ERROR s val millis).1._log (read K AKM_ERROR s val millis).2 =
        ⟨val, AKM_PRESS, ((rd s.keys i).knum : Int), millis⟩) := by
  by_cases hp : (nowRec s).event = AKM_PRESS ∧ (nowRec s).key = ((rd s.keys i).knum : Int)
  · rw [press_held K n AKM_ERROR s val millis i h hi hw hp]
    unfold nowRec at hp
    rw [h.logOK.nowp] at hp
    exact ⟨hp.1, hp.2, fun hne => absurd rfl hne⟩
  · obtain ⟨a1, a2, a3, a4, _⟩ := press_new K n AKM_ERROR s val millis i hK hK2 h hi hw hp
    have hl := (read_keeps K AKM_ERROR s val millis hK hK2 h.logOK).1
    unfold nowRec at a4
    rw [hl.nowp, a1] at a4
    rw [a3, a4]
    exact ⟨rfl, rfl, fun _ => rfl⟩

/-- C18, the claim as stated fails for high-end release.  With the values 0,
1022, 1023 and tolerance 1/10 the last key gets the window `[1023, 1022]`, which
is inverted and excludes its value 1023, and the reading 1023 after
`resetStates()` gives an idle record; with the values 0, 500, 900 and tolerance
1/2 the last key gets `[700, 862]`, which excludes its value 900. -/
theorem last_key_rejects_nominal :
    resolveRelease (-1) (sortedKeys [0, 1022, 1023] zeroKeys) = HIGH ∧
    (buildKeys 3 [0, 1022, 1023] (-1) 1 10 zeroKeys).take 3 =
      [⟨0, 0, 0, 510⟩, ⟨1, 1022, 511, 1022⟩, ⟨2, 1023, 1023, 1022⟩] ∧
    ¬ inWindow highObj.keys 2 1023 ∧ inRelease highObj.keys 2 1023 ∧
    rd (read 6 none highState 1023 9).1._log (read 6 none highState 1023 9).2 =
      ⟨1023, AKM_IDLE, -1, 7⟩ ∧
    (buildKeys 3 [0, 500, 900] (-1) 1 2 zeroKeys).take 3 =
      [⟨0, 0, 0, 249⟩, ⟨1, 500, 250, 699⟩, ⟨2, 900, 700, 862⟩] := by
  decide

/-- C18 as amended: for a valid calibration with at least three keys every key
has `kmin ≤ kval`; every key but the last has `kval ≤ kmax`; with low-end
release the last key has too; with high-end release the last key's `kmax` is the
break point of lines 201-202, at most 1022 and at least `kmin - 1`.  A reading
equal to the value of a key whose window holds it is returned by `read()` as a
press of that key. -/
theorem nominal_in_window (K : Nat) (AKM_ERROR : Option Int) (keyVals : List Nat)
    (releaseState : Int) (tolNum tolDen : Nat) (mem s : AnalogKeyMatrix)
    (hd : ValidSetup K keyVals tolNum tolDen mem)
    (hs : Ready K (calibrated keyVals.length keyVals releaseState tolNum tolDen mem) s)
    (i : Nat) (hi : i < keyVals.length) :
    (rd (buildKeys keyVals.length keyVals releaseState tolNum tolDen mem.keys) i).kmin ≤
      (rd (buildKeys keyVals.length keyVals releaseState tolNum tolDen mem.keys) i).kval ∧
    (i + 1 < keyVals.length ∨
        resolveRelease releaseState (sortedKeys keyVals mem.keys) = LOW →
      (rd (buildKeys keyVals.length keyVals releaseState tolNum tolDen mem.keys) i).kval ≤
        (rd (buildKeys keyVals.length keyVals releaseState tolNum tolDen mem.keys) i).kmax) ∧
    (i + 1 = keyVals.length →
        resolveRelease releaseState (sortedKeys keyVals mem.keys) = HIGH →
      (rd (buildKeys keyVals.length keyVals releaseState tolNum tolDen mem.keys) i).kmax =
        highBP (rd (buildKeys keyVals.length keyVals releaseState tolNum tolDen mem.keys) i).kmin
          tolNum tolDen ∧
      (rd (buildKeys keyVals.length keyVals releaseState tolNum tolDen mem.keys) i).kmax ≤ 1022 ∧
      (rd (buildKeys keyVals.length keyVals releaseState tolNum tolDen mem.keys) i).kmin ≤
        (rd (buildKeys keyVals.length keyVals releaseState tolNum tolDen mem.keys) i).kmax + 1) ∧
    ((rd (buildKeys keyVals.length keyVals releaseState tolNum tolDen mem.keys) i).kval ≤
        (rd (buildKeys keyVals.length keyVals releaseState tolNum tolDen mem.keys) i).kmax →
      ∀ millis : Nat,
        (rd (read K AKM_ERROR s
              ((rd (buildKeys keyVals.length keyVals releaseState tolNum tolDen mem.keys) i).kval
                : Int) millis).1._log
            (read K AKM_ERROR s
              ((rd (buildKeys keyVals.length keyVals releaseState tolNum tolDen mem.keys) i).kval
                : Int) millis).2).event = AKM_PRESS ∧
        (rd (read K AKM_ERROR s
              ((rd (buildKeys keyVals.length keyVals releaseState tolNum tolDen mem.keys) i).kval
                : Int) millis).1._log
            (read K AKM_ERROR s
              ((rd (buildKeys keyVals.length keyVals releaseState tolNum tolDen mem.keys) i).kval
                : Int) millis).2).key =
          ((rd (buildKeys keyVals.length keyVals releaseState tolNum tolDen mem.keys) i).knum
            : Int)) := by
  have hv := hd.calib
  have h3 := hv.three
  obtain ⟨b1, b2, b3, b4⟩ :=
    buildKeys_spec keyVals releaseState tolNum tolDen mem.keys hv.three hv.atMost hv.mem
  obtain ⟨t1, t2⟩ := sortedKeys_strict keyVals tolNum tolDen mem.keys hv
  have hkv := ((buildKeys_sameKV keyVals releaseState tolNum tolDen mem.keys).2 i).2
  have hok := buildKeys_tableOK keyVals releaseState tolNum tolDen mem.keys hv
  have hlow : (rd (buildKeys keyVals.length keyVals releaseState tolNum tolDen mem.keys) i).kmin ≤
      (rd (buildKeys keyVals.length keyVals releaseState tolNum tolDen mem.keys) i).kval := by
    rw [hkv]
    by_cases i0 : i = 0
    · subst i0
      rw [b3]
      split_ifs
      · omega
      · exact truncMul16_le _ _ _ hv.tol
    · rw [b1 i (by omega) (by omega)]
      exact (minOf_bounds _ _ (t1 (i - 1) i (by omega) hi) (t2 i hi)).2
  have hinner : i + 1 < keyVals.length →
      (rd (buildKeys keyVals.length keyVals releaseState tolNum tolDen mem.keys) i).kval ≤
        (rd (buildKeys keyVals.length keyVals releaseState tolNum tolDen mem.keys) i).kmax := by
    intro hlt
    have h1 := hok.adj i hlt
    have h2 := (minOf_bounds _ _ (t1 i (i + 1) (by omega) hlt) (t2 (i + 1) hlt)).1
    have h4 := b1 (i + 1) (by omega) (by omega)
    simp only [Nat.add_sub_cancel] at h4
    rw [← h4] at h2
    rw [hkv]
    omega
  refine ⟨hlow, fun hc => ?_, fun hlast hH => ?_, fun hin millis => ?_⟩
  · rcases hc with hlt | hL
    · exact hinner hlt
    · by_cases hlt : i + 1 < keyVals.length
      · exact hinner hlt
      · have e : i = keyVals.length - 1 := by omega
        have hne : ¬ resolveRelease releaseState (sortedKeys keyVals mem.keys) = HIGH := by
          rw [hL]; decide
        rw [e, b4, if_neg hne, ((buildKeys_sameKV keyVals releaseState tolNum tolDen mem.keys).2
          (keyVals.length - 1)).2]
        exact t2 (keyVals.length - 1) (by omega)
  · have e : i = keyVals.length - 1 := by omega
    have hk : (rd (buildKeys keyVals.length keyVals releaseState tolNum tolDen mem.keys) i).kmax =
        highBP (rd (buildKeys keyVals.length keyVals releaseState tolNum tolDen mem.keys) i).kmin
          tolNum tolDen := by
      rw [e, b4, if_pos hH, b1 (keyVals.length - 1) (by omega) (by omega)]
    have hb := highBP_bounds
      (rd (buildKeys keyVals.length keyVals releaseState tolNum tolDen mem.keys) i).kmin
      tolNum tolDen (by have := t2 i hi; rw [← hkv] at this; omega) hv.tol
    rw [hk]
    exact ⟨rfl, hb.2, hb.1⟩
  · have ht := tabled_of_ready K keyVals releaseState tolNum tolDen mem s hd hs
    have hkeys : s.keys =
        buildKeys keyVals.length keyVals releaseState tolNum tolDen mem.keys := hs.keys
    rw [← hkeys] at hin hlow ⊢
    have hw : inWindow s.keys i ((rd s.keys i).kval : Int) := by
      unfold inWindow
      omega
    obtain ⟨r1, r2, _⟩ := read_in_window K keyVals.length AKM_ERROR s _ millis i hd.sizeLo
      hd.sizeHi ht hi hw
    exact ⟨r1, r2⟩

/-- C18 as amended, on the scenario: key 1 accepts its value 500. -/
theorem nominal_in_window_witness :
    (1 < demoKeyVals.length ∧
      (rd (buildKeys 3 demoKeyVals (-1) 1 10 zeroKeys) 1).kval = 500) ∧
    ((rd (buildKeys demoKeyVals.length demoKeyVals (-1) 1 10 (zeroMem 48 6).keys) 1).kmin ≤
      (rd (buildKeys demoKeyVals.length demoKeyVals (-1) 1 10 (zeroMem 48 6).keys) 1).kval ∧
    (1 + 1 < demoKeyVals.length ∨
        resolveRelease (-1) (sortedKeys demoKeyVals (zeroMem 48 6).keys) = LOW →
      (rd (buildKeys demoKeyVals.length demoKeyVals (-1) 1 10 (zeroMem 48 6).keys) 1).kval ≤
        (rd (buildKeys demoKeyVals.length demoKeyVals (-1) 1 10 (zeroMem 48 6).keys) 1).kmax)) :=
  ⟨by decide,
    (nominal_in_window 6 none demoKeyVals (-1) 1 10 (zeroMem 48 6) demoPolled demo_valid
      demoPolled_ready 1 (by decide)).1,
    (nominal_in_window 6 none demoKeyVals (-1) 1 10 (zeroMem 48 6) demoPolled demo_valid
      demoPolled_ready 1 (by decide)).2.1⟩

/-- C16 (out-of-range samples): with `AKM_ERROR` defined as `-1`, in every
reachable state of a validly calibrated object a reading below 0 or above 1023
makes `read()` return the current slot with the record `val = v`, `event = -1`,
`key = -1` (and the clock value), leaving the cursor, the pointers `now`, `prev`,
`log[]` and every other slot as they were. -/
theorem out_of_range_error (K : Nat) (keyVals : List Nat) (releaseState : Int)
    (tolNum tolDen : Nat) (mem s : AnalogKeyMatrix)
    (hd : ValidSetup K keyVals tolNum tolDen mem)
    (hs : Reachable K (some (-1))
      (calibrated keyVals.length keyVals releaseState tolNum tolDen mem) s)
    (v : Int) (hv : v < 0 ∨ v > 1023) (millis : Nat) :
    (read K (some (-1)) s v millis).2 = s.now_i ∧
    (read K (some (-1)) s v millis).1.now_i = s.now_i ∧
    (read K (some (-1)) s v millis).1.now = s.now ∧
    (read K (some (-1)) s v millis).1.prev = s.prev ∧
    (read K (some (-1)) s v millis).1.log = s.log ∧
    rd (read K (some (-1)) s v millis).1._log (read K (some (-1)) s v millis).2 =
      ⟨v, -1, -1, millis⟩ ∧
    (∀ j, j ≠ s.now_i → rd (read K (some (-1)) s v millis).1._log j = rd s._log j) := by
  have hr := reachable_ready_valid K (some (-1)) keyVals releaseState tolNum tolDen mem s hd hs
  have ht := tabled_of_ready K keyVals releaseState tolNum tolDen mem s hd hr
  have hrel : inRelease s.keys s.nthKey v := by
    unfold inRelease
    rw [ht.nthKey]
    have := ht.table.top
    omega
  have hfire : errFires (some (-1)) v := ⟨rfl, hv⟩
  rw [read_error K (some (-1)) s v millis hrel hfire]
  have hcur : s.now_i < s._log.length := by rw [ht.logOK.slots]; exact ht.logOK.cur
  refine ⟨rfl, rfl, rfl, rfl, rfl, ?_, fun j hj => ?_⟩
  · show rd (setAt s._log s.now_i _) s.now_i = _
    rw [rd_setAt_eq _ _ _ hcur]
    rfl
  · show rd (setAt s._log s.now_i _) j = _
    rw [rd_setAt_ne _ _ _ _ hj]

/-- C16 on the scenario with error detection, for the readings -5 and 1028. -/
theorem out_of_range_error_witness :
    (((-5 : Int) < 0 ∨ (-5 : Int) > 1023) ∧ ((1028 : Int) < 0 ∨ (1028 : Int) > 1023)) ∧
    ((read 6 (some (-1)) errState (-5) 9).2 = errState.now_i ∧
    (read 6 (some (-1)) errState (-5) 9).1.now_i = errState.now_i ∧
    (read 6 (some (-1)) errState (-5) 9).1.now = errState.now ∧
    (read 6 (some (-1)) errState (-5) 9).1.prev = errState.prev ∧
    (read 6 (some (-1)) errState (-5) 9).1.log = errState.log ∧
    rd (read 6 (some (-1)) errState (-5) 9).1._log (read 6 (some (-1)) errState (-5) 9).2 =
      ⟨-5, -1, -1, 9⟩ ∧
    (∀ j, j ≠ errState.now_i →
      rd (read 6 (some (-1)) errState (-5) 9).1._log j = rd errState._log j)) ∧
    rd (read 6 (some (-1)) errState 1028 9).1._log (read 6 (some (-1)) errState 1028 9).2 =
      ⟨1028, -1, -1, 9⟩ :=
  ⟨by decide,
    out_of_range_error 6 demoKeyVals (-1) 1 10 (zeroMem 48 6) errState demo_valid
      (Reachable.reset 0 7 0 8) (-5) (by decide) 9,
    (out_of_range_error 6 demoKeyVals (-1) 1 10 (zeroMem 48 6) errState demo_valid
      (Reachable.reset 0 7 0 8) 1028 (by decide) 9).2.2.2.2.2.1⟩

/-- C15, the claim as stated fails: `resetStates()` does not classify its own
sample; when the sample is in the key range it calls `read()`, which takes a
sample of its own (line 251).  In the scenario, with the seed reading 500 (in
the window of key 1) and the second reading 0 the returned record is the idle
seed record with `val = 0`; with the second reading 900 it is a press of key 2
with `val = 900`. -/
theorem reset_classifies_second_sample :
    inWindow demoObj.keys 1 500 ∧
    rd (resetStates 6 none demoObj 500 7 0 8).1._log (resetStates 6 none demoObj 500 7 0 8).2 =
      ⟨0, AKM_IDLE, -1, 7⟩ ∧
    rd (resetStates 6 none demoObj 500 7 900 8).1._log
        (resetStates 6 none demoObj 500 7 900 8).2 =
      ⟨900, AKM_PRESS, 2, 8⟩ := by
  decide

/-- C15 as amended: `resetStates()`, called by the constructor or in any
reachable state, takes a sample `val` and a clock value `ms`, sets every one of
the `K` slots to the record `val`, idle, `-1`, `ms` and puts the cursor at slot
0.  When `val` is outside the key range it returns that record in slot 0.  When
`val` is inside the key range it returns what `read()` returns on a second
sample `val2` and clock value `ms2`: for `val2` in the window of row `i` the
press record `val2`, key of row `i`, `ms2`, in slot 1; for `val2` in the release
region the seeded idle record of slot 0 with `val = val2`.  So when the second
sample equals the first, the returned record is a press of the key whose window
holds it, with that value. -/
theorem reset_returns (K : Nat) (AKM_ERROR : Option Int) (keyVals : List Nat)
    (releaseState : Int) (tolNum tolDen : Nat) (mem st : AnalogKeyMatrix)
    (hd : ValidSetup K keyVals tolNum tolDen mem)
    (hst : st = calibrated keyVals.length keyVals releaseState tolNum tolDen mem ∨
      Reachable K AKM_ERROR (calibrated keyVals.length keyVals releaseState tolNum tolDen mem) st)
    (val : Int) (ms : Nat) (val2 : Int) (ms2 : Nat) :
    ((∀ j, j < K → rd (resetCore K st val ms)._log j = ⟨val, AKM_IDLE, -1, ms⟩) ∧
      (resetCore K st val ms).now_i = 0 ∧ (resetCore K st val ms).now = 0) ∧
    (inRelease (buildKeys keyVals.length keyVals releaseState tolNum tolDen mem.keys)
        (keyVals.length - 1) val →
      resetStates K AKM_ERROR st val ms val2 ms2 = (resetCore K st val ms, 0) ∧
      rd (resetStates K AKM_ERROR st val ms val2 ms2).1._log
          (resetStates K AKM_ERROR st val ms val2 ms2).2 = ⟨val, AKM_IDLE, -1, ms⟩) ∧
    (¬ inRelease (buildKeys keyVals.length keyVals releaseState tolNum tolDen mem.keys)
        (keyVals.length - 1) val →
      resetStates K AKM_ERROR st val ms val2 ms2 =
        read K AKM_ERROR (resetCore K st val ms) val2 ms2 ∧
      (∀ i, i < keyVals.length →
        inWindow (buildKeys keyVals.length keyVals releaseState tolNum tolDen mem.keys) i val2 →
        (resetStates K AKM_ERROR st val ms val2 ms2).1.now_i = 1 ∧
        (resetStates K AKM_ERROR st val ms val2 ms2).2 = 1 ∧
        rd (resetStates K AKM_ERROR st val ms val2 ms2).1._log
            (resetStates K AKM_ERROR st val ms val2 ms2).2 =
          ⟨val2, AKM_PRESS,
            ((rd (buildKeys keyVals.length keyVals releaseState tolNum tolDen mem.keys) i).knum
              : Int), ms2⟩) ∧
      (inRelease (buildKeys keyVals.length keyVals releaseState tolNum tolDen mem.keys)
          (keyVals.length - 1) val2 → ¬ errFires AKM_ERROR val2 →
        (resetStates K AKM_ERROR st val ms val2 ms2).1.now_i = 0 ∧
        (resetStates K AKM_ERROR st val ms val2 ms2).2 = 0 ∧
        rd (resetStates K AKM_ERROR st val ms val2 ms2).1._log
            (resetStates K AKM_ERROR st val ms val2 ms2).2 = ⟨val2, AKM_IDLE, -1, ms⟩) ∧
      (val2 = val → ∃ i, i < keyVals.length ∧
        inWindow (buildKeys keyVals.length keyVals releaseState tolNum tolDen mem.keys) i val ∧
        rd (resetStates K AKM_ERROR st val ms val2 ms2).1._log
            (resetStates K AKM_ERROR st val ms val2 ms2).2 =
          ⟨val, AKM_PRESS,
            ((rd (buildKeys keyVals.length keyVals releaseState tolNum tolDen mem.keys) i).knum
              : Int), ms2⟩)) := by
  have hK := hd.sizeLo
  have hK2 := hd.sizeHi
  have hfacts : st._log.length = K ∧ st.log.length = K ∧
      st.keys = (calibrated keyVals.length keyVals releaseState tolNum tolDen mem).keys ∧
      st.numOfKeys = (calibrated keyVals.length keyVals releaseState tolNum tolDen mem).numOfKeys ∧
      st.nthKey = (calibrated keyVals.length keyVals releaseState tolNum tolDen mem).nthKey := by
    rcases hst with e | hr
    · rw [e]
      exact ⟨hd.slots, hd.ptrs, rfl, rfl, rfl⟩
    · have := reachable_ready_valid K AKM_ERROR keyVals releaseState tolNum tolDen mem st hd hr
      exact ⟨this.logOK.slots, this.logOK.ptrs, this.keys, this.numOfKeys, this.nthKey⟩
  obtain ⟨f1, f2, f3, f4, f5⟩ := hfacts
  have hready : Ready K (calibrated keyVals.length keyVals releaseState tolNum tolDen mem)
      (resetCore K st val ms) := ready_resetCore K _ st val ms hK hK2 f1 f2 f3 f4 f5
  obtain ⟨c1, c2, c3, c4, c5, c6, c7, c8⟩ := resetCore_spec K st val ms (by omega) (by omega) f1 f2
  have ht := tabled_of_ready K keyVals releaseState tolNum tolDen mem _ hd hready
  have hkeys : (resetCore K st val ms).keys =
      buildKeys keyVals.length keyVals releaseState tolNum tolDen mem.keys := hready.keys
  have hnow : (resetCore K st val ms).now = 0 := by rw [c1.nowp, c5]
  have hrec0 : rd (resetCore K st val ms)._log 0 = ⟨val, AKM_IDLE, -1, ms⟩ := c7 0 (by omega)
  have hnext : ((resetCore K st val ms).now_i + 1) % K = 1 := by
    rw [c5]
    exact Nat.mod_eq_of_lt (by omega)
  rw [← hkeys]
  have hpress : ∀ i, i < keyVals.length → ∀ w : Int,
      inWindow (resetCore K st val ms).keys i w →
      (read K AKM_ERROR (resetCore K st val ms) w ms2).1.now_i = 1 ∧
      (read K AKM_ERROR (resetCore K st val ms) w ms2).2 = 1 ∧
      rd (read K AKM_ERROR (resetCore K st val ms) w ms2).1._log
          (read K AKM_ERROR (resetCore K st val ms) w ms2).2 =
        ⟨w, AKM_PRESS, ((rd (resetCore K st val ms).keys i).knum : Int), ms2⟩ := by
    intro i hi w hw
    have hnot : ¬ ((nowRec (resetCore K st val ms)).event = AKM_PRESS ∧
        (nowRec (resetCore K st val ms)).key =
          ((rd (resetCore K st val ms).keys i).knum : Int)) := by
      unfold nowRec
      rw [hnow, hrec0]
      intro h
      have hne : AKM_IDLE ≠ AKM_PRESS := by decide
      exact hne h.1
    obtain ⟨a1, a2, a3, _, _⟩ := press_new K keyVals.length AKM_ERROR _ w ms2 i hK hK2 ht hi hw
      hnot
    obtain ⟨_, _, r3⟩ := read_in_window K keyVals.length AKM_ERROR _ w ms2 i hK hK2 ht hi hw
    exact ⟨by rw [a1, hnext], by rw [a3, hnext], r3 a2⟩
  refine ⟨⟨c7, c5, hnow⟩, fun hrel => ?_, fun hin => ?_⟩
  · have e : resetStates K AKM_ERROR st val ms val2 ms2 = (resetCore K st val ms, 0) := by
      rw [resetStates_eq, ht.nthKey, if_neg (not_not_intro hrel), hnow]
    rw [e]
    exact ⟨rfl, hrec0⟩
  · have e : resetStates K AKM_ERROR st val ms val2 ms2 =
        read K AKM_ERROR (resetCore K st val ms) val2 ms2 := by
      rw [resetStates_eq, ht.nthKey, if_pos hin]
    rw [e]
    refine ⟨rfl, fun i hi hw => hpress i hi val2 hw, fun hrel2 he2 => ?_, fun h2 => ?_⟩
    · have hidle : (rd (resetCore K st val ms)._log (resetCore K st val ms).now_i).event =
          AKM_IDLE := by
        rw [c5, hrec0]
      rw [← ht.nthKey] at hrel2
      rw [read_idle_continues K AKM_ERROR _ val2 ms2 hrel2 he2 hidle, c5]
      refine ⟨rfl, rfl, ?_⟩
      show rd (setAt (resetCore K st val ms)._log 0 _) 0 = _
      rw [rd_setAt_eq _ _ _ (by rw [c1.slots]; omega), hrec0]
    · obtain ⟨i, hi, _, hw, _⟩ := keyLoop_finds keyVals.length _ ht.table (by
        have := hd.calib.three; omega) val hin
      refine ⟨i, hi, hw, ?_⟩
      rw [h2]
      exact (hpress i hi val hw).2.2

/-- C15 as amended, on the scenario: the constructor's `resetStates()` with both
samples 500. -/
theorem reset_returns_witness :
    ¬ inRelease (buildKeys demoKeyVals.length demoKeyVals (-1) 1 10 (zeroMem 48 6).keys)
        (demoKeyVals.length - 1) 500 ∧
    (resetStates 6 none demoObj 500 7 500 8 = read 6 none (resetCore 6 demoObj 500 7) 500 8 ∧
      rd (resetStates 6 none demoObj 500 7 500 8).1._log
          (resetStates 6 none demoObj 500 7 500 8).2 = ⟨500, AKM_PRESS, 1, 8⟩) :=
  ⟨by decide,
    ((reset_returns 6 none demoKeyVals (-1) 1 10 (zeroMem 48 6) demoObj demo_valid (Or.inl rfl)
      500 7 500 8).2.2 (by decide)).1,
    by decide⟩

theorem copyLoop_frame (keyVals : List Nat) (fuel : Nat) :
    ∀ (i : Nat) (keys : List KeyRow),
      (copyLoop keyVals fuel i keys).length = keys.length ∧
      ∀ r, (r < i ∨ i + fuel ≤ r) → rd (copyLoop keyVals fuel i keys) r = rd keys r := by
  induction fuel with
  | zero => intro i keys; exact ⟨rfl, fun _ _ => rfl⟩
  | succ f ih =>
    intro i keys
    obtain ⟨a1, a2⟩ := ih (i + 1)
      (setAt keys i { rd keys i with knum := i, kval := keyVals.getD i 0 })
    simp only [copyLoop]
    refine ⟨by rw [a1, length_setAt], fun r hr => ?_⟩
    rw [a2 r (by omega), rd_setAt_ne _ _ _ _ (by omega)]

theorem swapStep_frame (i j r : Nat) (keys : List KeyRow) (hi : r ≠ i) (hj : r ≠ j) :
    rd (swapStep i j keys) r = rd keys r := by
  unfold swapStep
  simp only []
  split
  · rw [rd_setAt_ne _ _ _ _ hj, rd_setAt_ne _ _ _ _ hi, rd_setAt_ne _ _ _ _ hj,
      rd_setAt_ne _ _ _ _ hi]
  · rfl

theorem sortInner_frame (i : Nat) (fuel : Nat) :
    ∀ (j : Nat) (keys : List KeyRow),
      (sortInner i fuel j keys).length = keys.length ∧
      ∀ r, r ≠ i → (r < j ∨ j + fuel ≤ r) → rd (sortInner i fuel j keys) r = rd keys r := by
  induction fuel with
  | zero => intro j keys; exact ⟨rfl, fun _ _ _ => rfl⟩
  | succ f ih =>
    intro j keys
    obtain ⟨a1, a2⟩ := ih (j + 1) (swapStep i j keys)
    simp only [sortInner]
    refine ⟨by rw [a1, length_swapStep], fun r hi hr => ?_⟩
    rw [a2 r hi (by omega), swapStep_frame i j r keys hi (by omega)]

theorem sortOuter_frame (n : Nat) (fuel : Nat) :
    ∀ (i : Nat) (keys : List KeyRow), i + fuel ≤ n →
      (sortOuter n fuel i keys).length = keys.length ∧
      ∀ r, n ≤ r → rd (sortOuter n fuel i keys) r = rd keys r := by
  induction fuel with
  | zero => intro i keys _; exact ⟨rfl, fun _ _ => rfl⟩
  | succ f ih =>
    intro i keys hin
    obtain ⟨a1, a2⟩ := ih (i + 1) (sortInner i (n - (i + 1)) (i + 1) keys) (by omega)
    obtain ⟨b1, b2⟩ := sortInner_frame i (n - (i + 1)) (i + 1) keys
    simp only [sortOuter]
    refine ⟨by rw [a1, b1], fun r hr => ?_⟩
    rw [a2 r hr, b2 r (by omega) (by omega)]

theorem limitsBody_frame (nthKey i r : Nat) (keys : List KeyRow) (h1 : r ≠ i) (h2 : r ≠ i - 1)
    (h3 : r ≠ nthKey) : rd (limitsBody nthKey i keys) r = rd keys r := by
  unfold limitsBody
  simp only []
  split
  · rw [rd_setAt_ne _ _ _ _ h1, rd_setAt_ne _ _ _ _ h3, rd_setAt_ne _ _ _ _ h2,
      rd_setAt_ne _ _ _ _ h1]
  · rw [rd_setAt_ne _ _ _ _ h2, rd_setAt_ne _ _ _ _ h1]

theorem limitsLoop_frame (nthKey : Nat) (fuel : Nat) :
    ∀ (i : Nat) (keys : List KeyRow), fuel = 0 ∨ i + fuel ≤ nthKey →
      ∀ r, nthKey < r → rd (limitsLoop nthKey fuel i keys) r = rd keys r := by
  induction fuel with
  | zero => intro i keys _ r _; rfl
  | succ f ih =>
    intro i keys hin r hr
    simp only [limitsLoop]
    rw [ih (i + 1) _ (by omega) r hr, limitsBody_frame nthKey i r keys (by omega) (by omega)
      (by omega)]

theorem setRelease_frame (releaseState : Int) (tolNum tolDen nthKey r : Nat)
    (keys : List KeyRow) (h0 : r ≠ 0) (h1 : r ≠ nthKey) :
    rd (setRelease releaseState tolNum tolDen nthKey keys) r = rd keys r := by
  unfold setRelease
  simp only []
  split
  · rw [rd_setAt_ne _ _ _ _ h1, rd_setAt_ne _ _ _ _ h0]
  · rw [rd_setAt_ne _ _ _ _ h0, rd_setAt_ne _ _ _ _ h1]

/-- With `1 ≤ numOfKeys ≤ 255` the constructor leaves every row from
`numOfKeys` on as it was, and the storage keeps its size. -/
theorem buildKeys_frame (numOfKeys : Nat) (keyVals : List Nat) (releaseState : Int)
    (tolNum tolDen : Nat) (keys0 : List KeyRow) (h1 : 1 ≤ numOfKeys) (h255 : numOfKeys ≤ 255) :
    (buildKeys numOfKeys keyVals releaseState tolNum tolDen keys0).length = keys0.length ∧
    ∀ r, numOfKeys ≤ r →
      rd (buildKeys numOfKeys keyVals releaseState tolNum tolDen keys0) r = rd keys0 r := by
  have hn : (numOfKeys + 255) % 256 = numOfKeys - 1 := by omega
  obtain ⟨c1, c2⟩ := copyLoop_frame keyVals numOfKeys 0 keys0
  obtain ⟨s1, s2⟩ := sortOuter_frame numOfKeys numOfKeys 0
    (copyLoop keyVals numOfKeys 0 keys0) (by omega)
  unfold buildKeys
  simp only [hn]
  constructor
  · rw [(setRelease_keeps _ _ _ _ _).1, (limitsLoop_keeps _ _ _ _).1]
    unfold sortKeys
    rw [s1, c1]
  · intro r hr
    have e0 : r ≠ 0 := by omega
    have e1 : r ≠ numOfKeys - 1 := by omega
    have e2 : numOfKeys - 1 < r := by omega
    have e3 : numOfKeys - 1 - 1 = 0 ∨ 1 + (numOfKeys - 1 - 1) ≤ numOfKeys - 1 := by omega
    rw [setRelease_frame _ _ _ (numOfKeys - 1) r _ e0 e1,
      limitsLoop_frame (numOfKeys - 1) (numOfKeys - 1 - 1) 1 _ e3 r e2]
    unfold sortKeys
    rw [s2 r hr, c2 r (Or.inr (by omega))]

/-- C14, the claim as stated fails: the constructor has no check of
`numOfKeys`.  With the 49 key values 10, 20, ..., 490 and one zeroed row of
storage behind the table, row 48, outside the 48-row table, is written: it holds
one of the key values afterwards.  With one key value the constructor builds an
object whose `read()` reports the reading 500 as a press of key 0. -/
theorem constructor_has_no_guard :
    rd fortyNineRows 48 = ⟨0, 0, 0, 0⟩ ∧
    10 ≤ (rd (buildKeys 49 fortyNineVals (-1) 1 10 fortyNineRows) 48).kval ∧
    rd (buildKeys 49 fortyNineVals (-1) 1 10 fortyNineRows) 48 ≠ rd fortyNineRows 48 ∧
    (construct 6 none 1 [300] (-1) 1 10 (zeroMem 48 6) 0 7 0 8).numOfKeys = 1 ∧
    nowRec (read 6 none (construct 6 none 1 [300] (-1) 1 10 (zeroMem 48 6) 0 7 0 8) 500 9).1 =
      ⟨500, AKM_PRESS, 0, 9⟩ := by
  have hlen : fortyNineVals.length = 49 := by decide
  have hrows : fortyNineRows.length = 49 := by decide
  have hmemb := sortedKeys_kval_mem fortyNineVals fortyNineRows (by rw [hlen, hrows]) 48
    (by rw [hlen]; decide)
  have hge : ∀ v ∈ fortyNineVals, 10 ≤ v := by decide
  have hkv := ((buildKeys_sameKV fortyNineVals (-1) 1 10 fortyNineRows).2 48).2
  rw [hlen] at hkv
  have h10 : 10 ≤ (rd (buildKeys 49 fortyNineVals (-1) 1 10 fortyNineRows) 48).kval := by
    rw [hkv]
    exact hge _ hmemb
  have h0 : rd fortyNineRows 48 = ⟨0, 0, 0, 0⟩ := by decide
  refine ⟨h0, h10, fun e => ?_, by decide, by decide⟩
  rw [e, h0] at h10
  exact absurd h10 (by decide)

/-- C14 as amended: the constructor checks nothing and builds an object for
every `numOfKeys`.  For `1 ≤ numOfKeys ≤ 255` key values and storage that holds
at least that many rows: the object records `numOfKeys` and `nthKey = numOfKeys
- 1`; every row below `numOfKeys` holds the number and the value of an input
key, whether that row is inside the 48-row table or behind it; every row from
`numOfKeys` on is left as it was, so that with `numOfKeys ≤ 48` nothing outside
the table is written. -/
theorem constructor_writes (keyVals : List Nat) (releaseState : Int) (tolNum tolDen : Nat)
    (mem : AnalogKeyMatrix) (h1 : 1 ≤ keyVals.length) (h255 : keyVals.length ≤ 255)
    (hst : keyVals.length ≤ mem.keys.length) :
    ((calibrated keyVals.length keyVals releaseState tolNum tolDen mem).numOfKeys =
        keyVals.length ∧
      (calibrated keyVals.length keyVals releaseState tolNum tolDen mem).nthKey =
        keyVals.length - 1 ∧
      (calibrated keyVals.length keyVals releaseState tolNum tolDen mem).keys.length =
        mem.keys.length) ∧
    (∀ r, r < keyVals.length →
      (rd (calibrated keyVals.length keyVals releaseState tolNum tolDen mem).keys r).knum <
        keyVals.length ∧
      (rd (calibrated keyVals.length keyVals releaseState tolNum tolDen mem).keys r).kval =
        keyVals.getD
          (rd (calibrated keyVals.length keyVals releaseState tolNum tolDen mem).keys r).knum 0) ∧
    (∀ r, keyVals.length ≤ r →
      rd (calibrated keyVals.length keyVals releaseState tolNum tolDen mem).keys r =
        rd mem.keys r) ∧
    (keyVals.length ≤ AKM_MaxNumOfKeys → ∀ r, AKM_MaxNumOfKeys ≤ r →
      rd (calibrated keyVals.length keyVals releaseState tolNum tolDen mem).keys r =
        rd mem.keys r) := by
  obtain ⟨f1, f2⟩ := buildKeys_frame keyVals.length keyVals releaseState tolNum tolDen mem.keys
    h1 h255
  obtain ⟨_, ⟨p1, _⟩, _⟩ := sortedKeys_spec keyVals mem.keys hst
  have hkv := (buildKeys_sameKV keyVals releaseState tolNum tolDen mem.keys).2
  have hn : (keyVals.length + 255) % 256 = keyVals.length - 1 := by omega
  refine ⟨⟨rfl, hn, f1⟩, fun r hr => ?_, f2, fun h48 r hr => f2 r (by omega)⟩
  obtain ⟨q1, q2⟩ := p1 r hr
  show (rd (buildKeys keyVals.length keyVals releaseState tolNum tolDen mem.keys) r).knum <
      keyVals.length ∧
    (rd (buildKeys keyVals.length keyVals releaseState tolNum tolDen mem.keys) r).kval =
      keyVals.getD
        (rd (buildKeys keyVals.length keyVals releaseState tolNum tolDen mem.keys) r).knum 0
  rw [(hkv r).1, (hkv r).2]
  exact ⟨q1, q2⟩

/-- C14 as amended, on the scenario: three keys, nothing written from row 3 on. -/
theorem constructor_writes_witness :
    (1 ≤ demoKeyVals.length ∧ demoKeyVals.length ≤ 255 ∧
      demoKeyVals.length ≤ (zeroMem 48 6).keys.length) ∧
    (demoKeyVals.length ≤ AKM_MaxNumOfKeys → ∀ r, AKM_MaxNumOfKeys ≤ r →
      rd (calibrated demoKeyVals.length demoKeyVals (-1) 1 10 (zeroMem 48 6)).keys r =
        rd (zeroMem 48 6).keys r) :=
  ⟨by decide,
    (constructor_writes demoKeyVals (-1) 1 10 (zeroMem 48 6) (by decide) (by decide)
      (by decide)).2.2.2⟩

/-! ### Well-formed records (error detection disabled) -/

theorem not_errFires_none (val : Int) : ¬ errFires none val := by
  unfold errFires
  intro h
  exact absurd h.1 (by decide)

/-- Without error detection a read does one of three things: an idle
continuation, which rewrites `val` of the idle current record; nothing; or an
advance with a well-formed record that is adjacent to the record that was
current. -/
theorem read_step (K n : Nat) (s : AnalogKeyMatrix) (val : Int) (millis : Nat)
    (h : KeyedOK K n s) :
    ((rd s._log s.now_i).event = AKM_IDLE ∧
      read K none s val millis =
        ({ s with _log := setAt s._log s.now_i { rd s._log s.now_i with val := val } },
          s.now_i)) ∨
    read K none s val millis = (s, s.now_i) ∨
    (∃ event key, read K none s val millis =
        readTail K s ((s.now_i + 1) % K) val event key millis ∧
      RecOK n ⟨val, event, key, millis⟩ ∧
      Adjacent ⟨val, event, key, millis⟩ (rd s._log s.now_i)) := by
  have hcur := h.recs s.now_i h.logOK.cur
  have hnone := not_errFires_none val
  have hIR : AKM_IDLE ≠ AKM_RELEASE := by decide
  have hIP : AKM_IDLE ≠ AKM_PRESS := by decide
  have hRP : AKM_RELEASE ≠ AKM_PRESS := by decide
  by_cases hr : inRelease s.keys s.nthKey val
  · by_cases hi : (rd s._log s.now_i).event = AKM_IDLE
    · exact Or.inl ⟨hi, read_idle_continues K none s val millis hr hnone hi⟩
    · refine Or.inr (Or.inr ?_)
      unfold RecOK at hcur
      rcases hcur with ⟨c1, _⟩ | ⟨c1, c2, c3⟩
      · exact absurd c1 hi
      · rcases c1 with c1 | c1
        · have h2 : ¬ (rd s._log s.now_i).event ≥ AKM_PRESS := by
            rw [c1]; decide
          refine ⟨AKM_IDLE, -1, read_first_idle K none s val millis hr hnone hi h2, ?_, ?_⟩
          · exact Or.inl ⟨rfl, rfl⟩
          · exact ⟨fun e => absurd e hIR, fun _ => c1, fun e => absurd e hIP⟩
        · have h2 : (rd s._log s.now_i).event ≥ AKM_PRESS := by
            rw [c1]
          refine ⟨AKM_RELEASE, (rd s._log s.now_i).key,
            read_release K none s val millis hr hnone h2, ?_, ?_⟩
          · exact Or.inr ⟨Or.inl rfl, c2, c3⟩
          · exact ⟨fun _ => ⟨c1, rfl⟩, fun e => absurd e.symm hIR, fun e => absurd e hRP⟩
  · cases hk : keyLoop s.keys val s.numOfKeys 0 with
    | none =>
      have h1 := keyLoop_none s.keys val s.numOfKeys 0 hk s.nthKey (by omega)
        (by rw [h.numOfKeys, h.nthKey]; have := h.one; omega)
      unfold inRelease at hr
      omega
    | some i =>
      obtain ⟨_, a2, _, _⟩ := keyLoop_some s.keys val i s.numOfKeys 0 hk
      have hi : i < n := by rw [h.numOfKeys] at a2; omega
      by_cases hs : (rd s._log s.now_i).event = AKM_PRESS ∧
          (rd s._log s.now_i).key = ((rd s.keys i).knum : Int)
      · exact Or.inr (Or.inl (read_same_key K none s val millis i hr hk hs))
      · refine Or.inr (Or.inr ⟨AKM_PRESS, ((rd s.keys i).knum : Int),
          read_press K none s val millis i hr hk hs, ?_, ?_⟩)
        · have := h.knum i hi
          refine Or.inr ⟨Or.inr rfl, ?_, ?_⟩
          · show (0 : Int) ≤ ((rd s.keys i).knum : Int)
            omega
          · show ((rd s.keys i).knum : Int) < (n : Int)
            omega
        · exact ⟨fun e => absurd e.symm hRP, fun e => absurd e.symm hIP, fun _ => hs⟩

theorem keyedOK_read (K n : Nat) (s : AnalogKeyMatrix) (val : Int) (millis : Nat)
    (hK : 2 ≤ K) (hK2 : K ≤ 127) (h : KeyedOK K n s) :
    KeyedOK K n (read K none s val millis).1 := by
  obtain ⟨k1, k2, k3, k4, _⟩ := read_keeps K none s val millis hK hK2 h.logOK
  refine ⟨k1, h.one, k3.trans h.numOfKeys, k4.trans h.nthKey, by rw [k2]; exact h.knum, ?_⟩
  have hl := h.logOK
  rcases read_step K n s val millis h with ⟨hidle, e⟩ | e | ⟨ev, key, e, hrec, _⟩
  · rw [e]
    intro j hj
    show RecOK n (rd (setAt s._log s.now_i _) j)
    by_cases c : j = s.now_i
    · rw [c, rd_setAt_eq _ _ _ (by rw [hl.slots]; exact hl.cur)]
      exact h.recs s.now_i hl.cur
    · rw [rd_setAt_ne _ _ _ _ c]
      exact h.recs j hj
  · rw [e]
    exact h.recs
  · rw [e]
    obtain ⟨_, _, _, _, b5, b6⟩ := advance_facts K s val ev key millis hK hK2 hl
    intro j hj
    by_cases c : j = (s.now_i + 1) % K
    · rw [c, b5]
      exact hrec
    · rw [b6 j c]
      exact h.recs j hj

theorem keyedOK_resetCore (K n : Nat) (s : AnalogKeyMatrix) (val : Int) (ms : Nat)
    (hK : 2 ≤ K) (hK2 : K ≤ 127) (h1 : s._log.length = K) (h2 : s.log.length = K)
    (hn : 1 ≤ n) (hnum : s.numOfKeys = n) (hnth : s.nthKey = n - 1)
    (hknum : ∀ r, r < n → (rd s.keys r).knum < n) :
    KeyedOK K n (resetCore K s val ms) := by
  obtain ⟨c1, c2, c3, c4, _, _, c7, _⟩ := resetCore_spec K s val ms (by omega) (by omega) h1 h2
  refine ⟨c1, hn, c3.trans hnum, c4.trans hnth, by rw [c2]; exact hknum, fun j hj => ?_⟩
  rw [c7 j hj]
  exact Or.inl ⟨rfl, rfl⟩

theorem keyedOK_resetStates (K n : Nat) (s : AnalogKeyMatrix) (val : Int) (ms : Nat)
    (val2 : Int) (ms2 : Nat)
    (hK : 2 ≤ K) (hK2 : K ≤ 127) (h1 : s._log.length = K) (h2 : s.log.length = K)
    (hn : 1 ≤ n) (hnum : s.numOfKeys = n) (hnth : s.nthKey = n - 1)
    (hknum : ∀ r, r < n → (rd s.keys r).knum < n) :
    KeyedOK K n (resetStates K none s val ms val2 ms2).1 := by
  have hc := keyedOK_resetCore K n s val ms hK hK2 h1 h2 hn hnum hnth hknum
  rw [resetStates_eq]
  by_cases c : inRelease (resetCore K s val ms).keys (resetCore K s val ms).nthKey val
  · rw [if_neg (not_not_intro c)]
    exact hc
  · rw [if_pos c]
    exact keyedOK_read K n _ val2 ms2 hK hK2 hc

theorem reachable_keyedOK (K n : Nat) (mem s : AnalogKeyMatrix)
    (hK : 2 ≤ K) (hK2 : K ≤ 127) (h1 : mem._log.length = K) (h2 : mem.log.length = K)
    (hn : 1 ≤ n) (hnum : mem.numOfKeys = n) (hnth : mem.nthKey = n - 1)
    (hknum : ∀ r, r < n → (rd mem.keys r).knum < n)
    (h : Reachable K none mem s) : KeyedOK K n s := by
  induction h with
  | reset val ms val2 ms2 =>
    exact keyedOK_resetStates K n mem val ms val2 ms2 hK hK2 h1 h2 hn hnum hnth hknum
  | read s val ms _ ih => exact keyedOK_read K n s val ms hK hK2 ih
  | again s val ms val2 ms2 _ ih =>
    exact keyedOK_resetStates K n s val ms val2 ms2 hK hK2 ih.logOK.slots ih.logOK.ptrs hn
      ih.numOfKeys ih.nthKey ih.knum

/-- The rows of the table built from `n` key values carry key numbers below `n`. -/
theorem buildKeys_knum_lt (keyVals : List Nat) (releaseState : Int) (tolNum tolDen : Nat)
    (keys0 : List KeyRow) (hst : keyVals.length ≤ keys0.length) :
    ∀ r, r < keyVals.length →
      (rd (buildKeys keyVals.length keyVals releaseState tolNum tolDen keys0) r).knum <
        keyVals.length := by
  intro r hr
  obtain ⟨_, ⟨p1, _⟩, _⟩ := sortedKeys_spec keyVals keys0 hst
  rw [((buildKeys_sameKV keyVals releaseState tolNum tolDen keys0).2 r).1]
  exact (p1 r hr).1

/-- C19 (record well-formedness): without error detection, for `1 ≤ numOfKeys ≤
48` key values of any kind and `2 ≤ K ≤ 127`, in every state reachable from
`resetStates()` by reads of arbitrary integer samples every one of the `K` slots
has event 0, 1 or 2, never the initial `-1` of the locals of `read()`; its key
is `-1` exactly when the event is idle, and is a key number in
`[0, numOfKeys)` when the event is press or release. -/
theorem records_well_formed (K : Nat) (keyVals : List Nat) (releaseState : Int)
    (tolNum tolDen : Nat) (mem s : AnalogKeyMatrix)
    (h1 : 1 ≤ keyVals.length) (h48 : keyVals.length ≤ AKM_MaxNumOfKeys)
    (hmem : mem.keys.length = AKM_MaxNumOfKeys)
    (hK : 2 ≤ K) (hK2 : K ≤ 127) (hl1 : mem._log.length = K) (hl2 : mem.log.length = K)
    (hs : Reachable K none (calibrated keyVals.length keyVals releaseState tolNum tolDen mem) s)
    (j : Nat) (hj : j < K) :
    ((rd s._log j).event = AKM_IDLE ∨ (rd s._log j).event = AKM_RELEASE ∨
      (rd s._log j).event = AKM_PRESS) ∧
    (rd s._log j).event ≠ -1 ∧
    ((rd s._log j).key = -1 ↔ (rd s._log j).event = AKM_IDLE) ∧
    ((rd s._log j).event = AKM_PRESS ∨ (rd s._log j).event = AKM_RELEASE →
      0 ≤ (rd s._log j).key ∧ (rd s._log j).key < (keyVals.length : Int)) := by
  have hnth : (calibrated keyVals.length keyVals releaseState tolNum tolDen mem).nthKey =
      keyVals.length - 1 := calibrated_nthKey keyVals releaseState tolNum tolDen mem h1 h48
  have hk := reachable_keyedOK K keyVals.length
    (calibrated keyVals.length keyVals releaseState tolNum tolDen mem) s hK hK2 hl1 hl2 h1 rfl hnth
    (buildKeys_knum_lt keyVals releaseState tolNum tolDen mem.keys (by omega)) hs
  have hrec := hk.recs j hj
  unfold RecOK at hrec
  simp only [AKM_IDLE, AKM_RELEASE, AKM_PRESS] at hrec ⊢
  omega

/-- C19 on the scenario, for slot 1 while key 1 is pressed. -/
theorem records_well_formed_witness :
    ((1 ≤ demoKeyVals.length ∧ demoKeyVals.length ≤ AKM_MaxNumOfKeys) ∧
      (zeroMem 48 6).keys.length = AKM_MaxNumOfKeys ∧ (2 ≤ 6 ∧ 6 ≤ 127) ∧
      (zeroMem 48 6)._log.length = 6 ∧ (zeroMem 48 6).log.length = 6 ∧ 1 < 6) ∧
    (((rd demoPressed._log 1).event = AKM_IDLE ∨ (rd demoPressed._log 1).event = AKM_RELEASE ∨
      (rd demoPressed._log 1).event = AKM_PRESS) ∧
    (rd demoPressed._log 1).event ≠ -1 ∧
    ((rd demoPressed._log 1).key = -1 ↔ (rd demoPressed._log 1).event = AKM_IDLE) ∧
    ((rd demoPressed._log 1).event = AKM_PRESS ∨ (rd demoPressed._log 1).event = AKM_RELEASE →
      0 ≤ (rd demoPressed._log 1).key ∧
      (rd demoPressed._log 1).key < (demoKeyVals.length : Int))) :=
  ⟨by decide,
    records_well_formed 6 demoKeyVals (-1) 1 10 (zeroMem 48 6) demoPressed (by decide)
      (by decide) (by decide) (by decide) (by decide) (by decide) (by decide)
      demoPressed_reachable 1 (by decide)⟩

/-! ### Adjacent records of the history -/

theorem histAdj_push (sd r : AKM_State) (h : List AKM_State)
    (ha : HistAdj sd h) (hr : Adjacent r (h.getD 0 sd)) : HistAdj sd (r :: h) := by
  intro j hj
  cases j with
  | zero => simpa using hr
  | succ m =>
    have := ha m (by simpa using hj)
    simpa using this

theorem histAdj_replace (sd r c : AKM_State) (t : List AKM_State)
    (ha : HistAdj sd (c :: t)) (he : r.event = c.event) (hk : r.key = c.key) :
    HistAdj sd (r :: t) := by
  intro j hj
  cases j with
  | zero =>
    have h0 := ha 0 (by simpa using hj)
    simp only [List.getD_cons_zero, List.getD_cons_succ] at h0 ⊢
    unfold Adjacent at h0 ⊢
    rw [he, hk]
    exact h0
  | succ m =>
    have := ha (m + 1) (by simpa using hj)
    simpa using this

/-- In a state with history `h`, `log[n]` designates the `n`-th record of the
history, or the seed record beyond it. -/
theorem histInv_logRec (K : Nat) (s : AnalogKeyMatrix) (h : List AKM_State) (sd : AKM_State)
    (hK : 2 ≤ K) (hi : HistInv K s h sd) (n : Nat) (hn : n < K) :
    logRec s n = h.getD n sd := by
  have hget : ∀ m, h.length ≤ m → h.getD m sd = sd := by
    intro m hm
    simp [List.getD_eq_getElem?_getD, List.getElem?_eq_none hm]
  unfold logRec
  rcases hi.ptrs with p | ⟨p1, p2, p3⟩
  · rw [p n hn, rdAt_natCast]
    exact hi.slots n hn
  · rw [p3 n hn, rdAt_natCast]
    by_cases c : n = 0
    · subst c
      have := hi.slots 0 (by omega)
      rw [p2] at this
      have e : back K 0 0 = 0 := by unfold back; simp
      rw [e] at this
      exact this
    · have := hi.slots (K - n) (by omega)
      rw [p2] at this
      have e : back K 0 (K - n) = n := by
        unfold back
        split_ifs <;> omega
      rw [e] at this
      rw [this, hget (K - n) (by omega), hget n (by omega)]

/-- Without error detection a read keeps the history invariant, the well-formed
records and the adjacency of the history. -/
theorem trace_read (K n : Nat) (s : AnalogKeyMatrix) (h : List AKM_State) (sd : AKM_State)
    (val : Int) (millis : Nat) (hK : 2 ≤ K) (hK2 : K ≤ 127)
    (hi : HistInv K s h sd) (hk : KeyedOK K n s) (ha : HistAdj sd h) :
    HistAdj sd (histStep s (read K none s val millis).1 h) := by
  have hl := hi.logOK
  have h0 := hi.slots 0 (by omega)
  have e0 : back K s.now_i 0 = s.now_i := by unfold back; simp
  rw [e0] at h0
  obtain ⟨c, t, hct⟩ : ∃ c t, h = c :: t := by
    cases h with
    | nil => exact absurd rfl hi.nonempty
    | cons c t => exact ⟨c, t, rfl⟩
  have hc : rd s._log s.now_i = c := by
    rw [h0, hct]
    rfl
  rcases read_step K n s val millis hk with ⟨_, e⟩ | e | ⟨ev, key, e, _, hadj⟩
  · rw [e]
    have e2 : histStep s
        { s with _log := setAt s._log s.now_i { rd s._log s.now_i with val := val } } h =
        { rd s._log s.now_i with val := val } :: h.tail := by
      unfold histStep
      rw [if_neg (fun hne => hne rfl), nowRec_write K s _ hl]
    show HistAdj sd (histStep s
      { s with _log := setAt s._log s.now_i { rd s._log s.now_i with val := val } } h)
    rw [e2, hct, List.tail_cons]
    rw [hct] at ha
    exact histAdj_replace sd _ c t ha (by rw [hc]) (by rw [hc])
  · rw [e]
    have e2 : histStep s s h = h := by
      unfold histStep nowRec
      rw [if_neg (fun hne => hne rfl), hl.nowp, hc, hct, List.tail_cons]
    show HistAdj sd (histStep s s h)
    rw [e2]
    exact ha
  · rw [e]
    obtain ⟨b1, b2, b3, b4, b5, b6⟩ := advance_facts K s val ev key millis hK hK2 hl
    have e2 : histStep s (readTail K s ((s.now_i + 1) % K) val ev key millis).1 h =
        ⟨val, ev, key, millis⟩ :: h := by
      unfold histStep nowRec
      rw [if_pos b2, b4, b5]
    rw [e2]
    apply histAdj_push sd _ h ha
    rw [← h0]
    exact hadj

/-- What holds of every traced state of an object with `n ≥ 1` keys when error
detection is disabled. -/
theorem traced_inv (K n : Nat) (mem s : AnalogKeyMatrix) (h : List AKM_State) (sd : AKM_State)
    (hK : 2 ≤ K) (hK2 : K ≤ 127) (h1 : mem._log.length = K) (h2 : mem.log.length = K)
    (hn : 1 ≤ n) (hnum : mem.numOfKeys = n) (hnth : mem.nthKey = n - 1)
    (hknum : ∀ r, r < n → (rd mem.keys r).knum < n)
    (ht : Traced K none mem s h sd) :
    HistInv K s h sd ∧ KeyedOK K n s ∧ HistAdj sd h := by
  induction ht with
  | seed val ms =>
    refine ⟨histInv_resetCore K mem val ms hK hK2 h1 h2,
      keyedOK_resetCore K n mem val ms hK hK2 h1 h2 hn hnum hnth hknum, fun j hj => ?_⟩
    simp at hj
  | read s h sd val ms _ ih =>
    obtain ⟨i1, i2, i3⟩ := ih
    exact ⟨histInv_read K none s h sd val ms hK hK2 i1, keyedOK_read K n s val ms hK hK2 i2,
      trace_read K n s h sd val ms hK hK2 i1 i2 i3⟩
  | reseed s h sd val ms _ ih =>
    obtain ⟨i1, i2, _⟩ := ih
    refine ⟨histInv_resetCore K s val ms hK hK2 i1.logOK.slots i1.logOK.ptrs,
      keyedOK_resetCore K n s val ms hK hK2 i1.logOK.slots i1.logOK.ptrs hn i2.numOfKeys
        i2.nthKey i2.knum, fun j hj => ?_⟩
    simp at hj

/-- History adjacency for a log of at most 127 slots: without error detection,
for `1 ≤ numOfKeys ≤ 48` and `2 ≤ K ≤ 127`, in every state reached from a reset by reads, with `h` the
history since the reset (so that `h.length - 1` advances happened): for every
`j` with `j + 1 < h.length` and `j + 1 < K` the records `N = log[j]` and
`P = log[j+1]` satisfy: if `N` is a release then `P` is a press with the same
key; if `N` is idle then `P` is a release; if `N` is a press then `P` is not a
press of the same key. -/
theorem history_adjacency (K : Nat) (keyVals : List Nat) (releaseState : Int)
    (tolNum tolDen : Nat) (mem s : AnalogKeyMatrix) (h : List AKM_State) (sd : AKM_State)
    (h1 : 1 ≤ keyVals.length) (h48 : keyVals.length ≤ AKM_MaxNumOfKeys)
    (hmem : mem.keys.length = AKM_MaxNumOfKeys)
    (hK : 2 ≤ K) (hK2 : K ≤ 127) (hl1 : mem._log.length = K) (hl2 : mem.log.length = K)
    (ht : Traced K none (calibrated keyVals.length keyVals releaseState tolNum tolDen mem)
      s h sd)
    (j : Nat) (hj : j + 1 < h.length) (hjK : j + 1 < K) :
    ((logRec s j).event = AKM_RELEASE →
      (logRec s (j + 1)).event = AKM_PRESS ∧ (logRec s (j + 1)).key = (logRec s j).key) ∧
    ((logRec s j).event = AKM_IDLE → (logRec s (j + 1)).event = AKM_RELEASE) ∧
    ((logRec s j).event = AKM_PRESS →
      ¬ ((logRec s (j + 1)).event = AKM_PRESS ∧ (logRec s (j + 1)).key = (logRec s j).key)) := by
  have hnth : (calibrated keyVals.length keyVals releaseState tolNum tolDen mem).nthKey =
      keyVals.length - 1 := calibrated_nthKey keyVals releaseState tolNum tolDen mem h1 h48
  obtain ⟨i1, _, i3⟩ := traced_inv K keyVals.length
    (calibrated keyVals.length keyVals releaseState tolNum tolDen mem) s h sd hK hK2 hl1 hl2 h1
    rfl hnth (buildKeys_knum_lt keyVals releaseState tolNum tolDen mem.keys (by omega)) ht
  rw [histInv_logRec K s h sd hK i1 j (by omega), histInv_logRec K s h sd hK i1 (j + 1) hjK]
  exact i3 j hj

/-- History adjacency on the scenario: after the seeding and the polls 500 and 0
the log holds release, press, seed. -/
theorem history_adjacency_witness :
    ((1 ≤ demoKeyVals.length ∧ demoKeyVals.length ≤ AKM_MaxNumOfKeys) ∧
      (zeroMem 48 6).keys.length = AKM_MaxNumOfKeys ∧ (2 ≤ 6 ∧ 6 ≤ 127) ∧
      (zeroMem 48 6)._log.length = 6 ∧ (zeroMem 48 6).log.length = 6 ∧
      0 + 1 < demoHist.length ∧ 0 + 1 < 6 ∧
      (logRec (read 6 none (read 6 none demoSeeded 500 11).1 0 13).1 0).event = AKM_RELEASE) ∧
    (((logRec (read 6 none (read 6 none demoSeeded 500 11).1 0 13).1 0).event = AKM_RELEASE →
      (logRec (read 6 none (read 6 none demoSeeded 500 11).1 0 13).1 (0 + 1)).event =
          AKM_PRESS ∧
        (logRec (read 6 none (read 6 none demoSeeded 500 11).1 0 13).1 (0 + 1)).key =
          (logRec (read 6 none (read 6 none demoSeeded 500 11).1 0 13).1 0).key) ∧
    ((logRec (read 6 none (read 6 none demoSeeded 500 11).1 0 13).1 0).event = AKM_IDLE →
      (logRec (read 6 none (read 6 none demoSeeded 500 11).1 0 13).1 (0 + 1)).event =
        AKM_RELEASE) ∧
    ((logRec (read 6 none (read 6 none demoSeeded 500 11).1 0 13).1 0).event = AKM_PRESS →
      ¬ ((logRec (read 6 none (read 6 none demoSeeded 500 11).1 0 13).1 (0 + 1)).event =
          AKM_PRESS ∧
        (logRec (read 6 none (read 6 none demoSeeded 500 11).1 0 13).1 (0 + 1)).key =
          (logRec (read 6 none (read 6 none demoSeeded 500 11).1 0 13).1 0).key))) :=
  ⟨by decide,
    history_adjacency 6 demoKeyVals (-1) 1 10 (zeroMem 48 6) _ demoHist _ (by decide)
      (by decide) (by decide) (by decide) (by decide) (by decide) (by decide)
      (Traced.read _ _ _ 0 13 (Traced.read _ _ _ 500 11 (Traced.seed 0 7))) 0 (by decide)
      (by decide)⟩

/-! ### Two keys: the continuation and the edge claims -/

/-- C3 fails on two keys, by the defect of C2: the limits loop leaves
`keys[0][kmax]` and `keys[1][kmin]` unwritten, so with the values 200 and 500 the
table is `[20, 0]`, `[0, 1023]` and key 1's window holds the readings below 20,
which `read()` tests for the release region first (line 266).  In the reachable
state where the current record is a press of key 1, the reading 10, in key 1's
window, moves the cursor from slot 1 to slot 2 and logs a release. -/
theorem continuation_breaks_two_keys :
    Reachable 6 none twoKeyObj twoKeyPressed ∧
    twoKeyObj.keys.take 2 = [⟨0, 200, 20, 0⟩, ⟨1, 500, 0, 1023⟩] ∧
    twoKeyPressed.now_i = 1 ∧ nowRec twoKeyPressed = ⟨500, AKM_PRESS, 1, 9⟩ ∧
    (rd twoKeyObj.keys 1).knum = 1 ∧ inWindow twoKeyObj.keys 1 10 ∧
    (read 6 none twoKeyPressed 10 10).1.now_i = 2 ∧
    (read 6 none twoKeyPressed 10 10).1.now_i ≠ twoKeyPressed.now_i ∧
    nowRec (read 6 none twoKeyPressed 10 10).1 = ⟨10, AKM_RELEASE, 1, 10⟩ :=
  ⟨Reachable.read _ 500 9 (Reachable.reset 0 7 0 8), by decide, by decide, by decide, by decide,
    by decide, by decide, by decide, by decide⟩

/-- C4 fails on two keys, by the defect of C2: with the values 200 and 500 the
table is `[20, 0]`, `[0, 1023]`.  In the reachable state right after
`resetStates()`, whose current record is idle, the reading 10 lies in key 1's
window, but `read()` takes it for the release region (line 266): the cursor
stays at slot 0 and the current record stays idle, so no press is logged. -/
theorem edge_missed_two_keys :
    Reachable 6 none twoKeyObj twoKeyState ∧
    twoKeyObj.keys.take 2 = [⟨0, 200, 20, 0⟩, ⟨1, 500, 0, 1023⟩] ∧
    twoKeyState.now_i = 0 ∧ nowRec twoKeyState = ⟨0, AKM_IDLE, -1, 7⟩ ∧
    (rd twoKeyObj.keys 1).knum = 1 ∧ inWindow twoKeyObj.keys 1 10 ∧
    (read 6 none twoKeyState 10 9).1.now_i = twoKeyState.now_i ∧
    nowRec (read 6 none twoKeyState 10 9).1 = ⟨10, AKM_IDLE, -1, 7⟩ :=
  ⟨Reachable.reset 0 7 0 8, by decide, by decide, by decide, by decide, by decide, by decide,
    by decide⟩

/-! ### Order of keys of equal value -/

theorem tiedInv_swapStep (n i j a b v : Nat) (keys : List KeyRow)
    (hij : i < j) (hj : j < n) (hlen : n ≤ keys.length) (h : TiedInv n a b v keys)
    (hproc : ∀ k, i < k → k < j → (rd keys i).kval ≤ (rd keys k).kval) :
    TiedInv n a b v (swapStep i j keys) := by
  by_cases hc : (rd keys i).kval > (rd keys j).kval
  · have hrd := fun r => rd_swapStep_pos i j r keys (by omega) (by omega) (by omega) hc
    obtain ⟨pa, pb, h1, h2, ha1, ha2, hb1, hb2, hge⟩ := h
    have hji : ¬ (j = i) := by omega
    by_cases e1 : i = pa
    · have := hge j (by omega) hj
      rw [e1, ha2] at hc
      omega
    by_cases e2 : i = pb
    · have := hge j (by omega) hj
      rw [e2, hb2] at hc
      omega
    by_cases e3 : j = pa
    · refine ⟨i, pb, by omega, h2, ?_, ?_, ?_, ?_, fun r hr1 hr2 => ?_⟩
      · rw [hrd i, if_pos rfl, e3]; exact ha1
      · rw [hrd i, if_pos rfl, e3]; exact ha2
      · rw [hrd pb, if_neg (by omega), if_neg (by omega)]; exact hb1
      · rw [hrd pb, if_neg (by omega), if_neg (by omega)]; exact hb2
      · rw [hrd r, if_neg (by omega)]
        by_cases c : r = j
        · rw [if_pos c]
          show v ≤ (rd keys i).kval
          rw [e3, ha2] at hc
          omega
        · rw [if_neg c]
          by_cases c2 : r < j
          · have := hproc r hr1 c2
            rw [e3, ha2] at hc
            omega
          · exact hge r (by omega) hr2
    by_cases e4 : j = pb
    · by_cases c0 : i < pa
      · have := hproc pa c0 (by omega)
        rw [ha2] at this
        rw [e4, hb2] at hc
        omega
      · refine ⟨pa, i, by omega, by omega, ?_, ?_, ?_, ?_, fun r hr1 hr2 => ?_⟩
        · rw [hrd pa, if_neg (by omega), if_neg (by omega)]; exact ha1
        · rw [hrd pa, if_neg (by omega), if_neg (by omega)]; exact ha2
        · rw [hrd i, if_pos rfl, e4]; exact hb1
        · rw [hrd i, if_pos rfl, e4]; exact hb2
        · rw [hrd r]
          by_cases c : r = i
          · rw [if_pos c]
            show v ≤ (rd keys j).kval
            rw [e4, hb2]
          · rw [if_neg c]
            by_cases c2 : r = j
            · rw [if_pos c2]
              show v ≤ (rd keys i).kval
              rw [e4, hb2] at hc
              omega
            · rw [if_neg c2]
              exact hge r hr1 hr2
    · refine ⟨pa, pb, h1, h2, ?_, ?_, ?_, ?_, fun r hr1 hr2 => ?_⟩
      · rw [hrd pa, if_neg (by omega), if_neg (by omega)]; exact ha1
      · rw [hrd pa, if_neg (by omega), if_neg (by omega)]; exact ha2
      · rw [hrd pb, if_neg (by omega), if_neg (by omega)]; exact hb1
      · rw [hrd pb, if_neg (by omega), if_neg (by omega)]; exact hb2
      · rw [hrd r]
        by_cases c : r = i
        · rw [if_pos c]
          show v ≤ (rd keys j).kval
          exact hge j (by omega) hj
        · rw [if_neg c]
          by_cases c2 : r = j
          · rw [if_pos c2]
            show v ≤ (rd keys i).kval
            have := hge j (by omega) hj
            omega
          · rw [if_neg c2]
            exact hge r hr1 hr2
  · rw [swapStep_neg i j keys hc]; exact h

theorem tiedInv_sortInner (n i a b v : Nat) (fuel : Nat) :
    ∀ (j : Nat) (keys : List KeyRow), i < j → j + fuel = n → n ≤ keys.length →
      TiedInv n a b v keys →
      (∀ k, i < k → k < j → (rd keys i).kval ≤ (rd keys k).kval) →
      TiedInv n a b v (sortInner i fuel j keys) := by
  induction fuel with
  | zero =>
    intro j keys _ _ _ h _
    exact h
  | succ f ih =>
    intro j keys hij hjn hlen h hr
    have hl := length_swapStep i j keys
    have hj : j < n := by omega
    have hstep : ∀ b, i < b → b < j + 1 →
        (rd (swapStep i j keys) i).kval ≤ (rd (swapStep i j keys) b).kval := by
      intro b hb1 hb2
      by_cases hc : (rd keys i).kval > (rd keys j).kval
      · have hrd := fun r => rd_swapStep_pos i j r keys (by omega) (by omega) (by omega) hc
        rw [hrd i, hrd b, if_pos rfl, if_neg (by omega)]
        by_cases e2 : b = j
        · rw [if_pos e2]; exact Nat.le_of_lt hc
        · rw [if_neg e2]
          have := hr b hb1 (by omega)
          exact Nat.le_trans (Nat.le_of_lt hc) this
      · rw [swapStep_neg i j keys hc]
        by_cases e2 : b = j
        · subst e2; exact Nat.le_of_not_gt hc
        · exact hr b hb1 (by omega)
    simp only [sortInner]
    exact ih (j + 1) (swapStep i j keys) (by omega) (by omega) (by omega)
      (tiedInv_swapStep n i j a b v keys hij hj hlen h hr) hstep

theorem length_sortInner (i : Nat) (fuel : Nat) :
    ∀ (j : Nat) (keys : List KeyRow), (sortInner i fuel j keys).length = keys.length := by
  induction fuel with
  | zero => intro j keys; rfl
  | succ f ih =>
    intro j keys
    simp only [sortInner]
    rw [ih, length_swapStep]

theorem tiedInv_sortOuter (n a b v : Nat) (fuel : Nat) :
    ∀ (i : Nat) (keys : List KeyRow), i + fuel = n → n ≤ keys.length →
      TiedInv n a b v keys → TiedInv n a b v (sortOuter n fuel i keys) := by
  induction fuel with
  | zero =>
    intro i keys _ _ h
    exact h
  | succ f ih =>
    intro i keys hin hlen h
    simp only [sortOuter]
    apply ih (i + 1) _ (by omega) (by rw [length_sortInner]; exact hlen)
    exact tiedInv_sortInner n i a b v (n - (i + 1)) (i + 1) keys (by omega) (by omega) hlen h
      (fun k h1 h2 => by omega)

/-- C8 as amended: two keys `a < b` of equal value stand in the sorted table in
their input order whenever no key after `a` in the input has a smaller value:
the rows that hold them exist, and wherever they are, the row of key `a` is
before the row of key `b`. -/
theorem sort_keeps_ties_in_order (keyVals : List Nat) (keys0 : List KeyRow)
    (hmem : keyVals.length ≤ keys0.length) (a b : Nat) (hab : a < b)
    (hb : b < keyVals.length) (heq : keyVals.getD a 0 = keyVals.getD b 0)
    (hno : ∀ c, c < keyVals.length → a < c → keyVals.getD a 0 ≤ keyVals.getD c 0) :
    (∃ ra rb, ra < rb ∧ rb < keyVals.length ∧
      (rd (sortedKeys keyVals keys0) ra).knum = a ∧
      (rd (sortedKeys keyVals keys0) rb).knum = b) ∧
    (∀ ra rb, ra < keyVals.length → rb < keyVals.length →
      (rd (sortedKeys keyVals keys0) ra).knum = a →
      (rd (sortedKeys keyVals keys0) rb).knum = b → ra < rb) := by
  obtain ⟨c1, c2⟩ := rd_copyLoop keyVals keyVals.length 0 keys0 (by omega)
  have hrow : ∀ r, r < keyVals.length → rd (copyLoop keyVals keyVals.length 0 keys0) r =
      ⟨r, keyVals.getD r 0, (rd keys0 r).kmin, (rd keys0 r).kmax⟩ := by
    intro r hr
    rw [c2 r, if_pos (by omega)]
  have h0 : TiedInv keyVals.length a b (keyVals.getD a 0)
      (copyLoop keyVals keyVals.length 0 keys0) := by
    refine ⟨a, b, hab, hb, ?_, ?_, ?_, ?_, fun r hr1 hr2 => ?_⟩
    · rw [hrow a (by omega)]
    · rw [hrow a (by omega)]
    · rw [hrow b hb]
    · rw [hrow b hb]; exact heq.symm
    · rw [hrow r hr2]; exact hno r hr2 hr1
  have h1 := tiedInv_sortOuter keyVals.length a b (keyVals.getD a 0) keyVals.length 0
    (copyLoop keyVals keyVals.length 0 keys0) (by omega) (by omega) h0
  obtain ⟨pa, pb, q1, q2, qa, _, qb, _, _⟩ := h1
  obtain ⟨_, ⟨_, inj⟩, _⟩ := sortedKeys_spec keyVals keys0 hmem
  refine ⟨⟨pa, pb, q1, q2, qa, qb⟩, fun ra rb hra hrb ea eb => ?_⟩
  have e1 : ra = pa := inj ra pa hra (by omega) (by rw [ea]; exact qa.symm)
  have e2 : rb = pb := inj rb pb hrb q2 (by rw [eb]; exact qb.symm)
  omega

/-- C8 as amended, on the unsorted input 3, 1, 2, 2: keys 2 and 3, both of value
2, stay in their input order, in rows 1 and 2. -/
theorem sort_keeps_ties_in_order_witness :
    ([3, 1, 2, 2].length ≤ zeroKeys.length ∧ 2 < 3 ∧ 3 < [3, 1, 2, 2].length ∧
      [3, 1, 2, 2].getD 2 0 = [3, 1, 2, 2].getD 3 0 ∧
      (∀ c, c < [3, 1, 2, 2].length → 2 < c →
        [3, 1, 2, 2].getD 2 0 ≤ [3, 1, 2, 2].getD c 0) ∧
      pairsOf 4 (sortedKeys [3, 1, 2, 2] zeroKeys) = [(1, 1), (2, 2), (3, 2), (0, 3)]) ∧
    ((∃ ra rb, ra < rb ∧ rb < [3, 1, 2, 2].length ∧
      (rd (sortedKeys [3, 1, 2, 2] zeroKeys) ra).knum = 2 ∧
      (rd (sortedKeys [3, 1, 2, 2] zeroKeys) rb).knum = 3) ∧
    (∀ ra rb, ra < [3, 1, 2, 2].length → rb < [3, 1, 2, 2].length →
      (rd (sortedKeys [3, 1, 2, 2] zeroKeys) ra).knum = 2 →
      (rd (sortedKeys [3, 1, 2, 2] zeroKeys) rb).knum = 3 → ra < rb)) :=
  ⟨by decide,
    sort_keeps_ties_in_order [3, 1, 2, 2] zeroKeys (by decide) 2 3 (by decide) (by decide)
      (by decide) (by decide)⟩

/-! ### The ordered view and the cursors -/

theorem viewInv_resetCore (K : Nat) (s : AnalogKeyMatrix) (val : Int) (ms : Nat)
    (hK : 2 ≤ K) (hK2 : K ≤ 127) (h1 : s._log.length = K) (h2 : s.log.length = K) :
    ViewInv K (resetCore K s val ms) [⟨val, AKM_IDLE, -1, ms⟩] := by
  obtain ⟨a, _, _, _, a5, a6, a7, a8⟩ := resetCore_spec K s val ms (by omega) (by omega) h1 h2
  refine ⟨fun _ => ⟨a5, a8, a6⟩, fun hlen => ?_⟩
  simp at hlen

theorem viewInv_read (K : Nat) (AKM_ERROR : Option Int) (s : AnalogKeyMatrix)
    (h : List AKM_State) (sd : AKM_State) (val : Int) (millis : Nat)
    (hK : 2 ≤ K) (hK2 : K ≤ 127) (hi : HistInv K s h sd) (hv : ViewInv K s h) :
    ViewInv K (read K AKM_ERROR s val millis).1
      (histStep s (read K AKM_ERROR s val millis).1 h) := by
  have hl := hi.logOK
  have hlen : ∀ r : AKM_State, (r :: h.tail).length = h.length := by
    intro r
    cases h with
    | nil => exact absurd rfl hi.nonempty
    | cons a t => simp
  have hwrite : ∀ r, ViewInv K { s with _log := setAt s._log s.now_i r }
      (histStep s { s with _log := setAt s._log s.now_i r } h) := by
    intro r
    have e : histStep s { s with _log := setAt s._log s.now_i r } h = r :: h.tail := by
      unfold histStep
      rw [if_neg (fun hne => hne rfl), nowRec_write K s r hl]
    rw [e]
    exact ⟨fun c => hv.fresh (by rw [← hlen r]; exact c),
      fun c => hv.moved (by rw [← hlen r]; exact c)⟩
  rcases read_shape K AKM_ERROR s val millis with ⟨r, e⟩ | ⟨r, e⟩ | e | ⟨ev, key, e⟩
  · rw [e]; exact hwrite r
  · rw [e]; exact hwrite r
  · rw [e]
    have e2 : histStep s s h = nowRec s :: h.tail := by
      unfold histStep
      rw [if_neg (fun hne => hne rfl)]
    show ViewInv K s (histStep s s h)
    rw [e2]
    exact ⟨fun c => hv.fresh (by rw [← hlen (nowRec s)]; exact c),
      fun c => hv.moved (by rw [← hlen (nowRec s)]; exact c)⟩
  · rw [e]
    obtain ⟨n1, n2⟩ := next_ne K s.now_i hK hl.cur
    obtain ⟨a1, a2, a3, a4, a5, a6, a7, a8, a9, a10⟩ := readTail_advance K s
      ((s.now_i + 1) % K) val ev key millis n1 (by omega) (by omega) hl.ptrs
    have e2 : histStep s (readTail K s ((s.now_i + 1) % K) val ev key millis).1 h =
        nowRec (readTail K s ((s.now_i + 1) % K) val ev key millis).1 :: h := by
      unfold histStep
      rw [if_pos (by rw [a2]; exact n1)]
    rw [e2]
    refine ⟨fun c => ?_, fun _ => ⟨fun n hn => ?_, ?_⟩⟩
    · have : h ≠ [] := hi.nonempty
      cases h with
      | nil => exact absurd rfl this
      | cons a t => simp at c
    · rw [a9 n, a2]
      by_cases c : n = 0
      · subst c
        rw [if_pos rfl]
        unfold back
        simp
      · rw [if_neg c, if_pos hn, nAgoIdx_back K _ n hK2 n2 hn]
    · rw [a10, a2, if_pos (by omega), nAgoIdx_back K _ 1 hK2 n2 (by omega)]

theorem traced_viewInv (K : Nat) (AKM_ERROR : Option Int) (mem s : AnalogKeyMatrix)
    (h : List AKM_State) (sd : AKM_State)
    (hK : 2 ≤ K) (hK2 : K ≤ 127) (h1 : mem._log.length = K) (h2 : mem.log.length = K)
    (ht : Traced K AKM_ERROR mem s h sd) : HistInv K s h sd ∧ ViewInv K s h := by
  induction ht with
  | seed val ms =>
    exact ⟨histInv_resetCore K mem val ms hK hK2 h1 h2, viewInv_resetCore K mem val ms hK hK2 h1 h2⟩
  | read s h sd val ms _ ih =>
    exact ⟨histInv_read K AKM_ERROR s h sd val ms hK hK2 ih.1,
      viewInv_read K AKM_ERROR s h sd val ms hK hK2 ih.1 ih.2⟩
  | reseed s h sd val ms _ ih =>
    exact ⟨histInv_resetCore K s val ms hK hK2 ih.1.logOK.slots ih.1.logOK.ptrs,
      viewInv_resetCore K s val ms hK hK2 ih.1.logOK.slots ih.1.logOK.ptrs⟩

/-- C9 as amended: in every state reached from a reset by reads (`2 ≤ K ≤ 127`),
with `h` the history of the records that were current since the reset and `sd`
the seed record: `log[0]` designates the slot of `now`, which is slot `now_i`,
and the records that `log[1]` and `prev` designate are equal.  Before the first
advance since the reset (`h` has one record) the cursor is at slot 0, `log[1]`
designates slot 1 and `prev` slot `K - 1`, different slots when `K ≥ 3`, both
holding the seed record.  From the first advance on `log[1]` and `prev` designate
the same slot, the one just behind the cursor, and its record is the one that
was current before the last advance.  Every read that moves the cursor makes
`log[1]` and `prev` designate the slot that was current before it. -/
theorem ordered_view_agrees (K : Nat) (AKM_ERROR : Option Int) (mem s : AnalogKeyMatrix)
    (h : List AKM_State) (sd : AKM_State)
    (hK : 2 ≤ K) (hK2 : K ≤ 127) (h1 : mem._log.length = K) (h2 : mem.log.length = K)
    (ht : Traced K AKM_ERROR mem s h sd) :
    rd s.log 0 = (s.now : Int) ∧ s.now = s.now_i ∧ logRec s 1 = prevRec s ∧
    (h.length = 1 →
      s.now_i = 0 ∧ rd s.log 1 = 1 ∧ s.prev = ((K - 1 : Nat) : Int) ∧
      rd s._log 1 = sd ∧ rd s._log (K - 1) = sd ∧ (3 ≤ K → rd s.log 1 ≠ s.prev)) ∧
    (2 ≤ h.length →
      rd s.log 1 = s.prev ∧ s.prev = ((back K s.now_i 1 : Nat) : Int) ∧
      prevRec s = h.getD 1 sd) ∧
    (∀ (val : Int) (millis : Nat),
      (read K AKM_ERROR s val millis).1.now_i ≠ s.now_i →
      rd (read K AKM_ERROR s val millis).1.log 1 = (read K AKM_ERROR s val millis).1.prev ∧
      (read K AKM_ERROR s val millis).1.prev = (s.now_i : Int)) := by
  obtain ⟨hi, hv⟩ := traced_viewInv K AKM_ERROR mem s h sd hK hK2 h1 h2 ht
  have hl := hi.logOK
  have hget : ∀ m, h.length ≤ m → h.getD m sd = sd := by
    intro m hm
    simp [List.getD_eq_getElem?_getD, List.getElem?_eq_none hm]
  have hne : h ≠ [] := hi.nonempty
  have hpos : 1 ≤ h.length := by
    cases h with
    | nil => exact absurd rfl hne
    | cons a t => simp
  have hfresh : h.length = 1 →
      s.now_i = 0 ∧ rd s.log 1 = 1 ∧ s.prev = ((K - 1 : Nat) : Int) ∧
      rd s._log 1 = sd ∧ rd s._log (K - 1) = sd ∧ (3 ≤ K → rd s.log 1 ≠ s.prev) := by
    intro c
    obtain ⟨f1, f2, f3⟩ := hv.fresh c
    have s1 := hi.slots (K - 1) (by omega)
    have s2 := hi.slots 1 (by omega)
    rw [f1] at s1 s2
    have b1 : back K 0 (K - 1) = 1 := by unfold back; split_ifs <;> omega
    have b2 : back K 0 1 = K - 1 := by unfold back; split_ifs <;> omega
    rw [b1, hget (K - 1) (by omega)] at s1
    rw [b2, hget 1 (by omega)] at s2
    refine ⟨f1, by rw [f2 1 (by omega)]; rfl, f3, s1, s2, fun h3 => ?_⟩
    rw [f2 1 (by omega), f3]
    omega
  have hmoved : 2 ≤ h.length →
      rd s.log 1 = s.prev ∧ s.prev = ((back K s.now_i 1 : Nat) : Int) ∧
      prevRec s = h.getD 1 sd := by
    intro c
    obtain ⟨m1, m2⟩ := hv.moved c
    refine ⟨by rw [m1 1 (by omega), m2], m2, ?_⟩
    unfold prevRec
    rw [m2, rdAt_natCast]
    exact hi.slots 1 (by omega)
  have hzero : rd s.log 0 = (s.now : Int) := by
    rw [hl.nowp]
    rcases Nat.lt_or_ge h.length 2 with c | c
    · obtain ⟨f1, f2, _⟩ := hv.fresh (by omega)
      rw [f2 0 (by omega), f1]
    · obtain ⟨m1, _⟩ := hv.moved c
      rw [m1 0 (by omega)]
      unfold back
      simp
  refine ⟨hzero, hl.nowp, ?_, hfresh, hmoved, fun val millis hmove => ?_⟩
  · rcases Nat.lt_or_ge h.length 2 with c | c
    · obtain ⟨_, f2, f3, f4, f5, _⟩ := hfresh (by omega)
      unfold logRec prevRec
      rw [f2, f3, rdAt_natCast]
      show rdAt s._log ((1 : Nat) : Int) = _
      rw [rdAt_natCast, f4, f5]
    · unfold logRec
      rw [(hmoved c).1]
      rfl
  · rcases read_shape K AKM_ERROR s val millis with ⟨r, e⟩ | ⟨r, e⟩ | e | ⟨ev, key, e⟩
    · rw [e] at hmove; exact absurd rfl hmove
    · rw [e] at hmove; exact absurd rfl hmove
    · rw [e] at hmove; exact absurd rfl hmove
    · rw [e]
      exact (advance_ptrs K s val ev key millis hK hK2 hl).2

/-- C9 as amended, on the scenario: after the seeding and the polls 500 and 0 two
advances happened; `log[1]` and `prev` both designate slot 1, which holds the
press record. -/
theorem ordered_view_agrees_witness :
    ((2 ≤ 6 ∧ 6 ≤ 127) ∧ demoObj._log.length = 6 ∧ demoObj.log.length = 6 ∧
      demoHist.length = 3 ∧
      rd (read 6 none (read 6 none demoSeeded 500 11).1 0 13).1.log 1 = 1 ∧
      (read 6 none (read 6 none demoSeeded 500 11).1 0 13).1.prev = 1 ∧
      demoHist.getD 1 ⟨0, AKM_IDLE, -1, 7⟩ = ⟨500, AKM_PRESS, 1, 11⟩) ∧
    (2 ≤ demoHist.length →
      rd (read 6 none (read 6 none demoSeeded 500 11).1 0 13).1.log 1 =
        (read 6 none (read 6 none demoSeeded 500 11).1 0 13).1.prev ∧
      (read 6 none (read 6 none demoSeeded 500 11).1 0 13).1.prev =
        ((back 6 (read 6 none (read 6 none demoSeeded 500 11).1 0 13).1.now_i 1 : Nat) : Int) ∧
      prevRec (read 6 none (read 6 none demoSeeded 500 11).1 0 13).1 =
        demoHist.getD 1 ⟨0, AKM_IDLE, -1, 7⟩) :=
  ⟨by decide,
    (ordered_view_agrees 6 none demoObj _ demoHist _ (by decide) (by decide) (by decide)
      (by decide)
      (Traced.read _ _ _ 0 13 (Traced.read _ _ _ 500 11 (Traced.seed 0 7)))).2.2.2.2.1⟩

/-! ### A log of 130 slots: the eight-bit index of the shuffle -/

theorem longState_succ (j : Nat) :
    longState (j + 1) = (read 130 none (longState j) (longSample j).1 (longSample j).2).1 := by
  unfold longState
  rw [List.range_succ, List.map_append, runReads_append]
  rfl

theorem longKey_facts (j : Nat) :
    longKey j < 3 ∧ longKey (j + 1) ≠ longKey j ∧
    ¬ inRelease longObj.keys 2 (longSample j).1 ∧
    keyLoop longObj.keys (longSample j).1 3 0 = some (longKey j) ∧
    (rd longObj.keys (longKey j)).knum = longKey j := by
  have h3 : longKey j < 3 := by unfold longKey; split_ifs <;> omega
  have hne : longKey (j + 1) ≠ longKey j := by
    simp only [longKey]
    split_ifs <;> first | omega | contradiction
  have hall : ∀ k, k < 3 →
      ¬ inRelease longObj.keys 2 ((demoKeyVals.getD k 0 : Nat) : Int) ∧
      keyLoop longObj.keys ((demoKeyVals.getD k 0 : Nat) : Int) 3 0 = some k ∧
      (rd longObj.keys k).knum = k := by decide
  exact ⟨h3, hne, hall (longKey j) h3⟩

/-- The long scenario after `j ≤ 129` polls: every poll pressed a new key and
moved the cursor one slot on. -/
theorem longState_inv (j : Nat) (hj : j ≤ 129) :
    LogOK 130 (longState j) ∧ (longState j).keys = longObj.keys ∧
    (longState j).numOfKeys = 3 ∧ (longState j).nthKey = 2 ∧
    (longState j).now_i = j ∧
    rd (longState j)._log 0 = ⟨0, AKM_IDLE, -1, 7⟩ ∧
    (∀ i, i < j → rd (longState j)._log (i + 1) =
      ⟨(longSample i).1, AKM_PRESS, (longKey i : Int), (longSample i).2⟩) ∧
    (1 ≤ j → (∀ n, n < 130 → rd (longState j).log n =
        if n = 0 then (j : Int) else nAgoIdx 130 j n) ∧
      (longState j).prev = nAgoIdx 130 j 1) := by
  induction j with
  | zero =>
    have l1 : longObj._log.length = 130 := List.length_replicate _ _
    have l2 : longObj.log.length = 130 := List.length_replicate _ _
    obtain ⟨a, a2, a3, a4, a5, _, a7, _⟩ := resetCore_spec 130 longObj 0 7 (by decide) (by decide)
      l1 l2
    refine ⟨a, a2, a3, a4, a5, a7 0 (by decide), fun i hi => by omega, fun h => by omega⟩
  | succ j ih =>
    obtain ⟨l, k1, k2, k3, n0, s0, sl, _⟩ := ih (by omega)
    obtain ⟨f1, f2, f3, f4, f5⟩ := longKey_facts j
    have hcur : ¬ ((rd (longState j)._log (longState j).now_i).event = AKM_PRESS ∧
        (rd (longState j)._log (longState j).now_i).key =
          ((rd (longState j).keys (longKey j)).knum : Int)) := by
      rw [n0, k1, f5]
      cases j with
      | zero =>
        rw [s0]
        intro h
        exact absurd h.1 (by decide)
      | succ m =>
        rw [sl m (by omega)]
        intro h
        have h2 : ((longKey m : Nat) : Int) = ((longKey (m + 1) : Nat) : Int) := h.2
        have h3 := (longKey_facts m).2.1
        omega
    have e : read 130 none (longState j) (longSample j).1 (longSample j).2 =
        readTail 130 (longState j) (((longState j).now_i + 1) % 130) (longSample j).1 AKM_PRESS
          ((rd (longState j).keys (longKey j)).knum : Int) (longSample j).2 :=
      read_press 130 none (longState j) (longSample j).1 (longSample j).2 (longKey j)
        (by rw [k1, k3]; exact f3) (by rw [k1, k2]; exact f4) hcur
    have hm : ((longState j).now_i + 1) % 130 = j + 1 := by
      rw [n0]
      exact Nat.mod_eq_of_lt (by omega)
    rw [hm, k1, f5] at e
    obtain ⟨a1, a2, a3, a4, a5, a6, a7, a8, a9, a10⟩ := readTail_advance 130 (longState j) (j + 1)
      (longSample j).1 AKM_PRESS (longKey j : Int) (longSample j).2 (by rw [n0]; omega)
      (by omega) (by decide) l.ptrs
    rw [longState_succ, e]
    refine ⟨⟨?_, a8, by rw [a2]; omega, by rw [a3, a2]⟩, by rw [a5, k1], by rw [a6, k2],
      by rw [a7, k3], a2, ?_, fun i hi => ?_, fun _ => ⟨fun n hn => ?_, ?_⟩⟩
    · rw [a1, length_setAt]; exact l.slots
    · rw [a1, rd_setAt_ne _ _ _ _ (by omega)]; exact s0
    · rw [a1]
      by_cases c : i = j
      · subst c
        rw [rd_setAt_eq _ _ _ (by rw [l.slots]; omega)]
      · rw [rd_setAt_ne _ _ _ _ (by omega)]
        exact sl i (by omega)
    · rw [a9 n]
      by_cases c : n = 0
      · rw [if_pos c, if_pos c]
      · rw [if_neg c, if_neg c, if_pos hn]
    · rw [a10, if_pos (by decide)]

theorem longHist_inv (j : Nat) (hj : j ≤ 129) :
    Traced 130 none longObj (longState j) (longHist j) ⟨0, AKM_IDLE, -1, 7⟩ ∧
    (longHist j).length = j + 1 ∧
    (longHist j).head? = some (rd (longState j)._log j) := by
  induction j with
  | zero =>
    refine ⟨Traced.seed 0 7, rfl, ?_⟩
    have := (longState_inv 0 (by omega)).2.2.2.2.2.1
    rw [this]
    rfl
  | succ j ih =>
    obtain ⟨t, len, _⟩ := ih (by omega)
    have i0 := longState_inv j (by omega)
    have i1 := longState_inv (j + 1) hj
    have e : longHist (j + 1) = nowRec (longState (j + 1)) :: longHist j := by
      show histStep (longState j) (longState (j + 1)) (longHist j) = _
      unfold histStep
      rw [if_pos (by rw [i0.2.2.2.2.1, i1.2.2.2.2.1]; omega)]
    have t2 := Traced.read (longState j) (longHist j) ⟨0, AKM_IDLE, -1, 7⟩ (longSample j).1
      (longSample j).2 t
    rw [← longState_succ] at t2
    refine ⟨t2, ?_, ?_⟩
    · rw [e, List.length_cons, len]
    · rw [e]
      unfold nowRec
      rw [i1.1.nowp, i1.2.2.2.2.1]
      rfl

/-- C10 fails for a log of 130 slots: `nAgoIdx` is an `int8_t` (line 342), so
with the cursor at slot 129 the index `129 - 1 = 128` wraps to `-128` and line
348 turns it into `130 - 128 = 2`.  After `resetStates()` and 129 presses
(keys 1, 2, 0, then 1 and 2 in turn, clock values 10 to 138) the history has 130
records, the record that was current one advance ago is the press of key 1 in
slot 128, but `log[1]` designates slot 2, the press of key 2 of the second
poll. -/
theorem history_order_breaks_at_130 :
    Traced 130 none longObj (longState 129) (longHist 129) ⟨0, AKM_IDLE, -1, 7⟩ ∧
    (longHist 129).length = 130 ∧ (longState 129).now_i = 129 ∧
    (longHist 129).getD 1 ⟨0, AKM_IDLE, -1, 7⟩ = ⟨500, AKM_PRESS, 1, 137⟩ ∧
    rd (longState 129)._log 128 = ⟨500, AKM_PRESS, 1, 137⟩ ∧
    nAgoIdx 130 129 1 = 2 ∧ rd (longState 129).log 1 = 2 ∧
    logRec (longState 129) 1 = ⟨900, AKM_PRESS, 2, 11⟩ ∧
    logRec (longState 129) 1 ≠ (longHist 129).getD 1 ⟨0, AKM_IDLE, -1, 7⟩ := by
  obtain ⟨t, len, _⟩ := longHist_inv 129 (by decide)
  obtain ⟨_, _, _, _, n0, _, sl, pt⟩ := longState_inv 129 (by decide)
  obtain ⟨_, _, _, _, n8, _, sl8, _⟩ := longState_inv 128 (by decide)
  obtain ⟨_, _, hd8⟩ := longHist_inv 128 (by decide)
  have e : longHist 129 = nowRec (longState 129) :: longHist 128 := by
    show histStep (longState 128) (longState 129) (longHist 128) = _
    unfold histStep
    rw [if_pos (by rw [n0, n8]; decide)]
  have h1 : (longHist 129).getD 1 ⟨0, AKM_IDLE, -1, 7⟩ = ⟨500, AKM_PRESS, 1, 137⟩ := by
    rw [e, List.getD_cons_succ]
    have : (longHist 128).getD 0 ⟨0, AKM_IDLE, -1, 7⟩ = rd (longState 128)._log 128 := by
      cases hl : longHist 128 with
      | nil => rw [hl] at hd8; simp at hd8
      | cons a t =>
        rw [hl] at hd8
        simp only [List.head?_cons, Option.some.injEq] at hd8
        rw [List.getD_cons_zero, hd8]
    rw [this, sl8 127 (by decide)]
    decide
  have h2 : rd (longState 129).log 1 = 2 := by
    rw [(pt (by decide)).1 1 (by decide), if_neg (by decide)]
    decide
  have h3 : logRec (longState 129) 1 = ⟨900, AKM_PRESS, 2, 11⟩ := by
    unfold logRec
    rw [h2]
    show rdAt (longState 129)._log ((2 : Nat) : Int) = _
    rw [rdAt_natCast, sl 1 (by decide)]
    decide
  refine ⟨t, len, n0, h1, ?_, by decide, h2, h3, ?_⟩
  · rw [sl 127 (by decide)]
    decide
  · rw [h1, h3]
    decide

/-- C20 fails for a log of 130 slots, by the `int8_t` index of line 342: after
`resetStates()` and 129 presses (keys 1, 2, 0, then 1 and 2 in turn) 129
advances happened, `log[0]` designates slot 129, the press of key 2 of the last
poll, and `log[1]` designates slot 2, the press of key 2 of the second poll:
two adjacent records of the ordered view are presses of the same key. -/
theorem history_adjacency_breaks_at_130 :
    Traced 130 none longObj (longState 129) (longHist 129) ⟨0, AKM_IDLE, -1, 7⟩ ∧
    (longHist 129).length = 129 + 1 ∧
    rd (longState 129).log 0 = 129 ∧ rd (longState 129).log 1 = 2 ∧
    logRec (longState 129) 0 = ⟨900, AKM_PRESS, 2, 138⟩ ∧
    logRec (longState 129) 1 = ⟨900, AKM_PRESS, 2, 11⟩ ∧
    (logRec (longState 129) 0).event = AKM_PRESS ∧
    (logRec (longState 129) 1).event = AKM_PRESS ∧
    (logRec (longState 129) 1).key = (logRec (longState 129) 0).key := by
  obtain ⟨t, len, _⟩ := longHist_inv 129 (by decide)
  obtain ⟨_, _, _, _, n0, _, sl, pt⟩ := longState_inv 129 (by decide)
  have h0 : rd (longState 129).log 0 = 129 := by
    rw [(pt (by decide)).1 0 (by decide), if_pos rfl]
    rfl
  have h2 : rd (longState 129).log 1 = 2 := by
    rw [(pt (by decide)).1 1 (by decide), if_neg (by decide)]
    decide
  have h3 : logRec (longState 129) 1 = ⟨900, AKM_PRESS, 2, 11⟩ := by
    unfold logRec
    rw [h2]
    show rdAt (longState 129)._log ((2 : Nat) : Int) = _
    rw [rdAt_natCast, sl 1 (by decide)]
    decide
  have h4 : logRec (longState 129) 0 = ⟨900, AKM_PRESS, 2, 138⟩ := by
    unfold logRec
    rw [h0]
    show rdAt (longState 129)._log ((129 : Nat) : Int) = _
    rw [rdAt_natCast, sl 128 (by decide)]
    decide
  refine ⟨t, len, h0, h2, h4, h3, ?_, ?_, ?_⟩
  · rw [h4]
  · rw [h3]
  · rw [h3, h4]

end AKM
